import Mathlib

/-!
The book builder eris: front-matter parsing, directory ordering, the table of
contents and source-code snippets.

A shallow embedding of `cmd/eris/main.go`, `internal/frontmatter.go` and
`internal/sourcecode.go`.

Modelling conventions.

* A Go `string` is a `List Char` (a valid UTF-8 text, one `Char` per rune).  All
  searches performed by the program look for ASCII bytes (`':'`, `' '`, `'\n'`),
  which never occur inside a multi-byte sequence, so slicing by rune agrees with
  slicing by byte.  Go compares strings bytewise; on UTF-8 this is the
  lexicographic order of the code points.
* Go `int` is the 64-bit signed integer; values are `Int`, and `strconv.Atoi`
  carries the range check explicitly.
* `panic` is the result `none`.
* `bufio.Scanner` with its default buffer delivers the lines cut by
  `bufio.ScanLines` up to the first line of `bufio.MaxScanTokenSize` (65536)
  bytes or more, carriage return included; there `Scan` returns false and `Err`
  is `bufio.ErrTooLong`.  Reading from a string or from an opened file raises no
  other error.
* `unicode.ToLower` is not part of the repository; it is a parameter
  (`CaseMapping`) of which only the ASCII behaviour and the fact that white space
  has no case are used.
-/

namespace Eris

/-! ## Strings -/

/-- `unicode.IsSpace`: the runes `strings.TrimSpace` removes. -/
def isSpace (c : Char) : Bool :=
  c = '\t' || c = '\n' || c = '\x0b' || c = '\x0c' || c = '\r' || c = ' ' ||
  c.toNat = 0x85 || c.toNat = 0xA0 || c.toNat = 0x1680 ||
  (0x2000 ≤ c.toNat && c.toNat ≤ 0x200A) ||
  c.toNat = 0x2028 || c.toNat = 0x2029 || c.toNat = 0x202F || c.toNat = 0x205F ||
  c.toNat = 0x3000

/-- The regexp class `\s` of Go's `regexp` package: `[\t\n\f\r ]`. -/
def isReSpace (c : Char) : Bool :=
  c = '\t' || c = '\n' || c = '\x0c' || c = '\r' || c = ' '

/-- `strings.TrimSpace`. -/
def trimSpace (s : List Char) : List Char :=
  ((s.dropWhile isSpace).reverse.dropWhile isSpace).reverse

/-- ASCII lower-casing of one rune, the behaviour of `unicode.ToLower` below U+0080. -/
def asciiLower (c : Char) : Char :=
  if 'A' ≤ c ∧ c ≤ 'Z' then Char.ofNat (c.toNat + 32) else c

/-- The rune mapping `unicode.ToLower`.  The Unicode case tables live in Go's
standard library; the development uses only that the mapping lower-cases ASCII
and leaves white space alone. -/
structure CaseMapping where
  toLowerRune : Char → Char
  ascii : ∀ c : Char, c.toNat < 128 → toLowerRune c = asciiLower c
  space : ∀ c : Char, isSpace c = true → toLowerRune c = c

/-- The case mapping that changes ASCII letters only. -/
def asciiCase : CaseMapping where
  toLowerRune := fun c => if c.toNat < 128 then asciiLower c else c
  ascii := fun c h => by simp [h]
  space := fun c h => by
    by_cases hc : c.toNat < 128
    · have hn : ¬ ('A' ≤ c ∧ c ≤ 'Z') := by
        intro hAZ
        have h1 : 65 ≤ c.toNat := hAZ.1
        have h2 : c.toNat ≤ 90 := hAZ.2
        have e : ∀ d : Char, c = d → c.toNat = d.toNat := fun d hd => by rw [hd]
        simp only [isSpace, Bool.or_eq_true, decide_eq_true_eq, Bool.and_eq_true] at h
        rcases h with ((((((((((((((h | h) | h) | h) | h) | h) | h) | h) | h) | h) | h) | h) | h)
          | h) | h)
        all_goals first
          | (have h' := e _ h; simp at h'; omega)
          | omega
      simp [hc, asciiLower, hn]
    · simp [hc]

/-- `strings.ToLower`. -/
def toLower (L : CaseMapping) (s : List Char) : List Char :=
  s.map L.toLowerRune

/-- `strings.Join`. -/
def stringsJoin : List (List Char) → List Char → List Char
  | [], _ => []
  | [a], _ => a
  | a :: b :: rest, sep => a ++ sep ++ stringsJoin (b :: rest) sep

/-- `strings.HasSuffix`. -/
def hasSuffix (s suffix : List Char) : Bool :=
  suffix.length ≤ s.length && s.drop (s.length - suffix.length) = suffix

/-- `strings.Repeat` for a non-negative count. -/
def stringsRepeat (s : List Char) (count : Nat) : List Char :=
  (List.replicate count s).flatten

/-- Go's `<` on strings. -/
def strLess : List Char → List Char → Bool
  | [], [] => false
  | [], _ :: _ => true
  | _ :: _, [] => false
  | a :: as, b :: bs =>
    if a < b then true else if b < a then false else strLess as bs

/-- `strings.Split(s, sep)[0]` for a one-byte separator: the text before the first
occurrence of the separator, the whole string if there is none. -/
def splitFirst (sep : Char) : List Char → List Char
  | [] => []
  | c :: cs => if c = sep then [] else c :: splitFirst sep cs

/-- Value of a decimal digit. -/
def digitVal (c : Char) : Nat := c.toNat - '0'.toNat

/-- The digits-only loop of `strconv.ParseUint` in base 10, without the range check. -/
def parseDigits (s : List Char) : Nat :=
  s.foldl (fun n c => n * 10 + digitVal c) 0

/-- `strconv.Atoi` on a 64-bit platform: an optional sign, one or more ASCII
digits, and a value that fits `int`; `none` stands for a non-nil error. -/
def atoi (s : List Char) : Option Int :=
  let neg := s.head? = some '-'
  let digits := if s.head? = some '-' ∨ s.head? = some '+' then s.tail else s
  if digits = [] ∨ ¬ digits.all Char.isDigit then none
  else
    let n : Int := if neg then -(parseDigits digits : Int) else (parseDigits digits : Int)
    if -(2 : Int) ^ 63 ≤ n ∧ n < (2 : Int) ^ 63 then some n else none

/-! ## Line scanning (`bufio.Scanner` with the default `ScanLines` split) -/

/-- `dropCR` of package `bufio`: drops one trailing carriage return. -/
def dropCR (l : List Char) : List Char :=
  if l.getLast? = some '\r' then l.dropLast else l

/-- The number of bytes of the UTF-8 encoding of a rune. -/
def utf8Size (c : Char) : Nat :=
  if c.toNat < 0x80 then 1 else if c.toNat < 0x800 then 2 else if c.toNat < 0x10000 then 3 else 4

/-- The length `len(s)` of a string: its number of bytes. -/
def utf8Len (s : List Char) : Nat :=
  (s.map utf8Size).sum

/-- The constant `bufio.MaxScanTokenSize`, the size to which the buffer of a
scanner grows. -/
def maxScanTokenSize : Nat := 64 * 1024

/-- The lines `bufio.ScanLines` cuts, before the carriage return is dropped, with
`cur` the bytes of the current line read so far, most recent first.  A line ends
at `'\n'`; at end of input a non-empty rest is a last line, an empty rest is
not. -/
def rawLinesAux (cur : List Char) : List Char → List (List Char)
  | [] => if cur = [] then [] else [cur.reverse]
  | c :: cs =>
    if c = '\n' then cur.reverse :: rawLinesAux [] cs
    else rawLinesAux (c :: cur) cs

/-- The lines of the text `s` between line feeds. -/
def rawLines (s : List Char) : List (List Char) :=
  rawLinesAux [] s

/-- All tokens returned by successive `scanner.Scan()` / `scanner.Text()` calls on
the text `s`.  A line is delivered, without one trailing `'\r'`, while the buffer
of `maxScanTokenSize` bytes holds it up to its line feed or to the end of input:
while it has fewer than `maxScanTokenSize` bytes.  At the first line that fills
the buffer `Scan` returns false, for that call and every later one. -/
def scanLines (s : List Char) : List (List Char) :=
  ((rawLines s).takeWhile fun l => decide (utf8Len l < maxScanTokenSize)).map dropCR

/-- Whether `scanner.Err()` is non-nil once `Scan` has returned false: the error
`bufio.ErrTooLong` of a line that fills the buffer. -/
def scanErr (s : List Char) : Bool :=
  (rawLines s).any fun l => decide (maxScanTokenSize ≤ utf8Len l)

/-! ## `internal/frontmatter.go` -/

/-- The struct `Content`. -/
structure Content where
  Title : List Char := []
  Body : List Char := []
  PageBreak : Bool := false
  Sample : Bool := false
  Backmatter : Bool := false
  Frontmatter : Bool := false
  Rule : Int := 0
  Index : Bool := false
  Id : List Char := []
  deriving DecidableEq

/-- `strings.Index(line, ":")` followed by the two slices `line[:idx]` and
`line[idx+1:]`; `none` when there is no colon (`idx == -1`). -/
def cutColon : List Char → Option (List Char × List Char)
  | [] => none
  | c :: cs =>
    if c = ':' then some ([], cs)
    else match cutColon cs with
      | none => none
      | some (pre, post) => some (c :: pre, post)

/-- `parseLine`: key and value of a metadata line; both empty without a colon. -/
def parseLine (L : CaseMapping) (line : List Char) : List Char × List Char :=
  match cutColon line with
  | some (pre, post) => (toLower L pre, trimSpace post)
  | none => ([], [])

/-- One iteration of the loop of `parseContent`: the `switch key` applied to the
record built so far.  `none` is the `panic(err)` of the `rule` case. -/
def parseContentStep (L : CaseMapping) (c : Content) (line : List Char) : Option Content :=
  let kv := parseLine L line
  if kv.1 = ['t', 'i', 't', 'l', 'e'] then some { c with Title := kv.2 }
  else if kv.1 = ['i', 'd'] then some { c with Id := kv.2 }
  else if kv.1 = ['p', 'a', 'g', 'e', '-', 'b', 'r', 'e', 'a', 'k'] then
    some { c with PageBreak := decide (kv.2 = ['y', 'e', 's']) }
  else if kv.1 = ['s', 'a', 'm', 'p', 'l', 'e'] then
    some { c with Sample := decide (kv.2 = ['y', 'e', 's']) }
  else if kv.1 = ['b', 'a', 'c', 'k', 'm', 'a', 't', 't', 'e', 'r'] then
    some { c with Backmatter := decide (kv.2 = ['y', 'e', 's']) }
  else if kv.1 = ['f', 'r', 'o', 'n', 't', 'm', 'a', 't', 't', 'e', 'r'] then
    some { c with Frontmatter := decide (kv.2 = ['y', 'e', 's']) }
  else if kv.1 = ['r', 'u', 'l', 'e'] then
    match atoi kv.2 with
    | some v => some { c with Rule := v }
    | none => none
  else some c

/-- The `for scanner.Scan()` loop of `parseContent` over the remaining lines. -/
def parseContentLoop (L : CaseMapping) : Content → List (List Char) → Option Content
  | c, [] => some c
  | c, line :: rest =>
    match parseContentStep L c line with
    | some c' => parseContentLoop L c' rest
    | none => none

/-- `parseContent`, applied to a scanner over the text `input`. -/
def parseContent (L : CaseMapping) (input : List Char) : Option Content :=
  parseContentLoop L {} (scanLines input)

/-- `delimiterRegex.MatchString(line)` for the pattern `^\s*-{3,}\s*$`. -/
def isDelimiter (line : List Char) : Bool :=
  let rest := line.dropWhile isReSpace
  let dashes := rest.takeWhile (fun c => c = '-')
  let tail := rest.dropWhile (fun c => c = '-')
  decide (3 ≤ dashes.length) && tail.all isReSpace

/-- The local variables of the scanning loop of `ParseFrontMatter`. -/
structure FrontMatterScan where
  inFrontMatter : Bool := false
  bodyLines : List (List Char) := []
  frontMatterLines : List (List Char) := []
  deriving DecidableEq

/-- One iteration of the scanning loop of `ParseFrontMatter`. -/
def frontMatterStep (st : FrontMatterScan) (line : List Char) : FrontMatterScan :=
  if isDelimiter line && !st.inFrontMatter then { st with inFrontMatter := true }
  else if isDelimiter line then { st with inFrontMatter := false }
  else if st.inFrontMatter then { st with frontMatterLines := st.frontMatterLines ++ [line] }
  else { st with bodyLines := st.bodyLines ++ [line] }

/-- `ParseFrontMatter`. -/
def ParseFrontMatter (L : CaseMapping) (c : List Char) : Option Content :=
  let st := (scanLines c).foldl frontMatterStep {}
  match parseContent L (stringsJoin st.frontMatterLines ['\n']) with
  | some content => some { content with Body := stringsJoin st.bodyLines ['\n'] }
  | none => none

/-! ## `cmd/eris/main.go`: ordering of directory entries -/

/-- `getOrder`. -/
def getOrder (name : List Char) : Int :=
  if name = ['i', 'n', 'd', 'e', 'x', '.', 'm', 'd'] then -1
  else match atoi (splitFirst ' ' name) with
    | some num => num
    | none => 1000000

/-- A file-system object as `ioutil.ReadDir` and `ioutil.ReadFile` present it: a
file with its name and its content (`none` when reading it fails), or a
directory with its name and its listing (`none` when listing it fails). -/
inductive FsNode where
  | file (name : List Char) (content : Option (List Char))
  | dir (name : List Char) (listing : Option (List FsNode))

/-- `entry.Name()`. -/
def FsNode.name : FsNode → List Char
  | .file n _ => n
  | .dir n _ => n

/-- `entry.IsDir()`. -/
def FsNode.isDir : FsNode → Bool
  | .file _ _ => false
  | .dir _ _ => true

/-- `filepath.Join(dirPath, name)` for a clean, non-empty directory path and the
name of one of its entries.  For another directory path `Join` also normalises
that path, which changes the prefix common to the paths of all siblings and
neither their order nor their suffixes. -/
def filepathJoin (dirPath name : List Char) : List Char :=
  dirPath ++ '/' :: name

/-- The struct `sortedEntries`.  The field `node` is the file-system object found
at `path`, which the Go code reads back through `ReadDir` / `ReadFile`. -/
structure sortedEntries where
  path : List Char
  order : Int
  depth : Int
  isDir : Bool
  node : FsNode

/-- The comparison function handed to `sort.Slice` in `processDirectory`. -/
def entryLess (a b : sortedEntries) : Bool :=
  if a.order = b.order then strLess a.path b.path else decide (a.order < b.order)

/-- Insertion of one element in front of the first element it is less than. -/
def insertLess {α : Type} (less : α → α → Bool) (x : α) : List α → List α
  | [] => [x]
  | y :: ys => if less x y then x :: y :: ys else y :: insertLess less x ys

/-- `sort.Slice`, as an insertion sort.  The library promises a permutation that
is ascending for `less` and nothing about equal elements; the entries of one
directory have distinct paths, for which that permutation is unique
(`sortSlice_unique`). -/
def sortSlice {α : Type} (less : α → α → Bool) : List α → List α
  | [] => []
  | x :: xs => insertLess less x (sortSlice less xs)

/-- The "Prepare entries for sorting" loop of `processDirectory`. -/
def prepareEntries (dirPath : List Char) (depth : Int) (entries : List FsNode) :
    List sortedEntries :=
  entries.map fun entry =>
    { path := filepathJoin dirPath entry.name
      order := getOrder entry.name
      depth := depth
      isDir := entry.isDir
      node := entry }

/-- The slice `sorted` of `processDirectory` after `sort.Slice`: the entries in
the order in which the "Process entries" loop visits them. -/
def sortedListing (dirPath : List Char) (depth : Int) (entries : List FsNode) :
    List sortedEntries :=
  sortSlice entryLess (prepareEntries dirPath depth entries)

/-! ## `cmd/eris/main.go`: anchors -/

/-- `regexp.MustCompile("\\s+").ReplaceAllString(input, "-")`: every maximal run of
`\s` characters becomes one dash.  `inRun` tells whether the previous character
belonged to a run already replaced. -/
def replaceSpaceRuns (inRun : Bool) : List Char → List Char
  | [] => []
  | c :: cs =>
    if isReSpace c then
      if inRun then replaceSpaceRuns true cs else '-' :: replaceSpaceRuns true cs
    else c :: replaceSpaceRuns false cs

/-- The character class `[a-zA-Z0-9-]`. -/
def isAnchorChar (c : Char) : Bool :=
  ('a' ≤ c && c ≤ 'z') || ('A' ≤ c && c ≤ 'Z') || ('0' ≤ c && c ≤ '9') || c = '-'

/-- `stringToAnchor`. -/
def stringToAnchor (L : CaseMapping) (input : List Char) : List Char :=
  let result := replaceSpaceRuns false input
  let result := result.filter isAnchorChar
  toLower L result

/-! ## `internal/sourcecode.go` -/

/-- The struct `TocEntry`. -/
structure TocEntry where
  Level : Int
  Entry : List Char
  Id : List Char
  deriving DecidableEq

/-- The struct `RenderContext`; `Out` is the text written to the buffered writer
so far. -/
structure RenderContext where
  LeanPub : Bool
  IncludeLinkToFile : Bool
  WithToc : Bool
  Out : List Char
  Toc : List TocEntry
  deriving DecidableEq

/-- `rtx.Out.WriteString(s)`. -/
def RenderContext.writeString (rtx : RenderContext) (s : List Char) : RenderContext :=
  { rtx with Out := rtx.Out ++ s }

/-- The verb `%d` of `fmt.Sprintf`. -/
def formatInt (n : Int) : List Char :=
  if n < 0 then '-' :: Nat.toDigits 10 n.natAbs else Nat.toDigits 10 n.toNat

/-- `strings.Split(code, "\n")`. -/
def splitNewline : List Char → List (List Char)
  | [] => [[]]
  | c :: cs =>
    if c = '\n' then [] :: splitNewline cs
    else match splitNewline cs with
      | [] => [[c]]
      | l :: ls => (c :: l) :: ls

/-- The loop of `normalizeIndentation` over the remaining lines, at the current
`indentLevel`; returns the slice `result`. -/
def normalizeLoop (indentLevel : Int) : List (List Char) → List (List Char)
  | [] => []
  | line :: rest =>
    let trimmedLine := trimSpace line
    let indentLevel :=
      if trimmedLine.head? = some '}' ∨ trimmedLine.head? = some ')' then indentLevel - 1
      else indentLevel
    let indentation := stringsRepeat [' '] (max (indentLevel * 2) 0).toNat
    let indentLevel' :=
      if trimmedLine.getLast? = some '{' ∨ trimmedLine.getLast? = some '(' then indentLevel + 1
      else indentLevel
    (indentation ++ trimmedLine) :: normalizeLoop indentLevel' rest

/-- `normalizeIndentation`. -/
def normalizeIndentation (code : List Char) : List Char :=
  stringsJoin (normalizeLoop 0 (splitNewline code)) ['\n']

/-- `matchMarker`. -/
def matchMarker (line marker : List Char) : Bool :=
  line.filter (fun c => c ≠ ' ') = marker.filter (fun c => c ≠ ' ')

/-- The scanning loop of `cutPartsFromFile` over the remaining lines; `result` is
the builder's content so far. -/
def cutLoop (startMarker endMarker : List Char) :
    Bool → List Char → List (List Char) → List Char
  | _, result, [] => result
  | isBetweenMarkers, result, line :: rest =>
    let trimLine := trimSpace line
    if matchMarker trimLine startMarker then cutLoop startMarker endMarker true result rest
    else if matchMarker trimLine endMarker then cutLoop startMarker endMarker false result rest
    else if isBetweenMarkers then
      cutLoop startMarker endMarker true (result ++ line ++ ['\n']) rest
    else cutLoop startMarker endMarker false result rest

/-- `cutPartsFromFile`; `osOpen filename` is the content of the file, `none` when
it cannot be opened.  The result `none` stands for a non-nil error, which the
source returns together with the empty text: the error of `os.Open`, or the one
of `scanner.Err()` after the loop. -/
def cutPartsFromFile (osOpen : List Char → Option (List Char)) (filename : List Char)
    (markerNum : Int) : Option (List Char) :=
  match osOpen filename with
  | none => none
  | some content =>
    let startMarker := ['/', '/', ' ', 'S', ':'] ++ formatInt markerNum
    let endMarker := ['/', '/', ' ', 'E', ':'] ++ formatInt markerNum
    let result := cutLoop startMarker endMarker false [] (scanLines content)
    if scanErr content then none else some result

/-- A match of the pattern `!\[\]\(([^,]+),\s*(\d+)\)` at the very start of `s`:
the two groups and the length of the matched text. -/
def matchReference (s : List Char) : Option (List Char × List Char × Nat) :=
  match s with
  | '!' :: '[' :: ']' :: '(' :: rest =>
    let filename := rest.takeWhile (fun c => c ≠ ',')
    match rest.dropWhile (fun c => c ≠ ',') with
    | ',' :: rest =>
      let spaces := rest.takeWhile isReSpace
      let rest := rest.dropWhile isReSpace
      let digits := rest.takeWhile Char.isDigit
      match rest.dropWhile Char.isDigit with
      | ')' :: _ =>
        if filename = [] ∨ digits = [] then none
        else some (filename, digits, 4 + filename.length + 1 + spaces.length + digits.length + 1)
      | _ => none
    | _ => none
  | _ => none

/-- The closure `replacer` of `InsertSourceCode`, applied to a matched text `s`
with groups `filename` and `digits`.  The chroma tokeniser and formatter fill a
buffer that is never read. -/
def replacer (osOpen : List Char → Option (List Char)) (rtx : RenderContext)
    (s filename digits : List Char) : List Char :=
  match atoi digits with
  | none => s
  | some markerNum =>
    match cutPartsFromFile osOpen filename markerNum with
    | none => s
    | some replacement =>
      let result := ['`', '`', '`', 'g', 'o', '\n'] ++ normalizeIndentation replacement ++
        ['`', '`', '`', '\n']
      if rtx.IncludeLinkToFile then
        result ++ ['F', 'r', 'o', 'm', ' ', '['] ++ filename ++ [']', '('] ++ filename ++ [')']
      else result

/-- `re.ReplaceAllStringFunc(markdown, replacer)`: the leftmost matches, none
overlapping.  `skip` counts the characters of the current match still to pass. -/
def replaceAllReferences (osOpen : List Char → Option (List Char)) (rtx : RenderContext) :
    Nat → List Char → List Char
  | _, [] => []
  | skip + 1, _ :: cs => replaceAllReferences osOpen rtx skip cs
  | 0, c :: cs =>
    match matchReference (c :: cs) with
    | some (filename, digits, len) =>
      replacer osOpen rtx ((c :: cs).take len) filename digits ++
        replaceAllReferences osOpen rtx (len - 1) cs
    | none => c :: replaceAllReferences osOpen rtx 0 cs

/-- `InsertSourceCode`. -/
def InsertSourceCode (osOpen : List Char → Option (List Char)) (rtx : RenderContext)
    (markdown : List Char) : List Char :=
  replaceAllReferences osOpen rtx 0 markdown

/-! ## `cmd/eris/main.go`: traversal -/

/-- `ioutil.ReadDir` at the path of a file-system object; an error for a file. -/
def FsNode.readDir : FsNode → Option (List FsNode)
  | .file _ _ => none
  | .dir _ listing => listing

/-- `ioutil.ReadFile` at the path of a file-system object; an error for a
directory. -/
def FsNode.readFile : FsNode → Option (List Char)
  | .file _ content => content
  | .dir _ _ => none

/-- The writes of the `if rtx.LeanPub` block of `processDirectory`. -/
def writeLeanPub (rtx : RenderContext) (c : Content) : RenderContext :=
  let rtx := if c.PageBreak then rtx.writeString "{pagebreak}\n".toList else rtx
  let rtx :=
    if c.Sample then rtx.writeString "{sample: true}\n".toList
    else rtx.writeString "{sample: false}\n".toList
  let rtx :=
    if c.Frontmatter then rtx.writeString "{frontmatter}\n".toList
    else if c.Backmatter then rtx.writeString "{backmatter}\n".toList
    else rtx
  if c.Rule > 0 then
    rtx.writeString ("C> Rule \\#".toList ++ formatInt c.Rule ++ ['\n', '\n'])
  else rtx

/-- The part of the "Process entries" loop body of `processDirectory` that
follows a successful `ParseFrontMatter`.  `strings.Repeat` panics on a negative
count. -/
def processContent (L : CaseMapping) (osOpen : List Char → Option (List Char))
    (rtx : RenderContext) (entry : sortedEntries) (c : Content) : Option RenderContext :=
  let c := if hasSuffix entry.path "index.md".toList then { c with Index := true } else c
  let rtx := if rtx.LeanPub then writeLeanPub rtx c else rtx
  let c := if c.Id.length = 0 then { c with Id := stringToAnchor L c.Title } else c
  if c.Title ≠ [] then
    let depth := if c.Index then entry.depth - 1 else entry.depth
    let rtx :=
      if rtx.WithToc then
        { rtx with Toc := rtx.Toc ++ [{ Level := depth, Entry := c.Title, Id := c.Id }] }
      else rtx
    if depth < 0 then none
    else
      let rtx :=
        if 0 < c.Id.length ∧ rtx.LeanPub then
          rtx.writeString (stringsRepeat ['#'] depth.toNat ++ [' '] ++ c.Title ++
            [' ', '\x7b', '#'] ++ c.Id ++ ['\x7d', '\n', '\n'])
        else
          rtx.writeString (stringsRepeat ['#'] depth.toNat ++ [' '] ++ c.Title ++ ['\n', '\n'])
      some (rtx.writeString (InsertSourceCode osOpen rtx c.Body ++ ['\n', '\n']))
  else some (rtx.writeString (InsertSourceCode osOpen rtx c.Body ++ ['\n', '\n']))

/-- The `else` branch of the "Process entries" loop body of `processDirectory`:
an entry that is not a directory. -/
def processFile (L : CaseMapping) (osOpen : List Char → Option (List Char))
    (rtx : RenderContext) (entry : sortedEntries) : Option RenderContext :=
  if hasSuffix entry.path ".md".toList then
    match entry.node.readFile with
    | none => some rtx
    | some content =>
      match ParseFrontMatter L content with
      | none => none
      | some c => processContent L osOpen rtx entry c
  else some rtx

/-- `processDirectory(rtx, dirPath, depth)`, with `listing` the result of
`ioutil.ReadDir(dirPath)`.  The result is the render context after the call,
`none` when the run was aborted by a panic. -/
def processDirectory (L : CaseMapping) (osOpen : List Char → Option (List Char))
    (rtx : RenderContext) (dirPath : List Char) (depth : Int)
    (listing : Option (List FsNode)) : Option RenderContext :=
  match listing with
  | none => some rtx
  | some entries =>
    (sortedListing dirPath depth entries).attach.foldl
      (fun acc entry =>
        match acc with
        | none => none
        | some rtx =>
          if entry.1.isDir then
            processDirectory L osOpen rtx entry.1.path (depth + 1) entry.1.node.readDir
          else processFile L osOpen rtx entry.1)
      (some rtx)
termination_by sizeOf listing
decreasing_by
  have hins : ∀ (x a : sortedEntries) (l : List sortedEntries),
      a ∈ insertLess entryLess x l → a = x ∨ a ∈ l := by
    intro x a l
    induction l with
    | nil => intro h; simpa [insertLess] using h
    | cons y ys ih =>
      intro h
      unfold insertLess at h
      split at h
      · simpa using h
      · rcases List.mem_cons.mp h with h | h
        · exact Or.inr (h ▸ List.mem_cons_self _ _)
        · rcases ih h with h | h
          · exact Or.inl h
          · exact Or.inr (List.mem_cons_of_mem _ h)
  have hsort : ∀ (a : sortedEntries) (l : List sortedEntries),
      a ∈ sortSlice entryLess l → a ∈ l := by
    intro a l
    induction l with
    | nil => intro h; simp [sortSlice] at h
    | cons y ys ih =>
      intro h
      rcases hins _ _ _ h with h | h
      · exact h ▸ List.mem_cons_self _ _
      · exact List.mem_cons_of_mem _ (ih h)
  have hmem : entry.1.node ∈ entries := by
    obtain ⟨n, hn, hEq⟩ := List.mem_map.mp (hsort _ _ entry.2)
    rw [← hEq]
    exact hn
  have h1 := List.sizeOf_lt_of_mem hmem
  have h2 : sizeOf entry.1.node.readDir < 1 + sizeOf entry.1.node := by
    cases entry.1.node with
    | file name content => simp [FsNode.readDir]
    | dir name listing => simp [FsNode.readDir]; omega
  simp only [Option.some.sizeOf_spec]
  omega

/-- The body of the "Process entries" loop of `processDirectory`, on the render
context reached so far (`none` once the run is aborted). -/
def processEntry (L : CaseMapping) (osOpen : List Char → Option (List Char)) (depth : Int)
    (acc : Option RenderContext) (entry : sortedEntries) : Option RenderContext :=
  match acc with
  | none => none
  | some rtx =>
    if entry.isDir then
      processDirectory L osOpen rtx entry.path (depth + 1) entry.node.readDir
    else processFile L osOpen rtx entry

/-! ## `cmd/eris/main.go`: table of contents -/

/-- The list item of an entry: the two `fmt.Sprintf` calls of `RenderTOC`. -/
def tocItem (entry : TocEntry) : List Char :=
  if 0 < entry.Id.length then
    "<li><a href=\"#".toList ++ entry.Id ++ "\">".toList ++ entry.Entry ++ "</a></li>".toList
  else "<li>".toList ++ entry.Entry ++ "</li>".toList

/-- The `for _, entry := range toc` loop of `RenderTOC`, on the content of the
builder and on `currentLevel`.  The loop `for entry.Level > currentLevel` writes
`<ul>` and counts up `entry.Level - currentLevel` times when that is positive,
the loop `for entry.Level < currentLevel` writes `</ul>` and counts down in the
same way. -/
def renderLoop : List TocEntry → List Char → Int → List Char × Int
  | [], sb, currentLevel => (sb, currentLevel)
  | entry :: rest, sb, currentLevel =>
    let sb := sb ++ stringsRepeat "<ul>".toList (entry.Level - currentLevel).toNat
    let currentLevel := max currentLevel entry.Level
    let sb := sb ++ stringsRepeat "</ul>".toList (currentLevel - entry.Level).toNat
    let currentLevel := min currentLevel entry.Level
    renderLoop rest (sb ++ tocItem entry) currentLevel

/-- `RenderTOC`. -/
def RenderTOC (toc : List TocEntry) : List Char :=
  let st := renderLoop toc [] 0
  st.1 ++ stringsRepeat "</ul>".toList st.2.toNat

/-! ## Specification-side definitions -/

/-- The lines of a text of any length, with `cur` the current line read so far,
most recent first: a line ends at a line feed, one trailing carriage return is
not part of it, and a non-empty rest after the last line feed is a last line. -/
def textLinesAux (cur : List Char) : List Char → List (List Char)
  | [] => if cur = [] then [] else [dropCR cur.reverse]
  | c :: cs =>
    if c = '\n' then dropCR cur.reverse :: textLinesAux [] cs
    else textLinesAux (c :: cur) cs

/-- All lines of the text `s`. -/
def textLines (s : List Char) : List (List Char) :=
  textLinesAux [] s

/-- A text every line of which, a trailing carriage return included, is shorter
than the buffer of a scanner. -/
def FitsScanner (s : List Char) : Prop :=
  ∀ l ∈ rawLines s, utf8Len l < maxScanTokenSize

instance (s : List Char) : Decidable (FitsScanner s) := by
  unfold FitsScanner
  infer_instance

/-- A line of `maxScanTokenSize` bytes. -/
def longLine : List Char :=
  List.replicate maxScanTokenSize 'a'

/-- The order key as the specification words it: -1 for the name `index.md`,
otherwise the integer that the text before the first space parses as, otherwise
the sentinel 1000000. -/
def orderKey (name : List Char) : Int :=
  if name = "index.md".toList then -1
  else match atoi (name.takeWhile (fun c => c ≠ ' ')) with
    | some n => n
    | none => 1000000

/-- Ascending by (order key, then path): the order the specification gives to two
entries visited one after the other. -/
def entryAscending (a b : sortedEntries) : Prop :=
  a.order < b.order ∨ (a.order = b.order ∧ (a.path = b.path ∨ strLess a.path b.path = true))

/-- A line matching the delimiter pattern as the specification describes it:
optional white space, three or more dashes, optional white space, and nothing
else. -/
def DelimiterLine (line : List Char) : Prop :=
  ∃ (ws₁ ws₂ : List Char) (n : Nat), line = ws₁ ++ List.replicate (n + 3) '-' ++ ws₂ ∧
    (∀ c ∈ ws₁, isReSpace c = true) ∧ (∀ c ∈ ws₂, isReSpace c = true)

/-- The trimmed value of the last line with key `k` among `lines`, `none` when no
line has that key. -/
def lastValue (L : CaseMapping) (k : List Char) (lines : List (List Char)) :
    Option (List Char) :=
  ((lines.filter (fun l => (parseLine L l).1 = k)).getLast?).map (fun l => (parseLine L l).2)

/-- A metadata block with repeated keys, keys in upper case and padded values. -/
def sampleBlock : List Char :=
  "page-break: yes\nsample: yes\nSample:   no \nbackmatter: Yes\nfrontmatter:yes\n".toList

/-- A decimal integer numeral: an optional sign followed by one or more ASCII
digits. -/
def DecimalInteger (s : List Char) : Prop :=
  ∃ sign digits : List Char, s = sign ++ digits ∧ (sign = [] ∨ sign = ['+'] ∨ sign = ['-']) ∧
    digits ≠ [] ∧ ∀ c ∈ digits, c.isDigit = true

/-- The integer a decimal numeral denotes. -/
def intOfDecimal (s : List Char) : Int :=
  if s.head? = some '-' then -(parseDigits s.tail : Int)
  else if s.head? = some '+' then (parseDigits s.tail : Int)
  else (parseDigits s : Int)

/-- The values of Go's 64-bit `int`. -/
def FitsInt (n : Int) : Prop := -(2 : Int) ^ 63 ≤ n ∧ n < (2 : Int) ^ 63

/-- The keys `parseContent` recognizes. -/
def recognizedKeys : List (List Char) :=
  ["title".toList, "id".toList, "page-break".toList, "sample".toList, "backmatter".toList,
    "frontmatter".toList, "rule".toList]

/-- The entries that are not directories, in the order in which the depth-first
traversal of `processDirectory` reaches them: at each directory the siblings,
files and directories together, are taken in the order of `sortedListing`, and a
directory is replaced by what the traversal reaches below it. -/
def visitedFiles (dirPath : List Char) (depth : Int) (listing : Option (List FsNode)) :
    List sortedEntries :=
  match listing with
  | none => []
  | some entries =>
    ((sortedListing dirPath depth entries).attach.map fun entry =>
      if entry.1.isDir then visitedFiles entry.1.path (depth + 1) entry.1.node.readDir
      else [entry.1]).flatten
termination_by sizeOf listing
decreasing_by
  have hins : ∀ (x a : sortedEntries) (l : List sortedEntries),
      a ∈ insertLess entryLess x l → a = x ∨ a ∈ l := by
    intro x a l
    induction l with
    | nil => intro h; simpa [insertLess] using h
    | cons y ys ih =>
      intro h
      unfold insertLess at h
      split at h
      · simpa using h
      · rcases List.mem_cons.mp h with h | h
        · exact Or.inr (h ▸ List.mem_cons_self _ _)
        · rcases ih h with h | h
          · exact Or.inl h
          · exact Or.inr (List.mem_cons_of_mem _ h)
  have hsort : ∀ (a : sortedEntries) (l : List sortedEntries),
      a ∈ sortSlice entryLess l → a ∈ l := by
    intro a l
    induction l with
    | nil => intro h; simp [sortSlice] at h
    | cons y ys ih =>
      intro h
      rcases hins _ _ _ h with h | h
      · exact h ▸ List.mem_cons_self _ _
      · exact List.mem_cons_of_mem _ (ih h)
  have hmem : entry.1.node ∈ entries := by
    obtain ⟨n, hn, hEq⟩ := List.mem_map.mp (hsort _ _ entry.2)
    rw [← hEq]
    exact hn
  have h1 := List.sizeOf_lt_of_mem hmem
  have h2 : sizeOf entry.1.node.readDir < 1 + sizeOf entry.1.node := by
    cases entry.1.node with
    | file name content => simp [FsNode.readDir]
    | dir name listing => simp [FsNode.readDir]; omega
  simp only [Option.some.sizeOf_spec]
  omega

/-- The record of a document: a visited entry whose path ends in `.md` and whose
file can be read, parsed by `ParseFrontMatter`. -/
def documentOf (L : CaseMapping) (e : sortedEntries) : Option Content :=
  if hasSuffix e.path ".md".toList then
    match e.node.readFile with
    | some content => ParseFrontMatter L content
    | none => none
  else none

/-- The TOC entry of a document with record `c`: one level less for a path ending
in `index.md`, the title as label, and the explicit id or else the anchor derived
from the title. -/
def tocEntryOf (L : CaseMapping) (e : sortedEntries) (c : Content) : TocEntry :=
  { Level := if hasSuffix e.path "index.md".toList then e.depth - 1 else e.depth
    Entry := c.Title
    Id := if c.Id = [] then stringToAnchor L c.Title else c.Id }

/-- What a visited entry contributes to the TOC: the entry of its document when
it is a document with a non-empty title, nothing otherwise. -/
def tocContribution (L : CaseMapping) (e : sortedEntries) : Option TocEntry :=
  match documentOf L e with
  | some c => if c.Title = [] then none else some (tocEntryOf L e c)
  | none => none

/-- One step of the flat loop: `processFile` on the context reached so far. -/
def processVisited (L : CaseMapping) (osOpen : List Char → Option (List Char))
    (acc : Option RenderContext) (entry : sortedEntries) : Option RenderContext :=
  match acc with
  | none => none
  | some rtx => processFile L osOpen rtx entry

/-- A small book: an index document, a chapter directory holding one document, a
document without title, a file that is not a document and an unreadable
document. -/
def exampleTree : List FsNode :=
  [ .file "2 plain.md".toList (some "no front matter\n".toList),
    .file "index.md".toList (some "---\ntitle: Book\n---\nhello\n".toList),
    .dir "1 sub".toList (some [.file "a.md".toList (some "---\ntitle: A\nid: first\n---\n".toList)]),
    .file "notes.txt".toList (some "---\ntitle: Notes\n---\n".toList),
    .file "3 lost.md".toList none ]

/-- A render context before the traversal, TOC generation enabled. -/
def exampleContext : RenderContext :=
  { LeanPub := false, IncludeLinkToFile := true, WithToc := true, Out := [], Toc := [] }

/-- A file system without snippet sources. -/
def noSources : List Char → Option (List Char) := fun _ => none

/-- Each line paired with the number of delimiter lines that precede it, `seen`
being the number of delimiter lines before the first line. -/
def withDelimiterCount (seen : Nat) : List (List Char) → List (List Char × Nat)
  | [] => []
  | l :: ls => (l, seen) :: withDelimiterCount (if isDelimiter l then seen + 1 else seen) ls

/-- The lines that are not delimiters and are preceded by an odd number of
delimiter lines (`odd = true`), or by an even number (`odd = false`), in order;
`seen` delimiter lines precede the first line. -/
def linesOfParityFrom (seen : Nat) (odd : Bool) (lines : List (List Char)) :
    List (List Char) :=
  ((withDelimiterCount seen lines).filter
    (fun p => !isDelimiter p.1 && (decide (p.2 % 2 = 1) == odd))).map Prod.fst

/-- The non-delimiter lines of a text preceded by an odd (resp. even) number of
delimiter lines. -/
def linesOfParity (odd : Bool) (lines : List (List Char)) : List (List Char) :=
  linesOfParityFrom 0 odd lines

/-- A start marker line for `n` as the specification describes it: the line equals
`//S:n` once the white space around it and every space in it are removed. -/
def isStartMarker (n : Int) (line : List Char) : Bool :=
  (trimSpace line).filter (fun c => c ≠ ' ') = "//S:".toList ++ formatInt n

/-- An end marker line for `n`: the line equals `//E:n` once the white space
around it and every space in it are removed. -/
def isEndMarker (n : Int) (line : List Char) : Bool :=
  (trimSpace line).filter (fun c => c ≠ ' ') = "//E:".toList ++ formatInt n

/-- The text `cutPartsFromFile` builds from the lines it keeps: every line
followed by a line feed. -/
def linesText (lines : List (List Char)) : List Char :=
  (lines.map (fun l => l ++ ['\n'])).flatten
/-- Snippet sources for the examples: a file with one marked region, a file that
repeats a start marker, and a file whose marker holds a tab. -/
def snippetSources (filename : List Char) : Option (List Char) :=
  if filename = "a.go".toList then
    some "package a\n  // S:1\nfunc f() \x7b\n      x := 1\n\x7d\n// E:1\nrest\n".toList
  else if filename = "dup.go".toList then some "// S:1\na\n// S:1\nb\n".toList
  else if filename = "tab.go".toList then some "//\tS:1\na\n".toList
  else if filename = "open.go".toList then some "intro\n//S:3\nx\n // S:3 \ny\r\n".toList
  else none

/-- The brace/paren depth at which each line is written, computed from the
trimmed lines: a line starting with `}` or `)` lowers the depth before it is
written, a line ending with `{` or `(` raises it for the lines after it. -/
def indentLevels (level : Int) : List (List Char) → List Int
  | [] => []
  | t :: ts =>
    let here := if t.head? = some '}' ∨ t.head? = some ')' then level - 1 else level
    here :: indentLevels (if t.getLast? = some '{' ∨ t.getLast? = some '(' then here + 1 else here) ts

/-- A trimmed line behind `max(level, 0) * 2` spaces. -/
def indentedLine (t : List Char) (level : Int) : List Char :=
  List.replicate ((max level 0).toNat * 2) ' ' ++ t

/-- A directory with the index document, a document whose name only ends in
`index.md`, and another document, all with a title. -/
def indexNameTree : List FsNode :=
  [ .file "myindex.md".toList (some "---\ntitle: Mine\n---\n".toList),
    .file "other.md".toList (some "---\ntitle: Other\n---\n".toList),
    .file "index.md".toList (some "---\ntitle: Top\n---\n".toList) ]

/-- The number of occurrences of the text `pat` in `s`: the positions of `s` at
which `pat` starts. -/
def occurrences (pat : List Char) : List Char → Nat
  | [] => 0
  | c :: cs => (if pat.isPrefixOf (c :: cs) then 1 else 0) + occurrences pat cs

/-- A label or an id free of list tags. -/
def ListTagFree (s : List Char) : Prop :=
  occurrences "<ul>".toList s = 0 ∧ occurrences "</ul>".toList s = 0 ∧
    occurrences "<li>".toList s = 0 ∧ occurrences "</li>".toList s = 0

/-- The text `RenderTOC` writes from `currentLevel` on for the entries still to
come: for each entry the list tags that lead to its level, then its item, and the
closing tags at the end. -/
def renderFrom (currentLevel : Int) : List TocEntry → List Char
  | [] => stringsRepeat "</ul>".toList currentLevel.toNat
  | entry :: rest =>
    stringsRepeat "<ul>".toList (entry.Level - currentLevel).toNat ++
      stringsRepeat "</ul>".toList (currentLevel - entry.Level).toNat ++
      tocItem entry ++ renderFrom entry.Level rest

/-- A text is strictly nested below `level` open lists: with `level` more `<ul>`
before it, it holds as many `<ul>` as `</ul>`, and no prefix of it holds more
`</ul>` than `<ul>`. -/
def StrictlyNested (level : Int) (s : List Char) : Prop :=
  (occurrences "<ul>".toList s : Int) + level = occurrences "</ul>".toList s ∧
    ∀ p : List Char, p <+: s →
      (occurrences "</ul>".toList p : Int) ≤ level + occurrences "<ul>".toList p

/-- The number of `<ul>` written for entries of the given levels, from
`currentLevel` open lists on. -/
def opened (currentLevel : Int) : List Int → Nat
  | [] => 0
  | level :: rest => (level - currentLevel).toNat + opened level rest

/-- The number of `</ul>` written for entries of the given levels, from
`currentLevel` open lists on, the closing tags at the end included. -/
def closed (currentLevel : Int) : List Int → Nat
  | [] => currentLevel.toNat
  | level :: rest => (currentLevel - level).toNat + closed level rest

instance (s : List Char) : Decidable (ListTagFree s) := by
  unfold ListTagFree
  infer_instance

/-- Five entries of levels 1, 2, 2, 1, 3, the second with an id. -/
def sampleToc : List TocEntry :=
  [⟨1, "a".toList, []⟩, ⟨2, "b".toList, "x".toList⟩, ⟨2, "c".toList, []⟩,
    ⟨1, "d".toList, []⟩, ⟨3, "e".toList, []⟩]

/-! ## Go's string order -/

theorem strLess_irrefl (a : List Char) : strLess a a = false := by
  induction a with
  | nil => rfl
  | cons x xs ih => simp [strLess, ih]

theorem strLess_asymm : ∀ a b : List Char, strLess a b = true → strLess b a = false
  | [], [], h => by simp [strLess] at h
  | [], _ :: _, _ => by simp [strLess]
  | _ :: _, [], h => by simp [strLess] at h
  | x :: xs, y :: ys, h => by
    unfold strLess at h ⊢
    by_cases hxy : x < y
    · have hyx : ¬ y < x := lt_asymm hxy
      simp [hxy, hyx]
    · by_cases hyx : y < x
      · simp [hxy, hyx] at h
      · simp only [hxy, hyx, if_false] at h ⊢
        exact strLess_asymm xs ys h

theorem strLess_trans : ∀ a b c : List Char,
    strLess a b = true → strLess b c = true → strLess a c = true
  | [], [], _, h, _ => by simp [strLess] at h
  | [], _ :: _, [], _, h => by simp [strLess] at h
  | [], _ :: _, _ :: _, _, _ => by simp [strLess]
  | _ :: _, [], _, h, _ => by simp [strLess] at h
  | _ :: _, _ :: _, [], _, h => by simp [strLess] at h
  | x :: xs, y :: ys, z :: zs, h1, h2 => by
    unfold strLess at h1 h2 ⊢
    by_cases hxy : x < y
    · by_cases hyz : y < z
      · simp [lt_trans hxy hyz]
      · by_cases hzy : z < y
        · simp [hyz, hzy] at h2
        · have hEq : y = z := le_antisymm (not_lt.mp hzy) (not_lt.mp hyz)
          subst hEq
          simp [hxy]
    · by_cases hyx : y < x
      · simp [hxy, hyx] at h1
      · have hEq : x = y := le_antisymm (not_lt.mp hyx) (not_lt.mp hxy)
        subst hEq
        simp only [hxy, if_false] at h1
        by_cases hxz : x < z
        · simp [hxz]
        · by_cases hzx : z < x
          · simp [hxz, hzx] at h2
          · simp only [hxz, hzx, if_false] at h2 ⊢
            exact strLess_trans xs ys zs h1 h2

theorem strLess_total : ∀ a b : List Char,
    strLess a b = true ∨ a = b ∨ strLess b a = true
  | [], [] => by simp
  | [], _ :: _ => by simp [strLess]
  | _ :: _, [] => by simp [strLess]
  | x :: xs, y :: ys => by
    unfold strLess
    by_cases hxy : x < y
    · simp [hxy]
    · by_cases hyx : y < x
      · simp [hxy, hyx]
      · have hEq : x = y := le_antisymm (not_lt.mp hyx) (not_lt.mp hxy)
        subst hEq
        simp only [hxy, if_false]
        rcases strLess_total xs ys with h | h | h
        · exact Or.inl h
        · exact Or.inr (Or.inl (by rw [h]))
        · exact Or.inr (Or.inr h)

/-! ## The comparison of `processDirectory` and `sort.Slice` -/

theorem entryLess_asymm (a b : sortedEntries) (h : entryLess a b = true) :
    entryLess b a = false := by
  unfold entryLess at h ⊢
  by_cases hab : a.order = b.order
  · simp only [hab, if_true] at h ⊢
    exact strLess_asymm _ _ h
  · have hba : ¬ b.order = a.order := fun e => hab e.symm
    simp only [hab, hba, if_false, decide_eq_true_eq, decide_eq_false_iff_not] at h ⊢
    omega

theorem entryLess_trans (a b c : sortedEntries) (h1 : entryLess a b = true)
    (h2 : entryLess b c = true) : entryLess a c = true := by
  unfold entryLess at h1 h2 ⊢
  by_cases hab : a.order = b.order
  · by_cases hbc : b.order = c.order
    · have hac : a.order = c.order := hab.trans hbc
      simp only [hab, hbc, hac, if_true] at h1 h2 ⊢
      exact strLess_trans _ _ _ h1 h2
    · have hac : ¬ a.order = c.order := fun e => hbc (hab ▸ e)
      simp only [hbc, hac, if_false, decide_eq_true_eq] at h2 ⊢
      omega
  · by_cases hbc : b.order = c.order
    · have hac : ¬ a.order = c.order := fun e => hab (e.trans hbc.symm)
      simp only [hab, hac, if_false, decide_eq_true_eq] at h1 ⊢
      omega
    · simp only [hab, hbc, if_false, decide_eq_true_eq] at h1 h2
      have hac : ¬ a.order = c.order := by omega
      simp only [hac, if_false, decide_eq_true_eq]
      omega

theorem entryAscending_of_not_less (a b : sortedEntries) (h : entryLess b a = false) :
    entryAscending a b := by
  unfold entryLess at h
  unfold entryAscending
  by_cases hba : b.order = a.order
  · simp only [hba, if_true] at h
    refine Or.inr ⟨hba.symm, ?_⟩
    rcases strLess_total a.path b.path with h' | h' | h'
    · exact Or.inr h'
    · exact Or.inl h'
    · rw [h] at h'; cases h'
  · simp only [hba, if_false, decide_eq_false_iff_not] at h
    left
    omega

theorem insertLess_perm {α : Type} (less : α → α → Bool) (x : α) (l : List α) :
    (insertLess less x l).Perm (x :: l) := by
  induction l with
  | nil => exact List.Perm.refl _
  | cons y ys ih =>
    unfold insertLess
    split
    · exact List.Perm.refl _
    · exact (List.Perm.cons y ih).trans (List.Perm.swap x y ys)

theorem sortSlice_perm {α : Type} (less : α → α → Bool) (l : List α) :
    (sortSlice less l).Perm l := by
  induction l with
  | nil => exact List.Perm.refl _
  | cons x xs ih => exact (insertLess_perm less x _).trans (List.Perm.cons x ih)

theorem insertLess_sorted {α : Type} (less : α → α → Bool)
    (hasymm : ∀ a b, less a b = true → less b a = false)
    (htrans : ∀ a b c, less a b = true → less b c = true → less a c = true)
    (x : α) (l : List α) (hl : l.Pairwise (fun a b => less b a = false)) :
    (insertLess less x l).Pairwise (fun a b => less b a = false) := by
  induction l with
  | nil => simp [insertLess]
  | cons y ys ih =>
    rw [List.pairwise_cons] at hl
    unfold insertLess
    by_cases hxy : less x y = true
    · rw [if_pos hxy]
      refine List.pairwise_cons.mpr ⟨?_, List.pairwise_cons.mpr hl⟩
      intro b hb
      rcases List.mem_cons.mp hb with hb | hb
      · rw [hb]; exact hasymm _ _ hxy
      · by_contra hne
        have hbx : less b x = true := by simpa using hne
        have hby := htrans _ _ _ hbx hxy
        rw [hl.1 b hb] at hby
        cases hby
    · rw [if_neg hxy]
      refine List.pairwise_cons.mpr ⟨?_, ih hl.2⟩
      intro b hb
      rcases List.mem_cons.mp ((insertLess_perm less x ys).mem_iff.mp hb) with hb | hb
      · rw [hb]
        simpa using hxy
      · exact hl.1 b hb

theorem sortSlice_sorted {α : Type} (less : α → α → Bool)
    (hasymm : ∀ a b, less a b = true → less b a = false)
    (htrans : ∀ a b c, less a b = true → less b c = true → less a c = true)
    (l : List α) : (sortSlice less l).Pairwise (fun a b => less b a = false) := by
  induction l with
  | nil => simp [sortSlice]
  | cons x xs ih => exact insertLess_sorted less hasymm htrans x _ ih

theorem sorted_perm_unique {α : Type} (r : α → α → Prop) :
    ∀ (l₁ l₂ : List α), l₁.Perm l₂ → l₁.Pairwise r → l₂.Pairwise r →
      (∀ a ∈ l₁, ∀ b ∈ l₁, r a b → r b a → a = b) → l₁ = l₂
  | [], l₂, hp, _, _, _ => (List.Perm.nil_eq hp)
  | a :: l₁, [], hp, _, _, _ => by
    have h := hp.length_eq
    simp at h
  | a :: l₁, b :: l₂, hp, h1, h2, hanti => by
    rw [List.pairwise_cons] at h1 h2
    have hab : a = b := by
      by_contra hne
      have ha : a ∈ l₂ := by
        rcases List.mem_cons.mp (hp.mem_iff.mp (List.mem_cons_self a l₁)) with h | h
        · exact absurd h hne
        · exact h
      have hb : b ∈ l₁ := by
        rcases List.mem_cons.mp (hp.mem_iff.mpr (List.mem_cons_self b l₂)) with h | h
        · exact absurd h.symm hne
        · exact h
      exact hne (hanti a (List.mem_cons_self _ _) b (List.mem_cons_of_mem _ hb)
        (h1.1 b hb) (h2.1 a ha))
    subst hab
    have htail := sorted_perm_unique r l₁ l₂ (List.Perm.cons_inv hp) h1.2 h2.2
      (fun x hx y hy => hanti x (List.mem_cons_of_mem _ hx) y (List.mem_cons_of_mem _ hy))
    rw [htail]

theorem sortedListing_perm (dirPath : List Char) (depth : Int) (entries : List FsNode) :
    (sortedListing dirPath depth entries).Perm (prepareEntries dirPath depth entries) :=
  sortSlice_perm entryLess _

theorem sortedListing_ascending (dirPath : List Char) (depth : Int) (entries : List FsNode) :
    (sortedListing dirPath depth entries).Pairwise entryAscending :=
  (sortSlice_sorted entryLess entryLess_asymm entryLess_trans _).imp
    (fun {a b} h => entryAscending_of_not_less a b h)

theorem not_less_of_entryAscending (a b : sortedEntries) (h : entryAscending a b) :
    entryLess b a = false := by
  unfold entryAscending at h
  unfold entryLess
  rcases h with h | ⟨h1, h2⟩
  · have hne : ¬ b.order = a.order := by omega
    simp only [hne, if_false, decide_eq_false_iff_not]
    omega
  · simp only [h1, if_true]
    rcases h2 with h2 | h2
    · rw [h2]; exact strLess_irrefl _
    · exact strLess_asymm _ _ h2

/-- Whatever `sort.Slice` does with equal elements, for a directory (whose entry
names are distinct) the visiting order is the only ascending permutation of the
prepared entries. -/
theorem sortSlice_unique (dirPath : List Char) (depth : Int) (entries : List FsNode)
    (hnames : (entries.map FsNode.name).Nodup) (out : List sortedEntries)
    (hperm : out.Perm (prepareEntries dirPath depth entries))
    (hasc : out.Pairwise entryAscending) :
    out = sortedListing dirPath depth entries := by
  refine sorted_perm_unique entryAscending out _
    (hperm.trans (sortedListing_perm dirPath depth entries).symm) hasc
    (sortedListing_ascending dirPath depth entries) ?_
  intro a ha b hb hab hba
  obtain ⟨n, hn, rfl⟩ := List.mem_map.mp (hperm.mem_iff.mp ha)
  obtain ⟨m, hm, rfl⟩ := List.mem_map.mp (hperm.mem_iff.mp hb)
  have h1 := not_less_of_entryAscending _ _ hab
  have h2 := not_less_of_entryAscending _ _ hba
  have hpath : filepathJoin dirPath n.name = filepathJoin dirPath m.name := by
    unfold entryAscending at hab hba
    simp only at hab hba
    rcases hab with hlt | ⟨_, hEq | hlt⟩
    · rcases hba with hlt' | ⟨hEq', _⟩
      · omega
      · omega
    · exact hEq
    · rcases hba with hlt' | ⟨_, hEq' | hlt'⟩
      · omega
      · exact hEq'.symm
      · rw [strLess_asymm _ _ hlt] at hlt'; cases hlt'
  have hname : n.name = m.name := by
    unfold filepathJoin at hpath
    have := List.append_cancel_left hpath
    simpa using this
  have hnm : n = m := List.inj_on_of_nodup_map hnames hn hm hname
  rw [hnm]

theorem splitFirst_eq_takeWhile (sep : Char) (s : List Char) :
    splitFirst sep s = s.takeWhile (fun c => c ≠ sep) := by
  induction s with
  | nil => rfl
  | cons c cs ih =>
    unfold splitFirst
    by_cases h : c = sep
    · simp [h]
    · simp [h, ih]

theorem getOrder_eq_orderKey (name : List Char) : getOrder name = orderKey name := by
  unfold getOrder orderKey
  rw [splitFirst_eq_takeWhile]
  rfl

theorem processDirectory_none (L : CaseMapping) (osOpen : List Char → Option (List Char))
    (rtx : RenderContext) (dirPath : List Char) (depth : Int) :
    processDirectory L osOpen rtx dirPath depth none = some rtx := by
  rw [processDirectory]

theorem processDirectory_some (L : CaseMapping) (osOpen : List Char → Option (List Char))
    (rtx : RenderContext) (dirPath : List Char) (depth : Int) (entries : List FsNode) :
    processDirectory L osOpen rtx dirPath depth (some entries) =
      (sortedListing dirPath depth entries).foldl (processEntry L osOpen depth) (some rtx) := by
  rw [processDirectory]
  rw [← List.foldl_attach (sortedListing dirPath depth entries)]
  rfl

/-- C1: `processDirectory` runs its loop body over `sortedListing`, which is a
permutation of the prepared listing, ascending by (order key, then full path);
the order key of an entry is the specification's `orderKey` of its name and its
path is the directory path joined with the name; the four names `3 intro.md`,
`1 setup.md`, `index.md`, `foo.md` are visited as `index.md`, `1 setup.md`,
`3 intro.md`, `foo.md`. -/
theorem processDirectory_visits_ascending (L : CaseMapping)
    (osOpen : List Char → Option (List Char)) (rtx : RenderContext) (dirPath : List Char)
    (depth : Int) (entries : List FsNode) (c₁ c₂ c₃ c₄ : Option (List Char)) :
    processDirectory L osOpen rtx dirPath depth (some entries) =
        (sortedListing dirPath depth entries).foldl (processEntry L osOpen depth) (some rtx) ∧
      (sortedListing dirPath depth entries).Perm (prepareEntries dirPath depth entries) ∧
      (sortedListing dirPath depth entries).Pairwise entryAscending ∧
      (∀ e ∈ sortedListing dirPath depth entries,
        e.order = orderKey e.node.name ∧ e.path = filepathJoin dirPath e.node.name ∧
          e.node ∈ entries) ∧
      (sortedListing dirPath depth
          [.file "3 intro.md".toList c₁, .file "1 setup.md".toList c₂,
            .file "index.md".toList c₃, .file "foo.md".toList c₄]).map (fun e => e.node.name) =
        ["index.md".toList, "1 setup.md".toList, "3 intro.md".toList, "foo.md".toList] := by
  refine ⟨processDirectory_some L osOpen rtx dirPath depth entries,
    sortedListing_perm dirPath depth entries, sortedListing_ascending dirPath depth entries,
    ?_, ?_⟩
  · intro e he
    obtain ⟨n, hn, rfl⟩ :=
      List.mem_map.mp ((sortedListing_perm dirPath depth entries).mem_iff.mp he)
    exact ⟨getOrder_eq_orderKey _, rfl, hn⟩
  · have h1 : getOrder "3 intro.md".toList = 3 := by decide
    have h2 : getOrder "1 setup.md".toList = 1 := by decide
    have h3 : getOrder "index.md".toList = -1 := by decide
    have h4 : getOrder "foo.md".toList = 1000000 := by decide
    have gen : ∀ a b c d : List Char, getOrder a = 3 → getOrder b = 1 → getOrder c = -1 →
        getOrder d = 1000000 →
        (sortedListing dirPath depth
          [.file a c₁, .file b c₂, .file c c₃, .file d c₄]).map (fun e => e.node.name) =
          [c, b, a, d] := by
      intro a b c d k1 k2 k3 k4
      simp [sortedListing, prepareEntries, sortSlice, insertLess, entryLess, FsNode.name,
        k1, k2, k3, k4]
    exact gen _ _ _ _ h1 h2 h3 h4

/-- C2, evaluated on the listing `-5 old.md`, `index.md`: the order key of
`-5 old.md` is -5, below the -1 of `index.md`, and `-5 old.md` is visited first. -/
theorem index_md_not_first :
    getOrder "-5 old.md".toList = -5 ∧ getOrder "index.md".toList = -1 ∧
      (sortedListing "book".toList 1
          [.file "-5 old.md".toList none, .file "index.md".toList none]).map
        (fun e => e.node.name) = ["-5 old.md".toList, "index.md".toList] := by
  decide

/-! ## The scanning loop of `ParseFrontMatter` -/

theorem frontMatterStep_body (st : FrontMatterScan) (line : List Char)
    (hline : isDelimiter line = false) (hst : st.inFrontMatter = false) :
    frontMatterStep st line = { st with bodyLines := st.bodyLines ++ [line] } := by
  simp [frontMatterStep, hline, hst]

theorem frontMatterStep_meta (st : FrontMatterScan) (line : List Char)
    (hline : isDelimiter line = false) (hst : st.inFrontMatter = true) :
    frontMatterStep st line = { st with frontMatterLines := st.frontMatterLines ++ [line] } := by
  simp [frontMatterStep, hline, hst]

theorem frontMatterStep_delimiter (st : FrontMatterScan) (line : List Char)
    (hline : isDelimiter line = true) :
    frontMatterStep st line = { st with inFrontMatter := !st.inFrontMatter } := by
  cases hst : st.inFrontMatter <;> simp [frontMatterStep, hline, hst]

theorem foldl_frontMatterStep_body (lines : List (List Char)) :
    ∀ st : FrontMatterScan, (∀ l ∈ lines, isDelimiter l = false) → st.inFrontMatter = false →
      lines.foldl frontMatterStep st = { st with bodyLines := st.bodyLines ++ lines } := by
  induction lines with
  | nil => intro st _ _; simp
  | cons l ls ih =>
    intro st hl hst
    rw [List.foldl_cons, frontMatterStep_body st l (hl l (List.mem_cons_self _ _)) hst, ih]
    · simp
    · exact fun x hx => hl x (List.mem_cons_of_mem _ hx)
    · exact hst

theorem foldl_frontMatterStep_meta (lines : List (List Char)) :
    ∀ st : FrontMatterScan, (∀ l ∈ lines, isDelimiter l = false) → st.inFrontMatter = true →
      lines.foldl frontMatterStep st =
        { st with frontMatterLines := st.frontMatterLines ++ lines } := by
  induction lines with
  | nil => intro st _ _; simp
  | cons l ls ih =>
    intro st hl hst
    rw [List.foldl_cons, frontMatterStep_meta st l (hl l (List.mem_cons_self _ _)) hst, ih]
    · simp
    · exact fun x hx => hl x (List.mem_cons_of_mem _ hx)
    · exact hst

/-- The scanning loop on a text with exactly two delimiter lines. -/
theorem foldl_frontMatterStep_two (pre mid post : List (List Char)) (d₁ d₂ : List Char)
    (hd₁ : isDelimiter d₁ = true) (hd₂ : isDelimiter d₂ = true)
    (hpre : ∀ l ∈ pre, isDelimiter l = false) (hmid : ∀ l ∈ mid, isDelimiter l = false)
    (hpost : ∀ l ∈ post, isDelimiter l = false) :
    (pre ++ d₁ :: (mid ++ d₂ :: post)).foldl frontMatterStep {} =
      { inFrontMatter := false, bodyLines := pre ++ post, frontMatterLines := mid } := by
  rw [List.foldl_append, foldl_frontMatterStep_body pre _ hpre rfl, List.foldl_cons,
    frontMatterStep_delimiter _ _ hd₁, List.foldl_append,
    foldl_frontMatterStep_meta mid _ hmid rfl, List.foldl_cons,
    frontMatterStep_delimiter _ _ hd₂, foldl_frontMatterStep_body post _ hpost rfl]
  simp

/-! ## The scanner and the lines of a text -/

theorem dropCR_sublist (l : List Char) : (dropCR l).Sublist l := by
  unfold dropCR
  split
  · exact List.dropLast_sublist l
  · exact List.Sublist.refl l

theorem rawLinesAux_no_newline (s : List Char) :
    ∀ cur : List Char, '\n' ∉ cur → ∀ l ∈ rawLinesAux cur s, '\n' ∉ l := by
  induction s with
  | nil =>
    intro cur hcur l hl
    unfold rawLinesAux at hl
    split at hl
    · simp at hl
    · rw [List.mem_singleton] at hl
      subst hl
      exact fun h => hcur (List.mem_reverse.mp h)
  | cons c cs ih =>
    intro cur hcur l hl
    unfold rawLinesAux at hl
    split at hl
    · rcases List.mem_cons.mp hl with h | h
      · subst h
        exact fun h => hcur (List.mem_reverse.mp h)
      · exact ih [] (by simp) l h
    · rename_i hc
      refine ih (c :: cur) ?_ l hl
      intro h
      rcases List.mem_cons.mp h with h | h
      · exact hc h.symm
      · exact hcur h

theorem rawLinesAux_append (l : List Char) (hl : '\n' ∉ l) :
    ∀ cur rest : List Char, rawLinesAux cur (l ++ rest) = rawLinesAux (l.reverse ++ cur) rest := by
  induction l with
  | nil => intro cur rest; rfl
  | cons c cs ih =>
    intro cur rest
    have hc : c ≠ '\n' := fun h => hl (h ▸ List.mem_cons_self _ _)
    have hcs : '\n' ∉ cs := fun h => hl (List.mem_cons_of_mem _ h)
    rw [List.cons_append, rawLinesAux]
    simp only [hc, if_false]
    rw [ih hcs]
    simp

/-- A line that ends at a line feed is the first line of the text. -/
theorem rawLines_line_cons (l rest : List Char) (hl : '\n' ∉ l) :
    rawLines (l ++ '\n' :: rest) = l :: rawLines rest := by
  unfold rawLines
  rw [rawLinesAux_append l hl, rawLinesAux]
  simp

theorem rawLines_last (l : List Char) (hl : '\n' ∉ l) :
    rawLines l = if l = [] then [] else [l] := by
  unfold rawLines
  have h := rawLinesAux_append l hl [] []
  rw [List.append_nil] at h
  rw [h, rawLinesAux]
  simp

theorem textLinesAux_eq_map (s : List Char) :
    ∀ cur : List Char, textLinesAux cur s = (rawLinesAux cur s).map dropCR := by
  induction s with
  | nil =>
    intro cur
    rw [textLinesAux, rawLinesAux]
    split_ifs <;> rfl
  | cons c cs ih =>
    intro cur
    rw [textLinesAux, rawLinesAux]
    split_ifs
    · rw [ih, List.map_cons]
    · exact ih _

/-- The lines of a text are its lines between line feeds, each without one
trailing carriage return. -/
theorem textLines_eq_map (s : List Char) : textLines s = (rawLines s).map dropCR :=
  textLinesAux_eq_map s []

/-- No line of a text contains a line feed. -/
theorem textLines_no_newline (s : List Char) : ∀ l ∈ textLines s, '\n' ∉ l := by
  intro l hl
  rw [textLines_eq_map] at hl
  obtain ⟨r, hr, rfl⟩ := List.mem_map.mp hl
  exact fun h => rawLinesAux_no_newline s [] (by simp) r hr ((dropCR_sublist r).subset h)

theorem textLines_line_cons (l rest : List Char) (hl : '\n' ∉ l) :
    textLines (l ++ '\n' :: rest) = dropCR l :: textLines rest := by
  rw [textLines_eq_map, rawLines_line_cons l rest hl, List.map_cons, ← textLines_eq_map]

theorem textLines_last (l : List Char) (hl : '\n' ∉ l) :
    textLines l = if l = [] then [] else [dropCR l] := by
  rw [textLines_eq_map, rawLines_last l hl]
  split_ifs <;> rfl

theorem textLines_stringsJoin_cons (a b : List Char) (rest : List (List Char))
    (ha : '\n' ∉ a) :
    textLines (stringsJoin (a :: b :: rest) ['\n']) =
      dropCR a :: textLines (stringsJoin (b :: rest) ['\n']) := by
  rw [stringsJoin, List.append_assoc, List.singleton_append, textLines_line_cons a _ ha]

/-- The scanner delivers the first lines of the text. -/
theorem scanLines_initial (s : List Char) : scanLines s <+: textLines s := by
  rw [textLines_eq_map]
  exact (List.takeWhile_prefix _).map dropCR

/-- On a text whose lines fit the buffer the scanner delivers every line. -/
theorem scanLines_eq_textLines (s : List Char) (h : FitsScanner s) :
    scanLines s = textLines s := by
  unfold scanLines
  rw [textLines_eq_map, List.takeWhile_eq_self_iff.mpr]
  intro l hl
  exact decide_eq_true (h l hl)

/-- On a text whose lines fit the buffer the scanner ends without error. -/
theorem scanErr_eq_false (s : List Char) (h : FitsScanner s) : scanErr s = false := by
  unfold scanErr
  rw [List.any_eq_false]
  intro l hl
  have := h l hl
  simp only [decide_eq_true_eq]
  omega

/-- Without error the scanner has delivered every line. -/
theorem fitsScanner_of_scanErr (s : List Char) (h : scanErr s = false) : FitsScanner s := by
  unfold scanErr at h
  rw [List.any_eq_false] at h
  intro l hl
  have := h l hl
  simp only [decide_eq_true_eq] at this
  omega

/-- No token of the scanner contains a line feed. -/
theorem scanLines_no_newline (s : List Char) : ∀ l ∈ scanLines s, '\n' ∉ l :=
  fun l hl => textLines_no_newline s l ((scanLines_initial s).subset hl)

theorem utf8Len_append (a b : List Char) : utf8Len (a ++ b) = utf8Len a + utf8Len b := by
  simp [utf8Len]

theorem utf8Len_dropCR_le (l : List Char) : utf8Len (dropCR l) ≤ utf8Len l := by
  unfold dropCR
  split
  · rename_i h
    have hEq : l.dropLast ++ ['\r'] = l := List.dropLast_append_getLast? '\r' (by simp [h])
    have hlen := congrArg utf8Len hEq
    rw [utf8Len_append] at hlen
    omega
  · exact le_refl _

/-- Every token of the scanner is shorter than the buffer. -/
theorem scanLines_short (s : List Char) : ∀ l ∈ scanLines s, utf8Len l < maxScanTokenSize := by
  intro l hl
  unfold scanLines at hl
  obtain ⟨r, hr, rfl⟩ := List.mem_map.mp hl
  have h := List.mem_takeWhile_imp hr
  simp only [decide_eq_true_eq] at h
  exact lt_of_le_of_lt (utf8Len_dropCR_le r) h

/-- Lines that fit the buffer, joined by line feeds, make a text that fits it. -/
theorem fitsScanner_stringsJoin :
    ∀ lines : List (List Char), (∀ l ∈ lines, '\n' ∉ l) →
      (∀ l ∈ lines, utf8Len l < maxScanTokenSize) → FitsScanner (stringsJoin lines ['\n'])
  | [], _, _ => by
    intro l hl
    simp [stringsJoin, rawLines, rawLinesAux] at hl
  | [a], hnl, hshort => by
    intro l hl
    rw [stringsJoin, rawLines_last a (hnl a (List.mem_singleton_self a))] at hl
    split_ifs at hl
    · cases hl
    · rw [List.mem_singleton.mp hl]
      exact hshort a (List.mem_singleton_self a)
  | a :: b :: rest, hnl, hshort => by
    intro l hl
    rw [stringsJoin, List.append_assoc, List.singleton_append,
      rawLines_line_cons a _ (hnl a (List.mem_cons_self _ _))] at hl
    rcases List.mem_cons.mp hl with h | h
    · rw [h]
      exact hshort a (List.mem_cons_self _ _)
    · exact fitsScanner_stringsJoin (b :: rest) (fun x hx => hnl x (List.mem_cons_of_mem _ hx))
        (fun x hx => hshort x (List.mem_cons_of_mem _ hx)) l h

theorem linesText_append (a b : List (List Char)) :
    linesText (a ++ b) = linesText a ++ linesText b := by
  simp [linesText]

theorem linesText_cons (l : List Char) (ls : List (List Char)) :
    linesText (l :: ls) = l ++ '\n' :: linesText ls := by
  simp [linesText]

theorem rawLines_linesText :
    ∀ lines : List (List Char), (∀ l ∈ lines, '\n' ∉ l) → rawLines (linesText lines) = lines
  | [], _ => rfl
  | l :: ls, h => by
    rw [linesText_cons, rawLines_line_cons l _ (h l (List.mem_cons_self _ _)),
      rawLines_linesText ls (fun x hx => h x (List.mem_cons_of_mem _ hx))]

/-- Lines that fit the buffer, each followed by a line feed, make a text that
fits it. -/
theorem fitsScanner_linesText (lines : List (List Char)) (hnl : ∀ l ∈ lines, '\n' ∉ l)
    (hshort : ∀ l ∈ lines, utf8Len l < maxScanTokenSize) : FitsScanner (linesText lines) := by
  intro l hl
  rw [rawLines_linesText lines hnl] at hl
  exact hshort l hl

theorem scanLines_linesText (lines : List (List Char)) (hnl : ∀ l ∈ lines, '\n' ∉ l)
    (hshort : ∀ l ∈ lines, utf8Len l < maxScanTokenSize) :
    scanLines (linesText lines) = lines.map dropCR := by
  rw [scanLines_eq_textLines _ (fitsScanner_linesText lines hnl hshort), textLines_eq_map,
    rawLines_linesText lines hnl]

theorem dropWhile_append_singleton (p : Char → Bool) (w : Char) (hw : p w = true) :
    ∀ s : List Char, (s ++ [w]).dropWhile p =
      if s.dropWhile p = [] then [] else s.dropWhile p ++ [w] := by
  intro s
  induction s with
  | nil => simp [List.dropWhile, hw]
  | cons x xs ih =>
    by_cases hx : p x = true
    · simp only [List.cons_append, List.dropWhile_cons, hx, if_true]
      exact ih
    · simp [List.dropWhile_cons, hx]

theorem trimSpace_append_space (s : List Char) (w : Char) (hw : isSpace w = true) :
    trimSpace (s ++ [w]) = trimSpace s := by
  unfold trimSpace
  rw [dropWhile_append_singleton isSpace w hw]
  by_cases h : s.dropWhile isSpace = []
  · simp [h]
  · simp [h, List.dropWhile_cons, hw]

theorem cutColon_append_some (t : List Char) :
    ∀ (a pre post : List Char), cutColon a = some (pre, post) →
      cutColon (a ++ t) = some (pre, post ++ t) := by
  intro a
  induction a with
  | nil => intro pre post h; simp [cutColon] at h
  | cons c cs ih =>
    intro pre post h
    rw [List.cons_append]
    unfold cutColon at h ⊢
    by_cases hc : c = ':'
    · simp only [hc, if_true, Option.some.injEq, Prod.mk.injEq] at h ⊢
      exact ⟨h.1, by rw [← h.2]⟩
    · simp only [hc, if_false] at h ⊢
      cases hcs : cutColon cs with
      | none => rw [hcs] at h; cases h
      | some pp =>
        obtain ⟨p1, p2⟩ := pp
        rw [hcs] at h
        simp only [Option.some.injEq, Prod.mk.injEq] at h
        rw [ih p1 p2 hcs]
        simp only [Option.some.injEq, Prod.mk.injEq]
        exact ⟨h.1, by rw [← h.2]⟩

theorem cutColon_append_none (t : List Char) (ht : cutColon t = none) :
    ∀ a : List Char, cutColon a = none → cutColon (a ++ t) = none := by
  intro a
  induction a with
  | nil => intro _; simpa using ht
  | cons c cs ih =>
    intro h
    rw [List.cons_append]
    unfold cutColon at h ⊢
    by_cases hc : c = ':'
    · simp [hc] at h
    · simp only [hc, if_false] at h ⊢
      cases hcs : cutColon cs with
      | none => rw [ih hcs]
      | some pp => rw [hcs] at h; cases h

theorem parseLine_append_cr (L : CaseMapping) (a : List Char) :
    parseLine L (a ++ ['\r']) = parseLine L a := by
  unfold parseLine
  cases h : cutColon a with
  | none => rw [cutColon_append_none ['\r'] (by decide) a h]
  | some pp =>
    obtain ⟨pre, post⟩ := pp
    rw [cutColon_append_some ['\r'] a pre post h]
    simp only
    rw [trimSpace_append_space post '\r' (by decide)]

theorem parseLine_dropCR (L : CaseMapping) (a : List Char) :
    parseLine L (dropCR a) = parseLine L a := by
  unfold dropCR
  split
  · rename_i h
    have hEq : a.dropLast ++ ['\r'] = a := List.dropLast_append_getLast? '\r' (by simp [h])
    conv_rhs => rw [← hEq]
    rw [parseLine_append_cr]
  · rfl

theorem parseContentStep_dropCR (L : CaseMapping) (c : Content) (a : List Char) :
    parseContentStep L c (dropCR a) = parseContentStep L c a := by
  unfold parseContentStep
  rw [parseLine_dropCR]

theorem parseContentStep_nil (L : CaseMapping) (c : Content) :
    parseContentStep L c [] = some c := by
  simp [parseContentStep, parseLine, cutColon]

theorem parseContentLoop_textLines (L : CaseMapping) :
    ∀ (lines : List (List Char)) (c : Content), (∀ l ∈ lines, '\n' ∉ l) →
      parseContentLoop L c (textLines (stringsJoin lines ['\n'])) = parseContentLoop L c lines
  | [], c, _ => by
    simp [stringsJoin, textLines, textLinesAux]
  | [a], c, h => by
    rw [stringsJoin, textLines_last a (h a (List.mem_singleton_self a))]
    by_cases ha : a = []
    · subst ha
      simp [parseContentLoop, parseContentStep_nil]
    · simp only [ha, if_false, parseContentLoop, parseContentStep_dropCR]
  | a :: b :: rest, c, h => by
    rw [textLines_stringsJoin_cons a b rest (h a (List.mem_cons_self _ _))]
    rw [parseContentLoop, parseContentLoop, parseContentStep_dropCR]
    cases parseContentStep L c a with
    | none => rfl
    | some c' =>
      exact parseContentLoop_textLines L (b :: rest) c'
        (fun l hl => h l (List.mem_cons_of_mem _ hl))

/-- Joining scanned lines with line feeds and scanning the text again feeds the
loop of `parseContent` lines with the same keys and values: the lines fit the
buffer again, and the second scan only drops a further trailing carriage return
and a last empty line. -/
theorem parseContentLoop_rescan (L : CaseMapping) (lines : List (List Char)) (c : Content)
    (hnl : ∀ l ∈ lines, '\n' ∉ l) (hshort : ∀ l ∈ lines, utf8Len l < maxScanTokenSize) :
    parseContentLoop L c (scanLines (stringsJoin lines ['\n'])) = parseContentLoop L c lines := by
  rw [scanLines_eq_textLines _ (fitsScanner_stringsJoin lines hnl hshort)]
  exact parseContentLoop_textLines L lines c hnl

/-! ## The delimiter pattern -/

theorem takeWhile_eq_replicate (x : Char) :
    ∀ l : List Char, l.takeWhile (fun c => c = x) =
      List.replicate (l.takeWhile (fun c => c = x)).length x := by
  intro l
  induction l with
  | nil => rfl
  | cons c cs ih =>
    by_cases hc : c = x
    · simp only [List.takeWhile_cons, hc, decide_True, if_true, List.length_cons,
        List.replicate_succ]
      rw [← ih]
    · simp [List.takeWhile_cons, hc]

theorem dropWhile_space_dashes (ws rest : List Char) (hws : ∀ c ∈ ws, isReSpace c = true) :
    (ws ++ '-' :: rest).dropWhile isReSpace = '-' :: rest := by
  induction ws with
  | nil => simp [List.dropWhile_cons, isReSpace]
  | cons c cs ih =>
    rw [List.cons_append, List.dropWhile_cons, hws c (List.mem_cons_self _ _)]
    exact ih (fun x hx => hws x (List.mem_cons_of_mem _ hx))

theorem takeWhile_dashes (n : Nat) (ws : List Char) (hws : ∀ c ∈ ws, isReSpace c = true) :
    (List.replicate n '-' ++ ws).takeWhile (fun c => c = '-') = List.replicate n '-' ∧
      (List.replicate n '-' ++ ws).dropWhile (fun c => c = '-') = ws := by
  induction n with
  | zero =>
    cases ws with
    | nil => simp
    | cons c cs =>
      have hc : c ≠ '-' := by
        intro h
        have := hws c (List.mem_cons_self _ _)
        rw [h] at this
        revert this
        decide
      simp [List.takeWhile_cons, List.dropWhile_cons, hc]
  | succ k ih =>
    simp only [List.replicate_succ, List.cons_append, List.takeWhile_cons, List.dropWhile_cons,
      decide_True, if_true]
    exact ⟨by rw [ih.1], ih.2⟩

/-- The model of `delimiterRegex.MatchString` accepts exactly the lines of the
delimiter pattern. -/
theorem isDelimiter_iff (line : List Char) : isDelimiter line = true ↔ DelimiterLine line := by
  constructor
  · intro h
    simp only [isDelimiter, Bool.and_eq_true, decide_eq_true_eq, List.all_eq_true] at h
    obtain ⟨hlen, htail⟩ := h
    obtain ⟨n, hn⟩ : ∃ n, ((line.dropWhile isReSpace).takeWhile (fun c => c = '-')).length =
        n + 3 := ⟨_, (Nat.sub_add_cancel hlen).symm⟩
    refine ⟨line.takeWhile isReSpace, (line.dropWhile isReSpace).dropWhile (fun c => c = '-'),
      n, ?_, ?_, htail⟩
    · rw [← hn, ← takeWhile_eq_replicate, List.append_assoc, List.takeWhile_append_dropWhile,
        List.takeWhile_append_dropWhile]
    · intro c hc
      exact List.mem_takeWhile_imp hc
  · rintro ⟨ws₁, ws₂, n, rfl, h₁, h₂⟩
    have hrepl : List.replicate (n + 3) '-' = '-' :: List.replicate (n + 2) '-' := rfl
    have hdrop : (ws₁ ++ List.replicate (n + 3) '-' ++ ws₂).dropWhile isReSpace =
        List.replicate (n + 3) '-' ++ ws₂ := by
      rw [List.append_assoc, hrepl, List.cons_append]
      exact dropWhile_space_dashes ws₁ _ h₁
    simp only [isDelimiter, hdrop, (takeWhile_dashes (n + 3) ws₂ h₂).1,
      (takeWhile_dashes (n + 3) ws₂ h₂).2, Bool.and_eq_true, decide_eq_true_eq,
      List.all_eq_true, List.length_replicate]
    exact ⟨by omega, h₂⟩

theorem isDelimiter_false_iff (line : List Char) :
    isDelimiter line = false ↔ ¬ DelimiterLine line := by
  rw [← isDelimiter_iff]
  cases isDelimiter line <;> simp

theorem parseContent_nil (L : CaseMapping) : parseContent L [] = some {} := rfl

/-- `ParseFrontMatter` in terms of the state in which its scanning loop ends. -/
theorem ParseFrontMatter_unfold (L : CaseMapping) (c : List Char) :
    ParseFrontMatter L c =
      match parseContent L
          (stringsJoin ((scanLines c).foldl frontMatterStep {}).frontMatterLines ['\n']) with
      | some content =>
        some { content with
          Body := stringsJoin ((scanLines c).foldl frontMatterStep {}).bodyLines ['\n'] }
      | none => none := rfl

/-- Without delimiter line among the scanned lines, the body is the scanned
lines and nothing is parsed. -/
theorem ParseFrontMatter_body_only (L : CaseMapping) (text : List Char)
    (h : ∀ l ∈ scanLines text, isDelimiter l = false) :
    ParseFrontMatter L text = some { Body := stringsJoin (scanLines text) ['\n'] } := by
  unfold ParseFrontMatter
  simp only
  rw [foldl_frontMatterStep_body (scanLines text) {} h rfl]
  simp [stringsJoin, parseContent_nil]

theorem utf8Len_replicate (n : Nat) : utf8Len (List.replicate n 'a') = n := by
  induction n with
  | zero => rfl
  | succ n ih =>
    rw [List.replicate_succ, show 'a' :: List.replicate n 'a' = ['a'] ++ List.replicate n 'a' from rfl,
      utf8Len_append, ih]
    have h1 : utf8Len ['a'] = 1 := by decide
    omega

/-- The long line has as many bytes as the buffer of a scanner. -/
theorem utf8Len_longLine : utf8Len longLine = maxScanTokenSize :=
  utf8Len_replicate maxScanTokenSize

theorem longLine_no_newline : '\n' ∉ longLine := by
  intro h
  have := (List.mem_replicate.mp h).2
  revert this
  decide

theorem longLine_eq_cons : longLine = 'a' :: List.replicate 65535 'a' := rfl

theorem dropCR_longLine : dropCR longLine = longLine := by
  unfold dropCR
  rw [if_neg]
  intro h
  have hmem : '\r' ∈ longLine := List.mem_of_getLast?_eq_some h
  have := (List.mem_replicate.mp hmem).2
  revert this
  decide

theorem isDelimiter_longLine : isDelimiter longLine = false := by
  rw [longLine_eq_cons]
  rfl

/-- The scanner stops at a line that fills its buffer: it has delivered the lines
before it, and its error is set. -/
theorem scanLines_longLine (rest : List Char) :
    ∀ pre : List (List Char), (∀ l ∈ pre, '\n' ∉ l) →
      (∀ l ∈ pre, utf8Len l < maxScanTokenSize) →
      scanLines (linesText pre ++ (longLine ++ '\n' :: rest)) = pre.map dropCR ∧
        scanErr (linesText pre ++ (longLine ++ '\n' :: rest)) = true ∧
        textLines (linesText pre ++ (longLine ++ '\n' :: rest)) =
          pre.map dropCR ++ longLine :: textLines rest := by
  have hraw : ∀ pre : List (List Char), (∀ l ∈ pre, '\n' ∉ l) →
      rawLines (linesText pre ++ (longLine ++ '\n' :: rest)) =
        pre ++ longLine :: rawLines rest := by
    intro pre
    induction pre with
    | nil =>
      intro _
      rw [show linesText [] = [] from rfl, List.nil_append,
        rawLines_line_cons longLine rest longLine_no_newline, List.nil_append]
    | cons l ls ih =>
      intro hnl
      rw [linesText_cons, List.append_assoc, List.cons_append,
        rawLines_line_cons l _ (hnl l (List.mem_cons_self _ _)),
        ih (fun x hx => hnl x (List.mem_cons_of_mem _ hx)), List.cons_append]
  intro pre hnl hshort
  have hlong : decide (utf8Len longLine < maxScanTokenSize) = false := by
    rw [utf8Len_longLine]
    simp
  refine ⟨?_, ?_, ?_⟩
  · unfold scanLines
    rw [hraw pre hnl, List.takeWhile_append_of_pos (fun l hl => decide_eq_true (hshort l hl)),
      List.takeWhile_cons, hlong]
    simp
  · unfold scanErr
    rw [hraw pre hnl, List.any_eq_true]
    exact ⟨longLine, by simp, by rw [utf8Len_longLine]; simp⟩
  · rw [textLines_eq_map, hraw pre hnl, List.map_append, List.map_cons, dropCR_longLine,
      ← textLines_eq_map]

/-- C3 as stated fails: no line of the text `ok`, a line of 65536 bytes, is a
delimiter, yet the body returned is `ok` alone. -/
theorem ParseFrontMatter_long_line_lost :
    textLines ("ok\n".toList ++ (longLine ++ "\n".toList)) = ["ok".toList, longLine] ∧
      (∀ l ∈ textLines ("ok\n".toList ++ (longLine ++ "\n".toList)), isDelimiter l = false) ∧
      ParseFrontMatter asciiCase ("ok\n".toList ++ (longLine ++ "\n".toList)) =
        some { Body := "ok".toList } ∧
      stringsJoin (textLines ("ok\n".toList ++ (longLine ++ "\n".toList))) ['\n'] ≠
        "ok".toList := by
  have h := scanLines_longLine [] ["ok".toList] (by decide) (by decide)
  have htext : "ok\n".toList ++ (longLine ++ "\n".toList) =
      linesText ["ok".toList] ++ (longLine ++ '\n' :: []) := rfl
  have hlines : textLines ("ok\n".toList ++ (longLine ++ "\n".toList)) =
      ["ok".toList, longLine] := by
    rw [htext, h.2.2]
    rfl
  refine ⟨hlines, ?_, ?_, ?_⟩
  · rw [hlines]
    intro l hl
    rcases List.mem_cons.mp hl with hl | hl
    · rw [hl]; decide
    · rw [List.mem_singleton.mp hl]
      exact isDelimiter_longLine
  · rw [ParseFrontMatter_body_only, htext, h.1]
    · rfl
    · rw [htext, h.1]
      decide
  · rw [hlines]
    simp [stringsJoin]

/-- C3, amended: on a text whose lines are all shorter than the buffer of the
scanner and none of whose lines matches the delimiter pattern, `ParseFrontMatter`
returns the record whose `Body` is all the lines of the text, in order, joined by
line feeds, and whose other fields have their zero values. -/
theorem ParseFrontMatter_no_delimiter (L : CaseMapping) (text : List Char)
    (hfit : FitsScanner text) (h : ∀ l ∈ textLines text, ¬ DelimiterLine l) :
    ParseFrontMatter L text =
      some { Title := [], Body := stringsJoin (textLines text) ['\n'], PageBreak := false,
             Sample := false, Backmatter := false, Frontmatter := false, Rule := 0,
             Index := false, Id := [] } := by
  have hscan := scanLines_eq_textLines text hfit
  rw [ParseFrontMatter_body_only L text, hscan]
  rw [hscan]
  exact fun l hl => (isDelimiter_false_iff l).mpr (h l hl)

theorem ParseFrontMatter_no_delimiter_witness :
    FitsScanner "title: x\r\n-- not a rule\n\nlast".toList ∧
      (∀ l ∈ textLines "title: x\r\n-- not a rule\n\nlast".toList, ¬ DelimiterLine l) ∧
      ParseFrontMatter asciiCase "title: x\r\n-- not a rule\n\nlast".toList =
        some { Title := [], Body := "title: x\n-- not a rule\n\nlast".toList, PageBreak := false,
               Sample := false, Backmatter := false, Frontmatter := false, Rule := 0,
               Index := false, Id := [] } :=
  have h : ∀ l ∈ textLines "title: x\r\n-- not a rule\n\nlast".toList, ¬ DelimiterLine l :=
    fun l hl => (isDelimiter_false_iff l).mp
      ((by decide : ∀ l ∈ textLines "title: x\r\n-- not a rule\n\nlast".toList,
        isDelimiter l = false) l hl)
  ⟨by decide, h, ParseFrontMatter_no_delimiter asciiCase _ (by decide) h⟩

/-- C4 as stated fails: the text has the two delimiter lines `---` and `---`, the
lines after the second are a line of 65536 bytes and `end`, yet the body returned
is empty. -/
theorem ParseFrontMatter_long_line_after_delimiters :
    textLines ("---\nid: x\n---\n".toList ++ (longLine ++ "\nend\n".toList)) =
        [] ++ "---".toList :: (["id: x".toList] ++ "---".toList :: [longLine, "end".toList]) ∧
      isDelimiter "---".toList = true ∧ isDelimiter "id: x".toList = false ∧
      isDelimiter longLine = false ∧ isDelimiter "end".toList = false ∧
      ParseFrontMatter asciiCase ("---\nid: x\n---\n".toList ++ (longLine ++ "\nend\n".toList)) =
        some { Id := "x".toList, Body := [] } ∧
      stringsJoin ([] ++ [longLine, "end".toList]) ['\n'] ≠ [] := by
  have h := scanLines_longLine "end\n".toList ["---".toList, "id: x".toList, "---".toList]
    (by decide) (by decide)
  have htext : "---\nid: x\n---\n".toList ++ (longLine ++ "\nend\n".toList) =
      linesText ["---".toList, "id: x".toList, "---".toList] ++
        (longLine ++ '\n' :: "end\n".toList) := rfl
  refine ⟨?_, by decide, by decide, isDelimiter_longLine, by decide, ?_, ?_⟩
  · rw [htext, h.2.2]
    rfl
  · rw [ParseFrontMatter_unfold, htext, h.1]
    decide
  · intro hnil
    have hlen := congrArg utf8Len hnil
    rw [List.nil_append, stringsJoin, utf8Len_append, utf8Len_append, utf8Len_longLine] at hlen
    revert hlen
    decide

/-- C4, amended: on a text whose lines are all shorter than the buffer of the
scanner and which has exactly two delimiter lines `d₁` and `d₂`, the scanning
loop of `ParseFrontMatter` collects exactly the lines strictly between them as
metadata lines and the lines before `d₁` followed by the lines after `d₂` as body
lines; the result is the record the loop of `parseContent` builds from those
metadata lines, with `Body` the body lines joined by line feeds.  The delimiter
lines are in neither list. -/
theorem ParseFrontMatter_two_delimiters (L : CaseMapping) (text : List Char)
    (pre mid post : List (List Char)) (d₁ d₂ : List Char)
    (hfit : FitsScanner text)
    (hlines : textLines text = pre ++ d₁ :: (mid ++ d₂ :: post))
    (hd₁ : DelimiterLine d₁) (hd₂ : DelimiterLine d₂)
    (hpre : ∀ l ∈ pre, ¬ DelimiterLine l) (hmid : ∀ l ∈ mid, ¬ DelimiterLine l)
    (hpost : ∀ l ∈ post, ¬ DelimiterLine l) :
    (scanLines text).foldl frontMatterStep {} =
        { inFrontMatter := false, bodyLines := pre ++ post, frontMatterLines := mid } ∧
      ParseFrontMatter L text =
        (parseContentLoop L {} mid).map
          (fun content => { content with Body := stringsJoin (pre ++ post) ['\n'] }) := by
  have hscan : scanLines text = pre ++ d₁ :: (mid ++ d₂ :: post) :=
    (scanLines_eq_textLines text hfit).trans hlines
  have hfold : (scanLines text).foldl frontMatterStep {} =
      { inFrontMatter := false, bodyLines := pre ++ post, frontMatterLines := mid } := by
    rw [hscan]
    exact foldl_frontMatterStep_two pre mid post d₁ d₂ ((isDelimiter_iff _).mpr hd₁)
      ((isDelimiter_iff _).mpr hd₂) (fun l hl => (isDelimiter_false_iff l).mpr (hpre l hl))
      (fun l hl => (isDelimiter_false_iff l).mpr (hmid l hl))
      (fun l hl => (isDelimiter_false_iff l).mpr (hpost l hl))
  refine ⟨hfold, ?_⟩
  have hmem : ∀ l ∈ mid, l ∈ scanLines text := by
    intro l hl
    rw [hscan]
    simp [hl]
  have hnl : ∀ l ∈ mid, '\n' ∉ l := fun l hl => scanLines_no_newline text l (hmem l hl)
  have hshort : ∀ l ∈ mid, utf8Len l < maxScanTokenSize :=
    fun l hl => scanLines_short text l (hmem l hl)
  unfold ParseFrontMatter
  simp only
  rw [hfold]
  simp only
  unfold parseContent
  rw [parseContentLoop_rescan L mid {} hnl hshort]
  cases parseContentLoop L {} mid <;> rfl

theorem ParseFrontMatter_two_delimiters_witness :
    FitsScanner "intro\n---\ntitle: T\nrule: 7\n  ----  \nbody1\nbody2\n".toList ∧
      textLines "intro\n---\ntitle: T\nrule: 7\n  ----  \nbody1\nbody2\n".toList =
        ["intro".toList] ++ "---".toList ::
          (["title: T".toList, "rule: 7".toList] ++ "  ----  ".toList ::
            ["body1".toList, "body2".toList]) ∧
      DelimiterLine "---".toList ∧ DelimiterLine "  ----  ".toList ∧
      (scanLines "intro\n---\ntitle: T\nrule: 7\n  ----  \nbody1\nbody2\n".toList).foldl
          frontMatterStep {} =
        { inFrontMatter := false,
          bodyLines := ["intro".toList] ++ ["body1".toList, "body2".toList],
          frontMatterLines := ["title: T".toList, "rule: 7".toList] } ∧
      ParseFrontMatter asciiCase "intro\n---\ntitle: T\nrule: 7\n  ----  \nbody1\nbody2\n".toList =
        some { Title := "T".toList, Rule := 7, Body := "intro\nbody1\nbody2".toList } :=
  have hd₁ : DelimiterLine "---".toList := (isDelimiter_iff _).mp (by decide)
  have hd₂ : DelimiterLine "  ----  ".toList := (isDelimiter_iff _).mp (by decide)
  have h := ParseFrontMatter_two_delimiters asciiCase
    "intro\n---\ntitle: T\nrule: 7\n  ----  \nbody1\nbody2\n".toList ["intro".toList]
    ["title: T".toList, "rule: 7".toList] ["body1".toList, "body2".toList]
    "---".toList "  ----  ".toList (by decide) (by decide) hd₁ hd₂
    (fun l hl => (isDelimiter_false_iff l).mp
      ((by decide : ∀ l ∈ ["intro".toList], isDelimiter l = false) l hl))
    (fun l hl => (isDelimiter_false_iff l).mp
      ((by decide : ∀ l ∈ ["title: T".toList, "rule: 7".toList], isDelimiter l = false) l hl))
    (fun l hl => (isDelimiter_false_iff l).mp
      ((by decide : ∀ l ∈ ["body1".toList, "body2".toList], isDelimiter l = false) l hl))
  ⟨by decide, by decide, hd₁, hd₂, h.1, h.2.trans (by decide)⟩

/-! ## The loop of `parseContent` -/

theorem lastValue_nil (L : CaseMapping) (k : List Char) : lastValue L k [] = none := rfl

theorem lastValue_cons (L : CaseMapping) (k l : List Char) (ls : List (List Char)) :
    lastValue L k (l :: ls) =
      if (parseLine L l).1 = k then some ((lastValue L k ls).getD (parseLine L l).2)
      else lastValue L k ls := by
  unfold lastValue
  by_cases h : (parseLine L l).1 = k
  · simp only [List.filter_cons, h, decide_True, if_true, List.getLast?_cons]
    cases (List.filter (fun l => decide ((parseLine L l).1 = k)) ls).getLast? <;> rfl
  · simp [List.filter_cons, h]

/-- A field of the record that the loop assigns on the lines with key `k` only,
by a function `f` of the value, holds `f` of the last such value at the end. -/
theorem parseContentLoop_field {β : Type} (L : CaseMapping) (k : List Char)
    (proj : Content → β) (f : List Char → β)
    (hstep : ∀ (c c' : Content) (l : List Char), parseContentStep L c l = some c' →
      proj c' = if (parseLine L l).1 = k then f (parseLine L l).2 else proj c) :
    ∀ (lines : List (List Char)) (c c' : Content), parseContentLoop L c lines = some c' →
      proj c' = ((lastValue L k lines).map f).getD (proj c) := by
  intro lines
  induction lines with
  | nil =>
    intro c c' h
    simp only [parseContentLoop, Option.some.injEq] at h
    rw [lastValue_nil, ← h]
    rfl
  | cons l ls ih =>
    intro c c' h
    rw [parseContentLoop] at h
    cases hs : parseContentStep L c l with
    | none => rw [hs] at h; cases h
    | some c₁ =>
      rw [hs] at h
      rw [ih c₁ c' h, hstep c c₁ l hs, lastValue_cons]
      by_cases hk : (parseLine L l).1 = k
      · simp only [hk, if_true]
        cases lastValue L k ls <;> rfl
      · simp only [hk, if_false]

theorem parseContentStep_PageBreak (L : CaseMapping) (c c' : Content) (l : List Char)
    (h : parseContentStep L c l = some c') :
    c'.PageBreak =
      if (parseLine L l).1 = "page-break".toList then decide ((parseLine L l).2 = "yes".toList)
      else c.PageBreak := by
  unfold parseContentStep at h
  simp only at h
  split_ifs at h <;> first
    | (cases h; simp [*])
    | (cases hm : atoi (parseLine L l).2 <;> rw [hm] at h <;> cases h; simp [*])

theorem parseContentStep_Sample (L : CaseMapping) (c c' : Content) (l : List Char)
    (h : parseContentStep L c l = some c') :
    c'.Sample =
      if (parseLine L l).1 = "sample".toList then decide ((parseLine L l).2 = "yes".toList)
      else c.Sample := by
  unfold parseContentStep at h
  simp only at h
  split_ifs at h <;> first
    | (cases h; simp [*])
    | (cases hm : atoi (parseLine L l).2 <;> rw [hm] at h <;> cases h; simp [*])

theorem parseContentStep_Backmatter (L : CaseMapping) (c c' : Content) (l : List Char)
    (h : parseContentStep L c l = some c') :
    c'.Backmatter =
      if (parseLine L l).1 = "backmatter".toList then decide ((parseLine L l).2 = "yes".toList)
      else c.Backmatter := by
  unfold parseContentStep at h
  simp only at h
  split_ifs at h <;> first
    | (cases h; simp [*])
    | (cases hm : atoi (parseLine L l).2 <;> rw [hm] at h <;> cases h; simp [*])

theorem parseContentStep_Frontmatter (L : CaseMapping) (c c' : Content) (l : List Char)
    (h : parseContentStep L c l = some c') :
    c'.Frontmatter =
      if (parseLine L l).1 = "frontmatter".toList then decide ((parseLine L l).2 = "yes".toList)
      else c.Frontmatter := by
  unfold parseContentStep at h
  simp only at h
  split_ifs at h <;> first
    | (cases h; simp [*])
    | (cases hm : atoi (parseLine L l).2 <;> rw [hm] at h <;> cases h; simp [*])

theorem parseContentStep_Rule (L : CaseMapping) (c c' : Content) (l : List Char)
    (h : parseContentStep L c l = some c') :
    c'.Rule =
      if (parseLine L l).1 = "rule".toList then (atoi (parseLine L l).2).getD 0 else c.Rule := by
  unfold parseContentStep at h
  simp only at h
  split_ifs at h <;> first
    | (cases h; simp [*])
    | (cases hm : atoi (parseLine L l).2 <;> rw [hm] at h <;> cases h; simp [*])

theorem parseContentStep_eq_none (L : CaseMapping) (c : Content) (l : List Char) :
    parseContentStep L c l = none ↔
      (parseLine L l).1 = "rule".toList ∧ atoi (parseLine L l).2 = none := by
  unfold parseContentStep
  simp only
  split_ifs <;> cases hm : atoi (parseLine L l).2 <;> simp [*]

theorem parseContentLoop_eq_none (L : CaseMapping) :
    ∀ (lines : List (List Char)) (c : Content), parseContentLoop L c lines = none ↔
      ∃ l ∈ lines, (parseLine L l).1 = "rule".toList ∧ atoi (parseLine L l).2 = none := by
  intro lines
  induction lines with
  | nil => intro c; simp [parseContentLoop]
  | cons l ls ih =>
    intro c
    rw [parseContentLoop]
    cases hs : parseContentStep L c l with
    | none =>
      simp only [List.mem_cons, exists_eq_or_imp, true_iff]
      exact Or.inl ((parseContentStep_eq_none L c l).mp hs)
    | some c₁ =>
      have hn : ¬ ((parseLine L l).1 = "rule".toList ∧ atoi (parseLine L l).2 = none) := by
        rw [← parseContentStep_eq_none L c l, hs]
        simp
      simp only [List.mem_cons, exists_eq_or_imp, hn, false_or]
      exact ih c₁

theorem bool_field_iff (v : Option (List Char)) (b : Bool)
    (h : b = (v.map (fun x => decide (x = "yes".toList))).getD false) :
    b = true ↔ v = some "yes".toList := by
  cases v with
  | none => simp [h]
  | some x => simp [h]

/-- C5: when `parseContent` returns a record for a metadata block, each of
`PageBreak`, `Sample`, `Backmatter`, `Frontmatter` is true exactly when the block
has a line with the key `page-break`, `sample`, `backmatter`, `frontmatter`
respectively and the trimmed value of the last such line is `yes`. -/
theorem parseContent_boolean_keys (L : CaseMapping) (block : List Char) (c : Content)
    (h : parseContent L block = some c) :
    (c.PageBreak = true ↔
        lastValue L "page-break".toList (scanLines block) = some "yes".toList) ∧
      (c.Sample = true ↔ lastValue L "sample".toList (scanLines block) = some "yes".toList) ∧
      (c.Backmatter = true ↔
        lastValue L "backmatter".toList (scanLines block) = some "yes".toList) ∧
      (c.Frontmatter = true ↔
        lastValue L "frontmatter".toList (scanLines block) = some "yes".toList) := by
  unfold parseContent at h
  refine ⟨bool_field_iff _ _ ?_, bool_field_iff _ _ ?_, bool_field_iff _ _ ?_,
    bool_field_iff _ _ ?_⟩
  · exact parseContentLoop_field L _ (fun c => c.PageBreak) _
      (parseContentStep_PageBreak L) _ _ _ h
  · exact parseContentLoop_field L _ (fun c => c.Sample) _
      (parseContentStep_Sample L) _ _ _ h
  · exact parseContentLoop_field L _ (fun c => c.Backmatter) _
      (parseContentStep_Backmatter L) _ _ _ h
  · exact parseContentLoop_field L _ (fun c => c.Frontmatter) _
      (parseContentStep_Frontmatter L) _ _ _ h

theorem parseContent_boolean_keys_witness :
    parseContent asciiCase sampleBlock = some { PageBreak := true, Frontmatter := true } ∧
      ((true = true ↔
          lastValue asciiCase "page-break".toList (scanLines sampleBlock) = some "yes".toList) ∧
        (false = true ↔
          lastValue asciiCase "sample".toList (scanLines sampleBlock) = some "yes".toList) ∧
        (false = true ↔
          lastValue asciiCase "backmatter".toList (scanLines sampleBlock) = some "yes".toList) ∧
        (true = true ↔
          lastValue asciiCase "frontmatter".toList (scanLines sampleBlock) = some "yes".toList)) :=
  ⟨by decide,
    parseContent_boolean_keys asciiCase sampleBlock { PageBreak := true, Frontmatter := true }
      (by decide)⟩

/-! ## The `rule` key -/

theorem decimalInteger_iff (s : List Char) :
    DecimalInteger s ↔
      (if s.head? = some '-' ∨ s.head? = some '+' then s.tail else s) ≠ [] ∧
        (if s.head? = some '-' ∨ s.head? = some '+' then s.tail else s).all Char.isDigit = true := by
  constructor
  · rintro ⟨sign, digits, rfl, hsign, hne, hdig⟩
    rcases hsign with h | h | h
    · subst h
      cases digits with
      | nil => exact absurd rfl hne
      | cons d ds =>
        have hd : d.isDigit = true := hdig d (List.mem_cons_self _ _)
        have h1 : d ≠ '-' := by intro h; rw [h] at hd; revert hd; decide
        have h2 : d ≠ '+' := by intro h; rw [h] at hd; revert hd; decide
        simp only [List.nil_append, List.head?_cons, Option.some.injEq, h1, h2, or_self,
          if_false, ne_eq, not_false_eq_true, List.all_eq_true, true_and]
        simpa using hdig
    · subst h
      simp only [List.singleton_append, List.head?_cons, Option.some.injEq, or_true, if_true,
        List.tail_cons, ne_eq, List.all_eq_true]
      exact ⟨hne, hdig⟩
    · subst h
      simp only [List.singleton_append, List.head?_cons, Option.some.injEq, true_or, if_true,
        List.tail_cons, ne_eq, List.all_eq_true]
      exact ⟨hne, hdig⟩
  · intro h
    by_cases hs : s.head? = some '-' ∨ s.head? = some '+'
    · simp only [hs, if_true, ne_eq, List.all_eq_true] at h
      cases s with
      | nil => simp at hs
      | cons c cs =>
        simp only [List.head?_cons, Option.some.injEq] at hs
        simp only [List.tail_cons] at h
        refine ⟨[c], cs, rfl, ?_, h.1, h.2⟩
        rcases hs with hs | hs
        · exact Or.inr (Or.inr (by rw [hs]))
        · exact Or.inr (Or.inl (by rw [hs]))
    · simp only [hs, if_false, ne_eq, List.all_eq_true] at h
      exact ⟨[], s, rfl, Or.inl rfl, h.1, h.2⟩

/-- `strconv.Atoi` fails exactly on the texts that are not the decimal numeral of
a 64-bit integer. -/
theorem atoi_eq_none_iff (s : List Char) :
    atoi s = none ↔ ¬ (DecimalInteger s ∧ FitsInt (intOfDecimal s)) := by
  rw [decimalInteger_iff]
  unfold atoi FitsInt intOfDecimal
  simp only
  by_cases hm : s.head? = some '-'
  · simp only [hm, true_or, if_true]
    by_cases h1 : s.tail = [] ∨ ¬ s.tail.all Char.isDigit = true
    · rw [if_pos h1]; simp only [true_iff]; tauto
    · rw [if_neg h1]
      split <;> simp_all
  · by_cases hp : s.head? = some '+'
    · simp only [hm, hp, or_true, if_true, if_false]
      by_cases h1 : s.tail = [] ∨ ¬ s.tail.all Char.isDigit = true
      · rw [if_pos h1]; simp only [true_iff]; tauto
      · rw [if_neg h1]
        split <;> simp_all
    · simp only [hm, hp, or_self, if_false]
      by_cases h1 : s = [] ∨ ¬ s.all Char.isDigit = true
      · rw [if_pos h1]; simp only [true_iff]; tauto
      · rw [if_neg h1]
        split <;> simp_all

/-- When `strconv.Atoi` succeeds it returns the integer the numeral denotes. -/
theorem atoi_eq_some (s : List Char) (n : Int) (h : atoi s = some n) : n = intOfDecimal s := by
  unfold atoi at h
  unfold intOfDecimal
  simp only at h
  split_ifs at h <;> simp_all

theorem lastValue_mem (L : CaseMapping) (k v : List Char) (lines : List (List Char))
    (h : lastValue L k lines = some v) :
    ∃ l ∈ lines, (parseLine L l).1 = k ∧ (parseLine L l).2 = v := by
  unfold lastValue at h
  cases hl : (lines.filter (fun l => (parseLine L l).1 = k)).getLast? with
  | none => rw [hl] at h; cases h
  | some l =>
    rw [hl] at h
    simp only [Option.map_some', Option.some.injEq] at h
    have hmem := List.mem_of_getLast?_eq_some hl
    rw [List.mem_filter] at hmem
    exact ⟨l, hmem.1, by simpa using hmem.2, h⟩

/-- C6, amended: `parseContent` aborts exactly when some line has the key `rule`
and a trimmed value that is not the decimal numeral (optional sign, ASCII digits)
of an integer that fits Go's 64-bit `int`; when it returns, `Rule` is the integer
denoted by the value of the last `rule` line, and 0 when there is none. -/
theorem parseContent_rule (L : CaseMapping) (block : List Char) :
    (parseContent L block = none ↔
        ∃ l ∈ scanLines block, (parseLine L l).1 = "rule".toList ∧
          ¬ (DecimalInteger (parseLine L l).2 ∧ FitsInt (intOfDecimal (parseLine L l).2))) ∧
      ∀ c : Content, parseContent L block = some c →
        c.Rule = ((lastValue L "rule".toList (scanLines block)).map intOfDecimal).getD 0 := by
  unfold parseContent
  constructor
  · rw [parseContentLoop_eq_none]
    simp only [atoi_eq_none_iff]
  · intro c h
    have hfield : c.Rule = ((lastValue L "rule".toList (scanLines block)).map
        (fun v => (atoi v).getD 0)).getD 0 :=
      parseContentLoop_field L "rule".toList (fun c => c.Rule)
        (fun v => (atoi v).getD 0) (parseContentStep_Rule L) _ _ _ h
    rw [hfield]
    cases hv : lastValue L "rule".toList (scanLines block) with
    | none => rfl
    | some v =>
      obtain ⟨l, hl, hkey, hval⟩ := lastValue_mem L _ v _ hv
      have hsome : atoi v ≠ none := by
        intro hnone
        have habort : parseContentLoop L {} (scanLines block) = none :=
          (parseContentLoop_eq_none L _ _).mpr ⟨l, hl, hkey, by rw [hval]; exact hnone⟩
        rw [habort] at h
        cases h
      cases ha : atoi v with
      | none => exact absurd ha hsome
      | some n =>
        simp only [Option.map_some', Option.getD_some, ha]
        exact atoi_eq_some v n ha

theorem parseContent_rule_witness :
    (parseContent asciiCase "rule: 3\ntitle: T\nRULE: -12 \n".toList = none ↔
        ∃ l ∈ scanLines "rule: 3\ntitle: T\nRULE: -12 \n".toList,
          (parseLine asciiCase l).1 = "rule".toList ∧
            ¬ (DecimalInteger (parseLine asciiCase l).2 ∧
              FitsInt (intOfDecimal (parseLine asciiCase l).2))) ∧
      parseContent asciiCase "rule: 3\ntitle: T\nRULE: -12 \n".toList =
        some { Title := "T".toList, Rule := -12 } ∧
      (-12 : Int) = ((lastValue asciiCase "rule".toList
        (scanLines "rule: 3\ntitle: T\nRULE: -12 \n".toList)).map intOfDecimal).getD 0 :=
  ⟨(parseContent_rule asciiCase "rule: 3\ntitle: T\nRULE: -12 \n".toList).1, by decide,
    (parseContent_rule asciiCase "rule: 3\ntitle: T\nRULE: -12 \n".toList).2
      { Title := "T".toList, Rule := -12 } (by decide)⟩

/-- C6 as stated fails: the value `9223372036854775808` is a decimal integer, no
other line has the key `rule`, and `parseContent` aborts. -/
theorem parseContent_rule_overflow :
    DecimalInteger "9223372036854775808".toList ∧
      parseContent asciiCase "rule: 9223372036854775808".toList = none ∧
      ¬ (parseContent asciiCase "rule: 9223372036854775808".toList = none ↔
        ∃ l ∈ scanLines "rule: 9223372036854775808".toList,
          (parseLine asciiCase l).1 = "rule".toList ∧
            ¬ DecimalInteger (parseLine asciiCase l).2) := by
  have hdec : DecimalInteger "9223372036854775808".toList :=
    ⟨[], "9223372036854775808".toList, rfl, Or.inl rfl, by decide, by decide⟩
  have habort : parseContent asciiCase "rule: 9223372036854775808".toList = none := by decide
  refine ⟨hdec, habort, ?_⟩
  intro hiff
  obtain ⟨l, hl, _, hbad⟩ := hiff.mp habort
  have hlines : scanLines "rule: 9223372036854775808".toList =
      ["rule: 9223372036854775808".toList] := by decide
  rw [hlines, List.mem_singleton] at hl
  subst hl
  have hval : (parseLine asciiCase "rule: 9223372036854775808".toList).2 =
      "9223372036854775808".toList := by decide
  rw [hval] at hbad
  exact hbad hdec

/-! ## `parseLine` -/

theorem cutColon_split (post : List Char) :
    ∀ pre : List Char, ':' ∉ pre → cutColon (pre ++ ':' :: post) = some (pre, post) := by
  intro pre
  induction pre with
  | nil => intro _; simp [cutColon]
  | cons c cs ih =>
    intro h
    have hc : c ≠ ':' := fun e => h (e ▸ List.mem_cons_self _ _)
    have hcs : ':' ∉ cs := fun e => h (List.mem_cons_of_mem _ e)
    rw [List.cons_append, cutColon]
    simp only [hc, if_false]
    rw [ih hcs]

theorem cutColon_eq_none (line : List Char) (h : ':' ∉ line) : cutColon line = none := by
  induction line with
  | nil => rfl
  | cons c cs ih =>
    have hc : c ≠ ':' := fun e => h (e ▸ List.mem_cons_self _ _)
    have hcs : ':' ∉ cs := fun e => h (List.mem_cons_of_mem _ e)
    rw [cutColon]
    simp only [hc, if_false]
    rw [ih hcs]

theorem parseLine_split (L : CaseMapping) (pre post : List Char) (h : ':' ∉ pre) :
    parseLine L (pre ++ ':' :: post) = (toLower L pre, trimSpace post) := by
  unfold parseLine
  rw [cutColon_split post pre h]

theorem toLower_ascii (L : CaseMapping) (s : List Char) (h : ∀ c ∈ s, c.toNat < 128) :
    toLower L s = s.map asciiLower := by
  unfold toLower
  exact List.map_congr_left (fun c hc => L.ascii c (h c hc))

theorem dropWhile_head_not (p : Char → Bool) :
    ∀ (l : List Char) (c : Char), (l.dropWhile p).head? = some c → p c = false := by
  intro l
  induction l with
  | nil => intro c h; simp at h
  | cons x xs ih =>
    intro c h
    by_cases hx : p x = true
    · rw [List.dropWhile_cons, if_pos hx] at h
      exact ih c h
    · rw [List.dropWhile_cons, if_neg hx] at h
      simp only [List.head?_cons, Option.some.injEq] at h
      rw [← h]
      simpa using hx

/-- `strings.TrimSpace` removes a run of white space at each end and stops at a
character that is not white space. -/
theorem trimSpace_spec (s : List Char) :
    ∃ ws₁ ws₂ : List Char, s = ws₁ ++ trimSpace s ++ ws₂ ∧
      (∀ c ∈ ws₁, isSpace c = true) ∧ (∀ c ∈ ws₂, isSpace c = true) ∧
      (∀ c, (trimSpace s).head? = some c → isSpace c = false) ∧
      (∀ c, (trimSpace s).getLast? = some c → isSpace c = false) := by
  have hlast : ∀ c, (trimSpace s).getLast? = some c → isSpace c = false := by
    intro c hc
    unfold trimSpace at hc
    rw [List.getLast?_reverse] at hc
    exact dropWhile_head_not isSpace _ c hc
  have hsplit : s.dropWhile isSpace =
      trimSpace s ++ ((s.dropWhile isSpace).reverse.takeWhile isSpace).reverse := by
    unfold trimSpace
    rw [← List.reverse_append, List.takeWhile_append_dropWhile, List.reverse_reverse]
  refine ⟨s.takeWhile isSpace, ((s.dropWhile isSpace).reverse.takeWhile isSpace).reverse,
    ?_, ?_, ?_, ?_, hlast⟩
  · rw [List.append_assoc, ← hsplit, List.takeWhile_append_dropWhile]
  · intro c hc
    exact List.mem_takeWhile_imp hc
  · intro c hc
    exact List.mem_takeWhile_imp (List.mem_reverse.mp hc)
  · intro c hc
    refine dropWhile_head_not isSpace s c ?_
    rw [hsplit]
    cases ht : trimSpace s with
    | nil => rw [ht] at hc; simp at hc
    | cons x xs =>
      rw [ht] at hc
      simpa using hc

/-- C7: for a line `pre ++ ":" ++ post` whose first colon is the one shown,
`parseLine` returns the lower-cased `pre` as key and `post` trimmed of the white
space around it as value, later colons included; the line `title: Example Title`
gives the key `title` and the value `Example Title`. -/
theorem parseLine_first_colon (L : CaseMapping) (pre post : List Char) (h : ':' ∉ pre) :
    parseLine L (pre ++ ':' :: post) = (toLower L pre, trimSpace post) ∧
      (∃ ws₁ ws₂ : List Char, post = ws₁ ++ (parseLine L (pre ++ ':' :: post)).2 ++ ws₂ ∧
        (∀ c ∈ ws₁, isSpace c = true) ∧ (∀ c ∈ ws₂, isSpace c = true) ∧
        (∀ c, (parseLine L (pre ++ ':' :: post)).2.head? = some c → isSpace c = false) ∧
        (∀ c, (parseLine L (pre ++ ':' :: post)).2.getLast? = some c → isSpace c = false)) ∧
      parseLine L "title: Example Title".toList = ("title".toList, "Example Title".toList) := by
  refine ⟨parseLine_split L pre post h, ?_, ?_⟩
  · rw [parseLine_split L pre post h]
    exact trimSpace_spec post
  · have hsplit := parseLine_split L "title".toList " Example Title".toList (by decide)
    have hlow : toLower L "title".toList = "title".toList := by
      rw [toLower_ascii L _ (by decide)]
      decide
    have htrim : trimSpace " Example Title".toList = "Example Title".toList := by decide
    rw [hlow, htrim] at hsplit
    exact hsplit

theorem parseLine_first_colon_witness :
    ':' ∉ "Id".toList ∧
      parseLine asciiCase ("Id".toList ++ ':' :: " a:b \t".toList) =
        (toLower asciiCase "Id".toList, trimSpace " a:b \t".toList) ∧
      parseLine asciiCase ("Id".toList ++ ':' :: " a:b \t".toList) = ("id".toList, "a:b".toList) :=
  ⟨by decide, (parseLine_first_colon asciiCase "Id".toList " a:b \t".toList (by decide)).1,
    by decide⟩

/-! ## `stringToAnchor` -/

/-- C9 as stated fails: the anchor of `Hello, World!  Intro` is not
`hello-world--intro`. -/
theorem stringToAnchor_not_double_dash :
    stringToAnchor asciiCase "Hello, World!  Intro".toList ≠ "hello-world--intro".toList := by
  decide

/-- C9, amended: `stringToAnchor` applied to `Hello, World!  Intro` returns
`hello-world-intro`: the white-space runs, the two spaces included, become one
dash each (`Hello,-World!-Intro`), the characters outside `[a-zA-Z0-9-]` are
deleted (`Hello-World-Intro`), and the rest is lower-cased. -/
theorem stringToAnchor_hello_world (L : CaseMapping) :
    replaceSpaceRuns false "Hello, World!  Intro".toList = "Hello,-World!-Intro".toList ∧
      "Hello,-World!-Intro".toList.filter isAnchorChar = "Hello-World-Intro".toList ∧
      toLower L "Hello-World-Intro".toList = "hello-world-intro".toList ∧
      stringToAnchor L "Hello, World!  Intro".toList = "hello-world-intro".toList := by
  have h1 : replaceSpaceRuns false "Hello, World!  Intro".toList =
      "Hello,-World!-Intro".toList := by decide
  have h2 : "Hello,-World!-Intro".toList.filter isAnchorChar = "Hello-World-Intro".toList := by
    decide
  have h3 : toLower L "Hello-World-Intro".toList = "hello-world-intro".toList := by
    rw [toLower_ascii L _ (by decide)]
    decide
  refine ⟨h1, h2, h3, ?_⟩
  unfold stringToAnchor
  simp only
  rw [h1, h2, h3]

/-! ## Matching of metadata keys -/

theorem parseContentStep_unrecognized (L : CaseMapping) (c : Content) (l : List Char)
    (h : (parseLine L l).1 ∉ recognizedKeys) : parseContentStep L c l = some c := by
  simp only [recognizedKeys, List.mem_cons, List.mem_singleton, not_or, List.not_mem_nil,
    or_false] at h
  obtain ⟨h1, h2, h3, h4, h5, h6, h7⟩ := h
  unfold parseContentStep
  simp only
  rw [if_neg (show ¬ _ = ['t', 'i', 't', 'l', 'e'] from h1),
    if_neg (show ¬ _ = ['i', 'd'] from h2),
    if_neg (show ¬ _ = ['p', 'a', 'g', 'e', '-', 'b', 'r', 'e', 'a', 'k'] from h3),
    if_neg (show ¬ _ = ['s', 'a', 'm', 'p', 'l', 'e'] from h4),
    if_neg (show ¬ _ = ['b', 'a', 'c', 'k', 'm', 'a', 't', 't', 'e', 'r'] from h5),
    if_neg (show ¬ _ = ['f', 'r', 'o', 'n', 't', 'm', 'a', 't', 't', 'e', 'r'] from h6),
    if_neg (show ¬ _ = ['r', 'u', 'l', 'e'] from h7)]

theorem parseContentStep_congr (L : CaseMapping) (c : Content) (l₁ l₂ : List Char)
    (h : parseLine L l₁ = parseLine L l₂) :
    parseContentStep L c l₁ = parseContentStep L c l₂ := by
  unfold parseContentStep
  rw [h]

theorem toLower_append (L : CaseMapping) (a b : List Char) :
    toLower L (a ++ b) = toLower L a ++ toLower L b := by
  simp [toLower]

theorem toLower_space (L : CaseMapping) (ws : List Char) (h : ∀ c ∈ ws, isSpace c = true) :
    toLower L ws = ws := by
  unfold toLower
  conv_rhs => rw [← List.map_id ws]
  exact List.map_congr_left (fun c hc => L.space c (h c hc))

theorem toLower_recognized (L : CaseMapping) (k : List Char) (hk : k ∈ recognizedKeys) :
    toLower L k = k := by
  simp only [recognizedKeys, List.mem_cons, List.mem_singleton, List.not_mem_nil,
    or_false] at hk
  rcases hk with h | h | h | h | h | h | h <;> subst h <;>
    (rw [toLower_ascii L _ (by decide)]; decide)

theorem recognized_no_space (k : List Char) (hk : k ∈ recognizedKeys) :
    ∀ c ∈ k, isSpace c = false ∧ c ≠ ':' := by
  simp only [recognizedKeys, List.mem_cons, List.mem_singleton, List.not_mem_nil,
    or_false] at hk
  rcases hk with h | h | h | h | h | h | h <;> subst h <;> decide

/-- C8, amended: keys are matched after lower-casing only, without trimming.  A
metadata line in which a recognized key `k` has white space before or after it
sets no field: the record is left as it was.  A line whose text before the first
colon lower-cases to `k` sets the same field to the same value as the line
`k:v`. -/
theorem metadata_key_not_trimmed (L : CaseMapping) (c : Content) (k v ws₁ ws₂ pre : List Char)
    (hk : k ∈ recognizedKeys) :
    ((∀ ch ∈ ws₁ ++ ws₂, isSpace ch = true) → ws₁ ++ ws₂ ≠ [] →
        parseContentStep L c (ws₁ ++ k ++ ws₂ ++ ':' :: v) = some c) ∧
      (':' ∉ pre → toLower L pre = k →
        parseContentStep L c (pre ++ ':' :: v) = parseContentStep L c (k ++ ':' :: v)) := by
  have hkc : ':' ∉ k := fun h => (recognized_no_space k hk ':' h).2 rfl
  constructor
  · intro hws hne
    have hws₁ : ∀ ch ∈ ws₁, isSpace ch = true :=
      fun ch h => hws ch (List.mem_append_left _ h)
    have hws₂ : ∀ ch ∈ ws₂, isSpace ch = true :=
      fun ch h => hws ch (List.mem_append_right _ h)
    have hcolon : ':' ∉ ws₁ ++ k ++ ws₂ := by
      intro h
      rcases List.mem_append.mp h with h | h
      · rcases List.mem_append.mp h with h | h
        · have := hws₁ ':' h
          revert this; decide
        · exact hkc h
      · have := hws₂ ':' h
        revert this; decide
    apply parseContentStep_unrecognized
    rw [parseLine_split L _ v hcolon]
    simp only
    rw [toLower_append, toLower_append, toLower_space L ws₁ hws₁, toLower_space L ws₂ hws₂,
      toLower_recognized L k hk]
    intro hmem
    obtain ⟨w, hw⟩ : ∃ w, w ∈ ws₁ ++ ws₂ := by
      cases hl : ws₁ ++ ws₂ with
      | nil => exact absurd hl hne
      | cons w ws => exact ⟨w, List.mem_cons_self _ _⟩
    have hwk : w ∈ ws₁ ++ k ++ ws₂ := by
      rcases List.mem_append.mp hw with h | h
      · exact List.mem_append_left _ (List.mem_append_left _ h)
      · exact List.mem_append_right _ h
    have := (recognized_no_space _ hmem w hwk).1
    rw [hws w hw] at this
    cases this
  · intro hpre hlow
    apply parseContentStep_congr
    rw [parseLine_split L pre v hpre, parseLine_split L k v hkc, hlow, toLower_recognized L k hk]

theorem metadata_key_not_trimmed_witness :
    "title".toList ∈ recognizedKeys ∧
      parseContentStep asciiCase {} (" ".toList ++ "title".toList ++ "\t".toList ++ ':' :: " X".toList)
        = some {} ∧
      parseContentStep asciiCase {} ("TiTle".toList ++ ':' :: " X".toList) =
        parseContentStep asciiCase {} ("title".toList ++ ':' :: " X".toList) :=
  ⟨by decide,
    (metadata_key_not_trimmed asciiCase {} "title".toList " X".toList " ".toList "\t".toList
      "TiTle".toList (by decide)).1 (by decide) (by decide),
    (metadata_key_not_trimmed asciiCase {} "title".toList " X".toList " ".toList "\t".toList
      "TiTle".toList (by decide)).2 (by decide) (by decide)⟩

/-- C8 as stated fails: the lines ` title: X` and `title : X` leave the title
empty, the line `title: X` sets it to `X`. -/
theorem metadata_key_whitespace_ignored :
    parseContentStep asciiCase {} " title: X".toList = some {} ∧
      parseContentStep asciiCase {} "title : X".toList = some {} ∧
      parseContentStep asciiCase {} "title: X".toList = some { Title := "X".toList } ∧
      parseContentStep asciiCase {} " title: X".toList ≠
        parseContentStep asciiCase {} "title: X".toList ∧
      parseContentStep asciiCase {} "title : X".toList ≠
        parseContentStep asciiCase {} "title: X".toList := by
  decide

/-! ## The table of contents built by the traversal -/

theorem visitedFiles_none (dirPath : List Char) (depth : Int) :
    visitedFiles dirPath depth none = [] := by
  rw [visitedFiles]

theorem visitedFiles_some (dirPath : List Char) (depth : Int) (entries : List FsNode) :
    visitedFiles dirPath depth (some entries) =
      ((sortedListing dirPath depth entries).map fun entry =>
        if entry.isDir then visitedFiles entry.path (depth + 1) entry.node.readDir
        else [entry]).flatten := by
  rw [visitedFiles]
  rw [← List.attach_map_val (sortedListing dirPath depth entries)
    (fun entry => if entry.isDir then visitedFiles entry.path (depth + 1) entry.node.readDir
      else [entry])]

theorem foldl_processVisited_none (L : CaseMapping) (osOpen : List Char → Option (List Char))
    (files : List sortedEntries) : files.foldl (processVisited L osOpen) none = none := by
  induction files with
  | nil => rfl
  | cons e es ih => exact ih

theorem foldl_processEntry (L : CaseMapping) (osOpen : List Char → Option (List Char))
    (depth : Int) :
    ∀ (es : List sortedEntries),
      (∀ e ∈ es, ∀ rtx : RenderContext,
        processDirectory L osOpen rtx e.path (depth + 1) e.node.readDir =
          (visitedFiles e.path (depth + 1) e.node.readDir).foldl (processVisited L osOpen)
            (some rtx)) →
      ∀ acc : Option RenderContext,
        es.foldl (processEntry L osOpen depth) acc =
          (es.map fun entry =>
            if entry.isDir then visitedFiles entry.path (depth + 1) entry.node.readDir
            else [entry]).flatten.foldl (processVisited L osOpen) acc := by
  intro es
  induction es with
  | nil => intro _ acc; rfl
  | cons e es ih =>
    intro hes acc
    rw [List.foldl_cons, List.map_cons, List.flatten_cons, List.foldl_append,
      ih (fun x hx => hes x (List.mem_cons_of_mem _ hx))]
    congr 1
    cases acc with
    | none =>
      rw [foldl_processVisited_none]
      rfl
    | some rtx =>
      by_cases hd : e.isDir = true
      · simp only [processEntry, hd, if_true]
        exact hes e (List.mem_cons_self _ _) rtx
      · simp only [processEntry, hd, if_false]
        rfl

/-- The recursive traversal is the flat loop of `processFile` over the visited
files. -/
theorem processDirectory_eq_foldl (L : CaseMapping) (osOpen : List Char → Option (List Char))
    (rtx : RenderContext) (dirPath : List Char) (depth : Int)
    (listing : Option (List FsNode)) :
    processDirectory L osOpen rtx dirPath depth listing =
      (visitedFiles dirPath depth listing).foldl (processVisited L osOpen) (some rtx) := by
  induction rtx, dirPath, depth, listing using processDirectory.induct L osOpen with
  | case1 rtx dirPath depth =>
    rw [processDirectory_none, visitedFiles_none]
    rfl
  | case2 rtx dirPath depth entries ih =>
    rw [processDirectory_some, visitedFiles_some]
    exact foldl_processEntry L osOpen depth _ (fun e he r => ih ⟨e, he⟩ r) (some rtx)

theorem parseContentStep_Index (L : CaseMapping) (c c' : Content) (l : List Char)
    (h : parseContentStep L c l = some c') : c'.Index = c.Index := by
  unfold parseContentStep at h
  simp only at h
  split_ifs at h <;> first
    | (cases h; rfl)
    | (cases hm : atoi (parseLine L l).2 <;> rw [hm] at h <;> cases h; rfl)

theorem parseContentLoop_Index (L : CaseMapping) :
    ∀ (lines : List (List Char)) (c c' : Content), parseContentLoop L c lines = some c' →
      c'.Index = c.Index := by
  intro lines
  induction lines with
  | nil =>
    intro c c' h
    simp only [parseContentLoop, Option.some.injEq] at h
    rw [h]
  | cons l ls ih =>
    intro c c' h
    rw [parseContentLoop] at h
    cases hs : parseContentStep L c l with
    | none => rw [hs] at h; cases h
    | some c₁ =>
      rw [hs] at h
      rw [ih c₁ c' h, parseContentStep_Index L c c₁ l hs]

/-- `ParseFrontMatter` never sets `Index`. -/
theorem ParseFrontMatter_Index (L : CaseMapping) (text : List Char) (c : Content)
    (h : ParseFrontMatter L text = some c) : c.Index = false := by
  unfold ParseFrontMatter at h
  simp only at h
  split at h
  · rename_i content hc
    simp only [Option.some.injEq] at h
    rw [← h]
    exact parseContentLoop_Index L _ _ _ hc
  · cases h

theorem writeLeanPub_toc (rtx : RenderContext) (c : Content) :
    (writeLeanPub rtx c).Toc = rtx.Toc ∧ (writeLeanPub rtx c).WithToc = rtx.WithToc := by
  unfold writeLeanPub
  simp only [RenderContext.writeString]
  split_ifs <;> exact ⟨rfl, rfl⟩

/-- What `processContent` does to the TOC, for a record as `ParseFrontMatter`
returns it. -/
theorem processContent_toc (L : CaseMapping) (osOpen : List Char → Option (List Char))
    (rtx rtx' : RenderContext) (e : sortedEntries) (c : Content) (hidx : c.Index = false)
    (h : processContent L osOpen rtx e c = some rtx') :
    rtx'.WithToc = rtx.WithToc ∧
      rtx'.Toc = rtx.Toc ++
        (if rtx.WithToc = true then
          (if c.Title = [] then [] else [tocEntryOf L e c])
        else []) := by
  unfold processContent at h
  simp only at h
  have hc₁ : (if hasSuffix e.path "index.md".toList = true then
        { c with Index := true } else c).Title = c.Title ∧
      (if hasSuffix e.path "index.md".toList = true then
        { c with Index := true } else c).Id = c.Id ∧
      (if hasSuffix e.path "index.md".toList = true then
        { c with Index := true } else c).Index = hasSuffix e.path "index.md".toList := by
    split_ifs with hs
    · exact ⟨rfl, rfl, hs.symm⟩
    · exact ⟨rfl, rfl, by rw [hidx]; simpa using hs⟩
  generalize (if hasSuffix e.path "index.md".toList = true then
        { c with Index := true } else c) = c₁ at h hc₁
  have hpub : (if rtx.LeanPub = true then writeLeanPub rtx c₁ else rtx).Toc = rtx.Toc ∧
      (if rtx.LeanPub = true then writeLeanPub rtx c₁ else rtx).WithToc = rtx.WithToc := by
    split_ifs
    · exact writeLeanPub_toc _ _
    · exact ⟨rfl, rfl⟩
  generalize (if rtx.LeanPub = true then writeLeanPub rtx c₁ else rtx) = rtx₁ at h hpub
  have hc₂ : (if c₁.Id.length = 0 then { c₁ with Id := stringToAnchor L c₁.Title } else c₁).Title
        = c.Title ∧
      (if c₁.Id.length = 0 then { c₁ with Id := stringToAnchor L c₁.Title } else c₁).Id
        = (if c.Id = [] then stringToAnchor L c.Title else c.Id) ∧
      (if c₁.Id.length = 0 then { c₁ with Id := stringToAnchor L c₁.Title } else c₁).Index
        = hasSuffix e.path "index.md".toList := by
    rw [← hc₁.1, ← hc₁.2.1, ← hc₁.2.2]
    by_cases hid : c₁.Id = []
    · simp [hid]
    · have hlen : ¬ c₁.Id.length = 0 := fun h0 => hid (List.length_eq_zero.mp h0)
      simp [hid, hlen]
  generalize (if c₁.Id.length = 0 then { c₁ with Id := stringToAnchor L c₁.Title } else c₁)
    = c₂ at h hc₂
  obtain ⟨hT₁, hW₁⟩ := hpub
  obtain ⟨ht₂, hi₂, hx₂⟩ := hc₂
  have hentry : TocEntry.mk (if c₂.Index = true then e.depth - 1 else e.depth) c₂.Title c₂.Id =
      tocEntryOf L e c := by
    unfold tocEntryOf
    rw [ht₂, hi₂, hx₂]
  rw [hentry] at h
  by_cases htitle : c.Title = []
  · have h₂ : ¬ c₂.Title ≠ [] := by rw [ht₂]; exact fun hn => hn htitle
    rw [if_neg h₂] at h
    simp only [Option.some.injEq] at h
    rw [← h]
    simp only [RenderContext.writeString, hT₁, hW₁, htitle, if_true, ite_self, List.append_nil,
      and_self]
  · have h₂ : c₂.Title ≠ [] := by rw [ht₂]; exact htitle
    rw [if_pos h₂] at h
    have hr₂ : (if rtx₁.WithToc = true then
          { rtx₁ with Toc := rtx₁.Toc ++ [tocEntryOf L e c] } else rtx₁).WithToc =
          rtx.WithToc ∧
        (if rtx₁.WithToc = true then
          { rtx₁ with Toc := rtx₁.Toc ++ [tocEntryOf L e c] } else rtx₁).Toc =
          rtx.Toc ++ (if rtx.WithToc = true then [tocEntryOf L e c] else []) := by
      rw [← hT₁, ← hW₁]
      split_ifs
      · exact ⟨rfl, rfl⟩
      · exact ⟨rfl, (List.append_nil _).symm⟩
    generalize (if rtx₁.WithToc = true then
          { rtx₁ with Toc := rtx₁.Toc ++ [tocEntryOf L e c] } else rtx₁) = rtx₂ at h hr₂
    split_ifs at h
    all_goals
      simp only [Option.some.injEq] at h
      rw [← h]
      simp only [RenderContext.writeString, hr₂.1, hr₂.2, htitle, if_false, and_self]

/-- What `processFile` does to the TOC. -/
theorem processFile_toc (L : CaseMapping) (osOpen : List Char → Option (List Char))
    (rtx rtx' : RenderContext) (e : sortedEntries)
    (h : processFile L osOpen rtx e = some rtx') :
    rtx'.WithToc = rtx.WithToc ∧
      rtx'.Toc = rtx.Toc ++
        (if rtx.WithToc = true then (tocContribution L e).toList else []) := by
  unfold processFile at h
  unfold tocContribution documentOf
  by_cases hmd : hasSuffix e.path ".md".toList = true
  · rw [if_pos hmd] at h
    rw [if_pos hmd]
    cases hread : e.node.readFile with
    | none =>
      rw [hread] at h
      simp only [Option.some.injEq] at h
      rw [← h]
      simp
    | some content =>
      rw [hread] at h
      simp only at h ⊢
      cases hparse : ParseFrontMatter L content with
      | none => rw [hparse] at h; cases h
      | some c =>
        rw [hparse] at h
        simp only at h ⊢
        have hc := processContent_toc L osOpen rtx rtx' e c
          (ParseFrontMatter_Index L content c hparse) h
        refine ⟨hc.1, ?_⟩
        rw [hc.2]
        by_cases ht : c.Title = [] <;> simp [ht]
  · rw [if_neg hmd] at h
    rw [if_neg hmd]
    simp only [Option.some.injEq] at h
    rw [← h]
    simp

theorem foldl_processVisited_toc (L : CaseMapping) (osOpen : List Char → Option (List Char)) :
    ∀ (files : List sortedEntries) (rtx rtx' : RenderContext),
      files.foldl (processVisited L osOpen) (some rtx) = some rtx' →
      rtx'.WithToc = rtx.WithToc ∧
        rtx'.Toc = rtx.Toc ++
          (if rtx.WithToc = true then files.filterMap (tocContribution L) else []) := by
  intro files
  induction files with
  | nil =>
    intro rtx rtx' h
    simp only [List.foldl_nil, Option.some.injEq] at h
    rw [← h]
    simp
  | cons e es ih =>
    intro rtx rtx' h
    rw [List.foldl_cons] at h
    cases hfile : processFile L osOpen rtx e with
    | none =>
      have hnone : processVisited L osOpen (some rtx) e = none := hfile
      rw [hnone, foldl_processVisited_none] at h
      cases h
    | some r₁ =>
      have hsome : processVisited L osOpen (some rtx) e = some r₁ := hfile
      rw [hsome] at h
      obtain ⟨hw₁, ht₁⟩ := processFile_toc L osOpen rtx r₁ e hfile
      obtain ⟨hw, ht⟩ := ih r₁ rtx' h
      refine ⟨hw.trans hw₁, ?_⟩
      rw [ht, ht₁, hw₁, List.append_assoc]
      congr 1
      by_cases hwt : rtx.WithToc = true
      · simp only [hwt, if_true, List.filterMap_cons]
        cases tocContribution L e <;> rfl
      · simp [hwt]

/-- C10: when a run of `processDirectory` returns, and TOC generation is enabled,
the TOC list has gained, after the entries it held, exactly the contributions of
the visited files in visitation order: one entry for each readable `.md` file
whose parsed title is not empty, none for one with an empty title; when TOC
generation is disabled the TOC list is unchanged. -/
theorem processDirectory_toc (L : CaseMapping) (osOpen : List Char → Option (List Char))
    (rtx rtx' : RenderContext) (dirPath : List Char) (depth : Int)
    (listing : Option (List FsNode))
    (h : processDirectory L osOpen rtx dirPath depth listing = some rtx') :
    (rtx.WithToc = true →
        rtx'.Toc = rtx.Toc ++
          (visitedFiles dirPath depth listing).filterMap (tocContribution L)) ∧
      (rtx.WithToc = false → rtx'.Toc = rtx.Toc) ∧
      (∀ e ∈ visitedFiles dirPath depth listing,
        (tocContribution L e).isSome = true ↔
          ∃ c, documentOf L e = some c ∧ c.Title ≠ []) := by
  rw [processDirectory_eq_foldl] at h
  obtain ⟨_, ht⟩ := foldl_processVisited_toc L osOpen _ rtx rtx' h
  refine ⟨?_, ?_, ?_⟩
  · intro hw
    rw [ht, if_pos hw]
  · intro hw
    rw [ht]
    simp [hw]
  · intro e _
    unfold tocContribution
    cases hdoc : documentOf L e with
    | none => simp
    | some c =>
      by_cases htitle : c.Title = [] <;> simp [htitle]

theorem exampleTree_visitedFiles :
    visitedFiles "book".toList 1 (some exampleTree) =
      prepareEntries "book".toList 1
          [.file "index.md".toList (some "---\ntitle: Book\n---\nhello\n".toList)] ++
        prepareEntries "book/1 sub".toList 2
          [.file "a.md".toList (some "---\ntitle: A\nid: first\n---\n".toList)] ++
        prepareEntries "book".toList 1
          [ .file "2 plain.md".toList (some "no front matter\n".toList),
            .file "3 lost.md".toList none,
            .file "notes.txt".toList (some "---\ntitle: Notes\n---\n".toList) ] := by
  have hs : sortedListing "book".toList 1 exampleTree =
      prepareEntries "book".toList 1
        [ .file "index.md".toList (some "---\ntitle: Book\n---\nhello\n".toList),
          .dir "1 sub".toList
            (some [.file "a.md".toList (some "---\ntitle: A\nid: first\n---\n".toList)]),
          .file "2 plain.md".toList (some "no front matter\n".toList),
          .file "3 lost.md".toList none,
          .file "notes.txt".toList (some "---\ntitle: Notes\n---\n".toList) ] := by
    rfl
  have hsub : visitedFiles "book/1 sub".toList 2
      (some [.file "a.md".toList (some "---\ntitle: A\nid: first\n---\n".toList)]) =
      prepareEntries "book/1 sub".toList 2
        [.file "a.md".toList (some "---\ntitle: A\nid: first\n---\n".toList)] := by
    rw [visitedFiles_some]
    rfl
  rw [visitedFiles_some, hs]
  simp only [prepareEntries, List.map_cons, List.map_nil, FsNode.isDir, FsNode.name,
    FsNode.readDir, if_true, if_false, List.flatten_cons, List.flatten_nil]
  have hp : filepathJoin "book".toList "1 sub".toList = "book/1 sub".toList := by decide
  have h2 : (1 : Int) + 1 = 2 := rfl
  rw [hp, h2, hsub]
  rfl

/-- The flat loop over the visited files of the example. -/
theorem exampleTree_run :
    processDirectory asciiCase noSources exampleContext "book".toList 1 (some exampleTree) =
      some { LeanPub := false, IncludeLinkToFile := true, WithToc := true,
             Out := " Book\n\nhello\n\n## A\n\n\n\nno front matter\n\n".toList,
             Toc := [{ Level := 0, Entry := "Book".toList, Id := "book".toList },
                     { Level := 2, Entry := "A".toList, Id := "first".toList }] } := by
  rw [processDirectory_eq_foldl, exampleTree_visitedFiles]
  decide

theorem processDirectory_toc_witness :
    processDirectory asciiCase noSources exampleContext "book".toList 1 (some exampleTree) =
        some { LeanPub := false, IncludeLinkToFile := true, WithToc := true,
               Out := " Book\n\nhello\n\n## A\n\n\n\nno front matter\n\n".toList,
               Toc := [{ Level := 0, Entry := "Book".toList, Id := "book".toList },
                       { Level := 2, Entry := "A".toList, Id := "first".toList }] } ∧
      [({ Level := 0, Entry := "Book".toList, Id := "book".toList } : TocEntry),
          { Level := 2, Entry := "A".toList, Id := "first".toList }] =
        exampleContext.Toc ++
          (visitedFiles "book".toList 1 (some exampleTree)).filterMap (tocContribution asciiCase) ∧
      (visitedFiles "book".toList 1 (some exampleTree)).map (fun e => e.path) =
        ["book/index.md".toList, "book/1 sub/a.md".toList, "book/2 plain.md".toList,
          "book/3 lost.md".toList, "book/notes.txt".toList] :=
  ⟨exampleTree_run,
    (processDirectory_toc asciiCase noSources exampleContext _ "book".toList 1 (some exampleTree)
      exampleTree_run).1 rfl,
    by rw [exampleTree_visitedFiles]; decide⟩

/-- A name other than `index.md` whose text before the first space does not
start with a minus sign has an order key above the -1 of `index.md`. -/
theorem getOrder_pos_of_no_minus (name : List Char)
    (hname : name ≠ "index.md".toList) (hsign : (splitFirst ' ' name).head? ≠ some '-') :
    getOrder "index.md".toList < getOrder name := by
  have hidx : getOrder "index.md".toList = -1 := by decide
  rw [hidx]
  unfold getOrder
  rw [if_neg (show ¬ name = ['i', 'n', 'd', 'e', 'x', '.', 'm', 'd'] from hname)]
  cases ha : atoi (splitFirst ' ' name) with
  | none => simp
  | some n =>
    simp only
    unfold atoi at ha
    simp only [hsign, false_or] at ha
    split_ifs at ha with h1 h2 h3
    all_goals first
      | contradiction
      | (simp only [Option.some.injEq] at ha; rw [← ha]; omega)

/-! ## Delimiter lines toggle the front-matter block -/

/-- The count attached to the line at index `i` is the number of delimiter lines
among the lines before it. -/
theorem withDelimiterCount_getElem? :
    ∀ (lines : List (List Char)) (seen i : Nat),
      (withDelimiterCount seen lines)[i]? =
        lines[i]?.map (fun l => (l, seen + (lines.take i).countP isDelimiter))
  | [], _, _ => by simp [withDelimiterCount]
  | l :: ls, seen, 0 => by simp [withDelimiterCount]
  | l :: ls, seen, i + 1 => by
    rw [withDelimiterCount, List.getElem?_cons_succ, List.getElem?_cons_succ,
      withDelimiterCount_getElem? ls _ i, List.take_succ_cons, List.countP_cons]
    by_cases hl : isDelimiter l = true
    · simp only [hl, if_true]
      congr 1
      funext x
      congr 1
      omega
    · simp only [hl, if_false, Bool.false_eq_true]
      congr 1

theorem linesOfParityFrom_nil (seen : Nat) (odd : Bool) : linesOfParityFrom seen odd [] = [] :=
  rfl

theorem linesOfParityFrom_cons (seen : Nat) (odd : Bool) (l : List Char)
    (ls : List (List Char)) :
    linesOfParityFrom seen odd (l :: ls) =
      if isDelimiter l = true then linesOfParityFrom (seen + 1) odd ls
      else if decide (seen % 2 = 1) = odd then l :: linesOfParityFrom seen odd ls
      else linesOfParityFrom seen odd ls := by
  unfold linesOfParityFrom
  rw [withDelimiterCount]
  by_cases hl : isDelimiter l = true
  · simp [List.filter_cons, hl]
  · by_cases hp : decide (seen % 2 = 1) = odd
    · simp [List.filter_cons, hl, hp]
    · simp [List.filter_cons, hl, hp]

/-- The scanning loop started inside the block exactly when `seen` is odd. -/
theorem foldl_frontMatterStep_parity :
    ∀ (lines : List (List Char)) (st : FrontMatterScan) (seen : Nat),
      st.inFrontMatter = decide (seen % 2 = 1) →
      lines.foldl frontMatterStep st =
        { inFrontMatter := decide ((seen + lines.countP isDelimiter) % 2 = 1),
          bodyLines := st.bodyLines ++ linesOfParityFrom seen false lines,
          frontMatterLines := st.frontMatterLines ++ linesOfParityFrom seen true lines }
  | [], st, seen, h => by
    simp [linesOfParityFrom_nil, ← h]
  | l :: ls, st, seen, h => by
    rw [List.foldl_cons, linesOfParityFrom_cons, linesOfParityFrom_cons, List.countP_cons]
    by_cases hl : isDelimiter l = true
    · rw [frontMatterStep_delimiter st l hl,
        foldl_frontMatterStep_parity ls _ (seen + 1) (by
          simp only [h]
          by_cases hs : seen % 2 = 1
          · have : ¬ (seen + 1) % 2 = 1 := by omega
            simp [hs, this]
          · have : (seen + 1) % 2 = 1 := by omega
            simp [hs, this])]
      simp only [hl, if_true]
      rw [show seen + 1 + List.countP isDelimiter ls = seen + (List.countP isDelimiter ls + 1)
        from by omega]
    · have hl' : isDelimiter l = false := by simpa using hl
      by_cases hs : seen % 2 = 1
      · have hst : st.inFrontMatter = true := by rw [h]; simpa using hs
        rw [frontMatterStep_meta st l hl' hst,
          foldl_frontMatterStep_parity ls _ seen (by simpa using h)]
        simp [hl, hs]
      · have hst : st.inFrontMatter = false := by rw [h]; simpa using hs
        rw [frontMatterStep_body st l hl' hst,
          foldl_frontMatterStep_parity ls _ seen (by simpa using h)]
        simp [hl, hs]

theorem cutColon_subset :
    ∀ (line pre post : List Char), cutColon line = some (pre, post) → ∀ c ∈ pre, c ∈ line
  | [], _, _, h => by simp [cutColon] at h
  | x :: xs, pre, post, h => by
    unfold cutColon at h
    by_cases hx : x = ':'
    · simp only [hx, if_true, Option.some.injEq, Prod.mk.injEq] at h
      intro c hc
      rw [← h.1] at hc
      cases hc
    · simp only [hx, if_false] at h
      cases hxs : cutColon xs with
      | none => rw [hxs] at h; cases h
      | some pp =>
        obtain ⟨p1, p2⟩ := pp
        rw [hxs] at h
        simp only [Option.some.injEq, Prod.mk.injEq] at h
        intro c hc
        rw [← h.1] at hc
        rcases List.mem_cons.mp hc with hc | hc
        · rw [hc]; exact List.mem_cons_self _ _
        · exact List.mem_cons_of_mem _ (cutColon_subset xs p1 p2 hxs c hc)

/-- On ASCII text every case mapping parses a line as the ASCII one does. -/
theorem parseLine_ascii (L : CaseMapping) (line : List Char) (h : ∀ c ∈ line, c.toNat < 128) :
    parseLine L line = parseLine asciiCase line := by
  unfold parseLine
  cases hc : cutColon line with
  | none => rfl
  | some pp =>
    obtain ⟨pre, post⟩ := pp
    have hpre : ∀ c ∈ pre, c.toNat < 128 :=
      fun c hcm => h c (cutColon_subset line pre post hc c hcm)
    simp only
    rw [toLower_ascii L pre hpre, toLower_ascii asciiCase pre hpre]

theorem parseContentLoop_ascii (L : CaseMapping) :
    ∀ (lines : List (List Char)) (c : Content), (∀ l ∈ lines, ∀ x ∈ l, x.toNat < 128) →
      parseContentLoop L c lines = parseContentLoop asciiCase c lines
  | [], _, _ => rfl
  | l :: ls, c, h => by
    have hstep : parseContentStep L c l = parseContentStep asciiCase c l := by
      unfold parseContentStep
      rw [parseLine_ascii L l (h l (List.mem_cons_self _ _))]
    rw [parseContentLoop, parseContentLoop, hstep]
    cases parseContentStep asciiCase c l with
    | none => rfl
    | some c' =>
      exact parseContentLoop_ascii L ls c' (fun x hx => h x (List.mem_cons_of_mem _ hx))

theorem frontMatterLines_mem (lines : List (List Char)) :
    ∀ (st : FrontMatterScan), ∀ l ∈ (lines.foldl frontMatterStep st).frontMatterLines,
      l ∈ st.frontMatterLines ∨ l ∈ lines := by
  induction lines with
  | nil => intro st l hl; exact Or.inl hl
  | cons x xs ih =>
    intro st l hl
    rw [List.foldl_cons] at hl
    rcases ih _ l hl with h | h
    · unfold frontMatterStep at h
      split_ifs at h
      · exact Or.inl h
      · exact Or.inl h
      · rcases List.mem_append.mp h with h | h
        · exact Or.inl h
        · exact Or.inr (List.mem_singleton.mp h ▸ List.mem_cons_self _ _)
      · exact Or.inl h
    · exact Or.inr (List.mem_cons_of_mem _ h)

/-- `ParseFrontMatter` in terms of the lines it collects. -/
theorem ParseFrontMatter_eq (L : CaseMapping) (text : List Char) :
    ParseFrontMatter L text =
      (parseContentLoop L {} ((scanLines text).foldl frontMatterStep {}).frontMatterLines).map
        (fun content => { content with
          Body := stringsJoin ((scanLines text).foldl frontMatterStep {}).bodyLines ['\n'] }) := by
  have hmem : ∀ l ∈ ((scanLines text).foldl frontMatterStep {}).frontMatterLines,
      l ∈ scanLines text := by
    intro l hl
    rcases frontMatterLines_mem (scanLines text) {} l hl with h | h
    · cases h
    · exact h
  rw [ParseFrontMatter_unfold]
  unfold parseContent
  rw [parseContentLoop_rescan L _ {} (fun l hl => scanLines_no_newline text l (hmem l hl))
    (fun l hl => scanLines_short text l (hmem l hl))]
  cases parseContentLoop L {} ((scanLines text).foldl frontMatterStep {}).frontMatterLines <;> rfl

/-- The scanning loop sorts the lines it is given by the parity of the number of
delimiter lines before them. -/
theorem ParseFrontMatter_scanned (L : CaseMapping) (text : List Char) :
    ((scanLines text).foldl frontMatterStep {}).frontMatterLines =
        linesOfParity true (scanLines text) ∧
      ((scanLines text).foldl frontMatterStep {}).bodyLines =
        linesOfParity false (scanLines text) ∧
      ParseFrontMatter L text =
        (parseContentLoop L {} (linesOfParity true (scanLines text))).map
          (fun content => { content with
            Body := stringsJoin (linesOfParity false (scanLines text)) ['\n'] }) := by
  have hfold := foldl_frontMatterStep_parity (scanLines text) {} 0 rfl
  have hfm : ((scanLines text).foldl frontMatterStep {}).frontMatterLines =
      linesOfParity true (scanLines text) := by
    rw [hfold]; rfl
  have hbody : ((scanLines text).foldl frontMatterStep {}).bodyLines =
      linesOfParity false (scanLines text) := by
    rw [hfold]; rfl
  refine ⟨hfm, hbody, ?_⟩
  rw [ParseFrontMatter_eq, hfm, hbody]

/-- C20 as stated fails: in the text `a`, a line of 65536 bytes, `b` no line is a
delimiter, so no delimiter line precedes the line `b`, yet the body returned is
`a` and does not hold the line `b`. -/
theorem ParseFrontMatter_line_after_long_line :
    textLines ("a\n".toList ++ (longLine ++ "\nb\n".toList)) =
        ["a".toList, longLine, "b".toList] ∧
      (∀ l ∈ textLines ("a\n".toList ++ (longLine ++ "\nb\n".toList)), isDelimiter l = false) ∧
      ParseFrontMatter asciiCase ("a\n".toList ++ (longLine ++ "\nb\n".toList)) =
        some { Body := "a".toList } ∧
      "b".toList ∉ textLines "a".toList := by
  have h := scanLines_longLine "b\n".toList ["a".toList] (by decide) (by decide)
  have htext : "a\n".toList ++ (longLine ++ "\nb\n".toList) =
      linesText ["a".toList] ++ (longLine ++ '\n' :: "b\n".toList) := rfl
  have hlines : textLines ("a\n".toList ++ (longLine ++ "\nb\n".toList)) =
      ["a".toList, longLine, "b".toList] := by
    rw [htext, h.2.2]
    rfl
  refine ⟨hlines, ?_, ?_, by decide⟩
  · rw [hlines]
    intro l hl
    rcases List.mem_cons.mp hl with hl | hl
    · rw [hl]; decide
    · rcases List.mem_cons.mp hl with hl | hl
      · rw [hl]
        exact isDelimiter_longLine
      · rw [List.mem_singleton.mp hl]; decide
  · rw [ParseFrontMatter_body_only, htext, h.1]
    · rfl
    · rw [htext, h.1]
      decide

/-- C20, amended: on a text whose lines are all shorter than the buffer of the
scanner, `ParseFrontMatter` puts every line that is not a delimiter among the
metadata lines when the number of delimiter lines before it is odd and among the
body lines when that number is even, in order; its result is the record parsed
from the metadata lines with `Body` the body lines joined by line feeds.  After a
third delimiter the lines are metadata again and are absent from `Body`. -/
theorem ParseFrontMatter_parity (L : CaseMapping) (text : List Char)
    (hfit : FitsScanner text) :
    ((scanLines text).foldl frontMatterStep {}).frontMatterLines =
        linesOfParity true (textLines text) ∧
      ((scanLines text).foldl frontMatterStep {}).bodyLines =
        linesOfParity false (textLines text) ∧
      ParseFrontMatter L text =
        (parseContentLoop L {} (linesOfParity true (textLines text))).map
          (fun content => { content with
            Body := stringsJoin (linesOfParity false (textLines text)) ['\n'] }) ∧
      (∀ (i : Nat) (l : List Char), (textLines text)[i]? = some l →
        (withDelimiterCount 0 (textLines text))[i]? =
          some (l, ((textLines text).take i).countP isDelimiter)) ∧
      (∀ l : List Char, isDelimiter l = true ↔ DelimiterLine l) ∧
      ParseFrontMatter L "---\ntitle: T\n---\nbody\n---\nid: x\nlost\n".toList =
        some { Title := "T".toList, Id := "x".toList, Body := "body".toList } := by
  have hscan := ParseFrontMatter_scanned L text
  rw [scanLines_eq_textLines text hfit] at hscan
  rw [scanLines_eq_textLines text hfit]
  refine ⟨hscan.1, hscan.2.1, hscan.2.2, ?_, isDelimiter_iff, ?_⟩
  · intro i l hl
    rw [withDelimiterCount_getElem?, hl]
    simp
  · rw [ParseFrontMatter_eq]
    have hst : (scanLines "---\ntitle: T\n---\nbody\n---\nid: x\nlost\n".toList).foldl
        frontMatterStep {} =
        { inFrontMatter := true, bodyLines := ["body".toList],
          frontMatterLines := ["title: T".toList, "id: x".toList, "lost".toList] } := by
      decide
    rw [hst]
    simp only
    rw [parseContentLoop_ascii L _ _ (by decide)]
    decide

theorem ParseFrontMatter_parity_witness :
    FitsScanner "t\n---\nid: x\n---\nbody\n".toList ∧
      linesOfParity true (textLines "t\n---\nid: x\n---\nbody\n".toList) = ["id: x".toList] ∧
      linesOfParity false (textLines "t\n---\nid: x\n---\nbody\n".toList) =
        ["t".toList, "body".toList] ∧
      ParseFrontMatter asciiCase "t\n---\nid: x\n---\nbody\n".toList =
        (parseContentLoop asciiCase {}
            (linesOfParity true (textLines "t\n---\nid: x\n---\nbody\n".toList))).map
          (fun content => { content with
            Body := stringsJoin
              (linesOfParity false (textLines "t\n---\nid: x\n---\nbody\n".toList)) ['\n'] }) :=
  ⟨by decide, by decide, by decide,
    (ParseFrontMatter_parity asciiCase "t\n---\nid: x\n---\nbody\n".toList (by decide)).2.2.1⟩

/-! ## Snippet markers -/

theorem digitChar_isDigit : ∀ m : Nat, m < 10 → (Nat.digitChar m).isDigit = true := by
  decide

theorem toDigitsCore_isDigit :
    ∀ (fuel n : Nat) (ds : List Char), (∀ c ∈ ds, c.isDigit = true) →
      ∀ c ∈ Nat.toDigitsCore 10 fuel n ds, c.isDigit = true
  | 0, _, ds, h => by simpa [Nat.toDigitsCore] using h
  | fuel + 1, n, ds, h => by
    have hd : (Nat.digitChar (n % 10)).isDigit = true :=
      digitChar_isDigit _ (Nat.mod_lt _ (by decide))
    have hds : ∀ c ∈ Nat.digitChar (n % 10) :: ds, c.isDigit = true := by
      intro c hc
      rcases List.mem_cons.mp hc with hc | hc
      · rw [hc]; exact hd
      · exact h c hc
    unfold Nat.toDigitsCore
    simp only
    split_ifs
    · exact hds
    · exact toDigitsCore_isDigit fuel _ _ hds

/-- The verb `%d` writes no space. -/
theorem formatInt_no_space (n : Int) : ∀ c ∈ formatInt n, c ≠ ' ' := by
  have hdig : ∀ m : Nat, ∀ c ∈ Nat.toDigits 10 m, c ≠ ' ' := by
    intro m c hc hsp
    have h := toDigitsCore_isDigit (m + 1) m [] (by intro x hx; cases hx) c hc
    rw [hsp] at h
    revert h
    decide
  intro c hc
  unfold formatInt at hc
  split_ifs at hc
  · rcases List.mem_cons.mp hc with hc | hc
    · rw [hc]; decide
    · exact hdig _ c hc
  · exact hdig _ c hc

theorem filter_no_space (s : List Char) (h : ∀ c ∈ s, c ≠ ' ') :
    s.filter (fun c => c ≠ ' ') = s := by
  rw [List.filter_eq_self]
  intro c hc
  simpa using h c hc

/-- The test of `cutPartsFromFile` for a start marker. -/
theorem matchMarker_start (n : Int) (line : List Char) :
    matchMarker (trimSpace line) ("// S:".toList ++ formatInt n) = isStartMarker n line := by
  unfold matchMarker isStartMarker
  rw [List.filter_append, filter_no_space _ (formatInt_no_space n)]
  rfl

/-- The test of `cutPartsFromFile` for an end marker. -/
theorem matchMarker_end (n : Int) (line : List Char) :
    matchMarker (trimSpace line) ("// E:".toList ++ formatInt n) = isEndMarker n line := by
  unfold matchMarker isEndMarker
  rw [List.filter_append, filter_no_space _ (formatInt_no_space n)]
  rfl

theorem not_start_and_end (n : Int) (line : List Char) (hs : isStartMarker n line = true) :
    isEndMarker n line = false := by
  unfold isStartMarker at hs
  unfold isEndMarker
  simp only [decide_eq_true_eq] at hs
  rw [hs]
  simp

/-- One iteration of the scanning loop of `cutPartsFromFile`, by the kind of the
line. -/
theorem cutLoop_cons (n : Int) (b : Bool) (result line : List Char)
    (rest : List (List Char)) :
    cutLoop ("// S:".toList ++ formatInt n) ("// E:".toList ++ formatInt n) b result
        (line :: rest) =
      if isStartMarker n line = true then
        cutLoop ("// S:".toList ++ formatInt n) ("// E:".toList ++ formatInt n) true result rest
      else if isEndMarker n line = true then
        cutLoop ("// S:".toList ++ formatInt n) ("// E:".toList ++ formatInt n) false result rest
      else if b = true then
        cutLoop ("// S:".toList ++ formatInt n) ("// E:".toList ++ formatInt n) true
          (result ++ line ++ ['\n']) rest
      else
        cutLoop ("// S:".toList ++ formatInt n) ("// E:".toList ++ formatInt n) false result
          rest := by
  rw [cutLoop]
  simp only [matchMarker_start, matchMarker_end]

/-- Outside a marked region the loop drops every line up to the next start
marker. -/
theorem cutLoop_skip (n : Int) :
    ∀ (pre rest : List (List Char)) (result : List Char),
      (∀ l ∈ pre, isStartMarker n l = false) →
      cutLoop ("// S:".toList ++ formatInt n) ("// E:".toList ++ formatInt n) false result
          (pre ++ rest) =
        cutLoop ("// S:".toList ++ formatInt n) ("// E:".toList ++ formatInt n) false result
          rest
  | [], _, _, _ => rfl
  | l :: ls, rest, result, h => by
    have hl : isStartMarker n l = false := h l (List.mem_cons_self _ _)
    rw [List.cons_append, cutLoop_cons]
    simp only [hl, Bool.false_eq_true, if_false, ite_self]
    exact cutLoop_skip n ls rest result (fun x hx => h x (List.mem_cons_of_mem _ hx))

/-- Inside a marked region with no end marker ahead the loop keeps every line
that is not a start marker. -/
theorem cutLoop_between (n : Int) :
    ∀ (post : List (List Char)) (result : List Char),
      (∀ l ∈ post, isEndMarker n l = false) →
      cutLoop ("// S:".toList ++ formatInt n) ("// E:".toList ++ formatInt n) true result post =
        result ++ linesText (post.filter (fun l => !isStartMarker n l))
  | [], result, _ => by simp [cutLoop, linesText]
  | l :: ls, result, h => by
    have hl : isEndMarker n l = false := h l (List.mem_cons_self _ _)
    have htail : ∀ x ∈ ls, isEndMarker n x = false :=
      fun x hx => h x (List.mem_cons_of_mem _ hx)
    rw [cutLoop_cons]
    by_cases hs : isStartMarker n l = true
    · simp only [hs, if_true, List.filter_cons, Bool.not_true, Bool.false_eq_true, if_false]
      exact cutLoop_between n ls result htail
    · have hs' : isStartMarker n l = false := by simpa using hs
      simp only [hs', hl, Bool.false_eq_true, if_false, if_true, List.filter_cons, Bool.not_false]
      rw [cutLoop_between n ls _ htail, linesText_cons]
      simp

/-- Whatever the loop writes is a sequence of lines of the file that are neither
start nor end markers. -/
theorem cutLoop_kept (n : Int) :
    ∀ (lines : List (List Char)) (b : Bool) (result : List Char),
      ∃ kept : List (List Char),
        cutLoop ("// S:".toList ++ formatInt n) ("// E:".toList ++ formatInt n) b result lines =
          result ++ linesText kept ∧
        kept.Sublist lines ∧
        ∀ l ∈ kept, isStartMarker n l = false ∧ isEndMarker n l = false
  | [], b, result => ⟨[], by simp [cutLoop, linesText], List.Sublist.refl _, by simp⟩
  | l :: ls, b, result => by
    rw [cutLoop_cons]
    by_cases hs : isStartMarker n l = true
    · obtain ⟨kept, h1, h2, h3⟩ := cutLoop_kept n ls true result
      exact ⟨kept, by simp only [hs, if_true]; exact h1, h2.cons _, h3⟩
    · have hs' : isStartMarker n l = false := by simpa using hs
      by_cases he : isEndMarker n l = true
      · obtain ⟨kept, h1, h2, h3⟩ := cutLoop_kept n ls false result
        exact ⟨kept, by simp only [hs', he, Bool.false_eq_true, if_false, if_true]; exact h1,
          h2.cons _, h3⟩
      · have he' : isEndMarker n l = false := by simpa using he
        cases b with
        | true =>
          obtain ⟨kept, h1, h2, h3⟩ := cutLoop_kept n ls true (result ++ l ++ ['\n'])
          refine ⟨l :: kept, ?_, h2.cons₂ _, ?_⟩
          · simp only [hs', he', Bool.false_eq_true, if_false, if_true]
            rw [h1, linesText_cons]
            simp
          · intro x hx
            rcases List.mem_cons.mp hx with hx | hx
            · rw [hx]; exact ⟨hs', he'⟩
            · exact h3 x hx
        | false =>
          obtain ⟨kept, h1, h2, h3⟩ := cutLoop_kept n ls false result
          exact ⟨kept, by simp only [hs', he', Bool.false_eq_true, if_false]; exact h1,
            h2.cons _, h3⟩

theorem trimSpace_dropCR (l : List Char) : trimSpace (dropCR l) = trimSpace l := by
  unfold dropCR
  split
  · rename_i h
    have hEq : l.dropLast ++ ['\r'] = l := List.dropLast_append_getLast? '\r' (by simp [h])
    conv_rhs => rw [← hEq]
    rw [trimSpace_append_space _ '\r' (by decide)]
  · rfl

theorem isStartMarker_dropCR (n : Int) (l : List Char) :
    isStartMarker n (dropCR l) = isStartMarker n l := by
  unfold isStartMarker
  rw [trimSpace_dropCR]

theorem isEndMarker_dropCR (n : Int) (l : List Char) :
    isEndMarker n (dropCR l) = isEndMarker n l := by
  unfold isEndMarker
  rw [trimSpace_dropCR]

theorem cutPartsFromFile_eq (osOpen : List Char → Option (List Char))
    (filename content : List Char) (n : Int) (h : osOpen filename = some content) :
    cutPartsFromFile osOpen filename n =
      if scanErr content = true then none
      else some (cutLoop ("// S:".toList ++ formatInt n) ("// E:".toList ++ formatInt n) false
        [] (scanLines content)) := by
  unfold cutPartsFromFile
  rw [h]
  rfl

/-- Outside a region the loop writes nothing: without a start marker among the
scanned lines the text extracted from a file is empty. -/
theorem cutPartsFromFile_skip (osOpen : List Char → Option (List Char))
    (filename content : List Char) (n : Int) (hopen : osOpen filename = some content)
    (hstart : ∀ l ∈ scanLines content, isStartMarker n l = false) :
    cutPartsFromFile osOpen filename n = if scanErr content = true then none else some [] := by
  rw [cutPartsFromFile_eq osOpen filename content n hopen]
  have h := cutLoop_skip n (scanLines content) [] [] hstart
  rw [List.append_nil] at h
  rw [h]
  rfl

/-- The error of the scanner is the error of `cutPartsFromFile`. -/
theorem cutPartsFromFile_error (osOpen : List Char → Option (List Char))
    (filename content : List Char) (n : Int) (hopen : osOpen filename = some content)
    (herr : scanErr content = true) : cutPartsFromFile osOpen filename n = none := by
  rw [cutPartsFromFile_eq osOpen filename content n hopen, if_pos herr]

theorem trimSpace_longLine : trimSpace longLine = longLine := by
  have hdrop : longLine.dropWhile isSpace = longLine := by
    rw [longLine_eq_cons]
    rfl
  have hrev : longLine.reverse = longLine := List.reverse_replicate _ _
  unfold trimSpace
  rw [hdrop, hrev, hdrop, hrev]

theorem isEndMarker_longLine : isEndMarker 1 longLine = false := by
  unfold isEndMarker
  rw [trimSpace_longLine]
  apply decide_eq_false
  intro h
  have hh := congrArg List.head? h
  rw [longLine_eq_cons, List.filter_cons_of_pos (by decide)] at hh
  revert hh
  decide

/-- C13: when no line of a readable file is a start marker for `n`, the text
`cutPartsFromFile` returns is empty: the empty text alone when the scanner ends
without error, which it does when every line fits its buffer, and the empty text
beside the error otherwise. -/
theorem cutPartsFromFile_no_start (osOpen : List Char → Option (List Char))
    (filename content : List Char) (n : Int) (hopen : osOpen filename = some content)
    (hstart : ∀ l ∈ textLines content, isStartMarker n l = false) :
    (cutPartsFromFile osOpen filename n).getD [] = [] ∧
      cutPartsFromFile osOpen filename n = (if scanErr content = true then none else some []) ∧
      (FitsScanner content → cutPartsFromFile osOpen filename n = some []) := by
  have hcut : cutPartsFromFile osOpen filename n =
      (if scanErr content = true then none else some []) := by
    rw [cutPartsFromFile_eq osOpen filename content n hopen]
    have h := cutLoop_skip n (scanLines content) [] []
      (fun l hl => hstart l ((scanLines_initial content).subset hl))
    rw [List.append_nil] at h
    rw [h]
    rfl
  refine ⟨?_, hcut, ?_⟩
  · rw [hcut]
    split_ifs <;> rfl
  · intro hfit
    rw [hcut, scanErr_eq_false content hfit]
    rfl

theorem cutPartsFromFile_no_start_witness :
    snippetSources "a.go".toList =
        some "package a\n  // S:1\nfunc f() \x7b\n      x := 1\n\x7d\n// E:1\nrest\n".toList ∧
      (∀ l ∈ textLines "package a\n  // S:1\nfunc f() \x7b\n      x := 1\n\x7d\n// E:1\nrest\n".toList,
        isStartMarker 2 l = false) ∧
      (cutPartsFromFile snippetSources "a.go".toList 2).getD [] = [] ∧
      cutPartsFromFile snippetSources "a.go".toList 2 = some [] :=
  ⟨by decide, by decide,
    (cutPartsFromFile_no_start snippetSources "a.go".toList
      "package a\n  // S:1\nfunc f() \x7b\n      x := 1\n\x7d\n// E:1\nrest\n".toList 2
      (by decide) (by decide)).1,
    (cutPartsFromFile_no_start snippetSources "a.go".toList
      "package a\n  // S:1\nfunc f() \x7b\n      x := 1\n\x7d\n// E:1\nrest\n".toList 2
      (by decide) (by decide)).2.2 (by decide)⟩

/-- C14 as stated fails.  In `dup.go` the second start marker follows the first
and no end marker follows, yet the result lacks that second marker line.  In a
file whose start marker is followed by a line of 65536 bytes, which is no end
marker, the scanner fails and no line is returned. -/
theorem cutPartsFromFile_repeated_start :
    textLines "// S:1\na\n// S:1\nb\n".toList =
        ["// S:1".toList, "a".toList, "// S:1".toList, "b".toList] ∧
      cutPartsFromFile snippetSources "dup.go".toList 1 = some "a\nb\n".toList ∧
      cutPartsFromFile snippetSources "dup.go".toList 1 ≠
        some (linesText ["a".toList, "// S:1".toList, "b".toList]) ∧
      textLines ("// S:1\n".toList ++ (longLine ++ "\n".toList)) = ["// S:1".toList, longLine] ∧
      isStartMarker 1 "// S:1".toList = true ∧ isEndMarker 1 longLine = false ∧
      cutPartsFromFile (fun _ => some ("// S:1\n".toList ++ (longLine ++ "\n".toList)))
        "long.go".toList 1 = none := by
  have h := scanLines_longLine [] ["// S:1".toList] (by decide) (by decide)
  have htext : "// S:1\n".toList ++ (longLine ++ "\n".toList) =
      linesText ["// S:1".toList] ++ (longLine ++ '\n' :: []) := rfl
  refine ⟨by decide, by decide, by decide, ?_, by decide, isEndMarker_longLine, ?_⟩
  · rw [htext, h.2.2]
    rfl
  · refine cutPartsFromFile_error _ _ _ 1 rfl ?_
    rw [htext]
    exact h.2.1

/-- C14, amended: when the lines of a readable file are all shorter than the
buffer of the scanner and are `pre`, a start marker for `n`, and `post`, with no
start marker in `pre` and no end marker in `post`, `cutPartsFromFile` returns the
lines of `post` that are not start markers, in order, each followed by a line
feed. -/
theorem cutPartsFromFile_no_end (osOpen : List Char → Option (List Char))
    (filename content : List Char) (n : Int) (pre post : List (List Char)) (s : List Char)
    (hopen : osOpen filename = some content) (hfit : FitsScanner content)
    (hlines : textLines content = pre ++ s :: post)
    (hpre : ∀ l ∈ pre, isStartMarker n l = false) (hs : isStartMarker n s = true)
    (hpost : ∀ l ∈ post, isEndMarker n l = false) :
    cutPartsFromFile osOpen filename n =
      some (linesText (post.filter (fun l => !isStartMarker n l))) := by
  rw [cutPartsFromFile_eq osOpen filename content n hopen, scanErr_eq_false content hfit,
    scanLines_eq_textLines content hfit, hlines, cutLoop_skip n pre _ [] hpre, cutLoop_cons]
  simp only [hs, if_true]
  rw [cutLoop_between n post [] hpost]
  rfl

theorem cutPartsFromFile_no_end_witness :
    FitsScanner "intro\n//S:3\nx\n // S:3 \ny\r\n".toList ∧
      textLines "intro\n//S:3\nx\n // S:3 \ny\r\n".toList =
        ["intro".toList] ++ "//S:3".toList :: ["x".toList, " // S:3 ".toList, "y".toList] ∧
      isStartMarker 3 "//S:3".toList = true ∧
      cutPartsFromFile snippetSources "open.go".toList 3 =
        some (linesText (["x".toList, " // S:3 ".toList, "y".toList].filter
          (fun l => !isStartMarker 3 l))) ∧
      linesText (["x".toList, " // S:3 ".toList, "y".toList].filter
          (fun l => !isStartMarker 3 l)) = "x\ny\n".toList :=
  ⟨by decide, by decide, by decide,
    cutPartsFromFile_no_end snippetSources "open.go".toList
      "intro\n//S:3\nx\n // S:3 \ny\r\n".toList 3 ["intro".toList]
      ["x".toList, " // S:3 ".toList, "y".toList] "//S:3".toList
      (by decide) (by decide) (by decide) (by decide) (by decide) (by decide),
    by decide⟩

/-- C15: the text `cutPartsFromFile` extracts for `n` has no line that is a start
or an end marker for `n`, and extracting `n` from a file holding that text gives
the empty text.  The lines of the extracted text fit the buffer of the scanner:
the second scan reads all of them. -/
theorem cutPartsFromFile_idempotent (osOpen osOpen' : List Char → Option (List Char))
    (filename filename' extracted : List Char) (n : Int)
    (h : cutPartsFromFile osOpen filename n = some extracted) :
    (∀ l ∈ scanLines extracted, isStartMarker n l = false ∧ isEndMarker n l = false) ∧
      (osOpen' filename' = some extracted →
        cutPartsFromFile osOpen' filename' n = some []) ∧
      scanLines extracted = textLines extracted := by
  have hkept : ∃ kept : List (List Char), linesText kept = extracted ∧
      (∀ l ∈ kept, '\n' ∉ l) ∧ (∀ l ∈ kept, utf8Len l < maxScanTokenSize) ∧
      ∀ l ∈ kept, isStartMarker n l = false ∧ isEndMarker n l = false := by
    cases hopen : osOpen filename with
    | none =>
      unfold cutPartsFromFile at h
      rw [hopen] at h
      cases h
    | some content =>
      rw [cutPartsFromFile_eq osOpen filename content n hopen] at h
      split_ifs at h
      obtain ⟨kept, hk, hsub, hmark⟩ := cutLoop_kept n (scanLines content) false []
      rw [hk, List.nil_append, Option.some.injEq] at h
      exact ⟨kept, h, fun l hl => scanLines_no_newline content l (hsub.subset hl),
        fun l hl => scanLines_short content l (hsub.subset hl), hmark⟩
  obtain ⟨kept, hk, hnl, hshort, hmark⟩ := hkept
  have hfit : FitsScanner extracted := hk ▸ fitsScanner_linesText kept hnl hshort
  have hlines : ∀ l ∈ scanLines extracted,
      isStartMarker n l = false ∧ isEndMarker n l = false := by
    rw [← hk, scanLines_linesText kept hnl hshort]
    intro l hl
    obtain ⟨x, hx, rfl⟩ := List.mem_map.mp hl
    rw [isStartMarker_dropCR, isEndMarker_dropCR]
    exact hmark x hx
  refine ⟨hlines, fun hopen' => ?_, scanLines_eq_textLines extracted hfit⟩
  rw [cutPartsFromFile_skip osOpen' filename' extracted n hopen' (fun l hl => (hlines l hl).1),
    scanErr_eq_false extracted hfit]
  rfl

theorem cutPartsFromFile_idempotent_witness :
    cutPartsFromFile snippetSources "a.go".toList 1 =
        some "func f() \x7b\n      x := 1\n\x7d\n".toList ∧
      (∀ l ∈ scanLines "func f() \x7b\n      x := 1\n\x7d\n".toList,
        isStartMarker 1 l = false ∧ isEndMarker 1 l = false) ∧
      cutPartsFromFile (fun _ => some "func f() \x7b\n      x := 1\n\x7d\n".toList) [] 1 = some [] :=
  ⟨by decide,
    (cutPartsFromFile_idempotent snippetSources
      (fun _ => some "func f() \x7b\n      x := 1\n\x7d\n".toList) "a.go".toList []
      "func f() \x7b\n      x := 1\n\x7d\n".toList 1 (by decide)).1,
    (cutPartsFromFile_idempotent snippetSources
      (fun _ => some "func f() \x7b\n      x := 1\n\x7d\n".toList) "a.go".toList []
      "func f() \x7b\n      x := 1\n\x7d\n".toList 1 (by decide)).2.1 rfl⟩

/-- C17 as stated fails: the line `//<tab>S:1` equals `//S:1` once every white
space character is removed, but `cutPartsFromFile` does not take it for the start
marker of 1 and extracts nothing from `tab.go`. -/
theorem matchMarker_tab_not_ignored :
    "//\tS:1".toList.filter (fun c => !isSpace c) = "//S:".toList ++ formatInt 1 ∧
      matchMarker (trimSpace "//\tS:1".toList) ("// S:".toList ++ formatInt 1) = false ∧
      cutPartsFromFile snippetSources "tab.go".toList 1 = some [] := by
  decide

/-- C17, amended: `cutPartsFromFile` treats a line as the start (resp. end) marker
for `n` exactly when the line, trimmed of the white space around it and with
every space character removed wherever it occurs, equals `//S:n` (resp.
`//E:n`); a start marker opens the region, an end marker closes it, and any
other line is kept exactly inside the region. -/
theorem matchMarker_spaces_only (n : Int) (line : List Char) :
    (matchMarker (trimSpace line) ("// S:".toList ++ formatInt n) = true ↔
        (trimSpace line).filter (fun c => c ≠ ' ') = "//S:".toList ++ formatInt n) ∧
      (matchMarker (trimSpace line) ("// E:".toList ++ formatInt n) = true ↔
        (trimSpace line).filter (fun c => c ≠ ' ') = "//E:".toList ++ formatInt n) ∧
      ∀ (b : Bool) (result : List Char) (rest : List (List Char)),
        cutLoop ("// S:".toList ++ formatInt n) ("// E:".toList ++ formatInt n) b result
            (line :: rest) =
          cutLoop ("// S:".toList ++ formatInt n) ("// E:".toList ++ formatInt n)
            (if (trimSpace line).filter (fun c => c ≠ ' ') = "//S:".toList ++ formatInt n then true
              else if (trimSpace line).filter (fun c => c ≠ ' ') = "//E:".toList ++ formatInt n
                then false
              else b)
            (if (trimSpace line).filter (fun c => c ≠ ' ') = "//S:".toList ++ formatInt n ∨
                (trimSpace line).filter (fun c => c ≠ ' ') = "//E:".toList ++ formatInt n ∨
                b = false then result
              else result ++ line ++ ['\n'])
            rest := by
  refine ⟨?_, ?_, ?_⟩
  · rw [matchMarker_start]
    simp [isStartMarker]
  · rw [matchMarker_end]
    simp [isEndMarker]
  · intro b result rest
    rw [cutLoop_cons]
    unfold isStartMarker isEndMarker
    simp only [decide_eq_true_eq]
    by_cases hs : (trimSpace line).filter (fun c => c ≠ ' ') = "//S:".toList ++ formatInt n
    · rw [if_pos hs, if_pos hs, if_pos (Or.inl hs)]
    · by_cases he : (trimSpace line).filter (fun c => c ≠ ' ') = "//E:".toList ++ formatInt n
      · rw [if_neg hs, if_pos he, if_neg hs, if_pos he, if_pos (Or.inr (Or.inl he))]
      · cases b with
        | true =>
          rw [if_neg hs, if_neg he, if_pos rfl, if_neg hs, if_neg he,
            if_neg (fun h => h.elim hs (fun h => h.elim he (fun h => Bool.noConfusion h)))]
        | false =>
          rw [if_neg hs, if_neg he, if_neg (fun h => Bool.noConfusion h), if_neg hs, if_neg he,
            if_pos (Or.inr (Or.inr rfl))]

/-! ## `normalizeIndentation` -/

theorem stringsRepeat_space (k : Nat) : stringsRepeat [' '] k = List.replicate k ' ' := by
  unfold stringsRepeat
  induction k with
  | zero => rfl
  | succ k ih => rw [List.replicate_succ, List.flatten_cons, ih]; rfl

theorem indent_width (level : Int) : (max (level * 2) 0).toNat = (max level 0).toNat * 2 := by
  omega

/-- The loop of `normalizeIndentation` writes each trimmed line at its depth. -/
theorem normalizeLoop_eq :
    ∀ (lines : List (List Char)) (level : Int),
      normalizeLoop level lines =
        List.zipWith indentedLine (lines.map trimSpace) (indentLevels level (lines.map trimSpace))
  | [], _ => rfl
  | l :: ls, level => by
    rw [normalizeLoop]
    simp only [List.map_cons, indentLevels, List.zipWith_cons_cons]
    rw [normalizeLoop_eq ls, stringsRepeat_space, indent_width]
    rfl

theorem indentLevels_length :
    ∀ (ts : List (List Char)) (level : Int), (indentLevels level ts).length = ts.length
  | [], _ => rfl
  | t :: ts, level => by
    rw [indentLevels]
    simp only [List.length_cons]
    rw [indentLevels_length ts]

/-- C18: `normalizeIndentation` depends on the trimmed lines only: two code
blocks whose lines, split at line feeds, agree after trimming give the same text;
the text is the trimmed lines, each behind `max(level, 0) * 2` spaces with
`level` the brace/paren depth computed from the trimmed lines, joined by line
feeds. -/
theorem normalizeIndentation_trimmed (code₁ code₂ : List Char) :
    ((splitNewline code₁).map trimSpace = (splitNewline code₂).map trimSpace →
        normalizeIndentation code₁ = normalizeIndentation code₂) ∧
      normalizeIndentation code₁ =
        stringsJoin
          (List.zipWith indentedLine ((splitNewline code₁).map trimSpace)
            (indentLevels 0 ((splitNewline code₁).map trimSpace))) ['\n'] ∧
      (indentLevels 0 ((splitNewline code₁).map trimSpace)).length =
        ((splitNewline code₁).map trimSpace).length ∧
      (∀ (t : List Char) (level : Int),
        indentedLine t level = List.replicate ((max level 0).toNat * 2) ' ' ++ t) ∧
      normalizeIndentation "func f() \x7b\n\t\tif (\n x\n   )\n  \x7d\n\x7d".toList =
        "func f() \x7b\n  if (\n    x\n  )\n\x7d\n\x7d".toList := by
  refine ⟨?_, ?_, indentLevels_length _ _, fun _ _ => rfl, by decide⟩
  · intro h
    unfold normalizeIndentation
    rw [normalizeLoop_eq, normalizeLoop_eq, h]
  · unfold normalizeIndentation
    rw [normalizeLoop_eq]

/-! ## `InsertSourceCode` -/

theorem takeWhile_append_stop (p : Char → Bool) (c : Char) (r : List Char) (hc : p c = false) :
    ∀ a : List Char, (∀ x ∈ a, p x = true) →
      (a ++ c :: r).takeWhile p = a ∧ (a ++ c :: r).dropWhile p = c :: r
  | [], _ => by simp [List.takeWhile_cons, List.dropWhile_cons, hc]
  | x :: xs, h => by
    have hx : p x = true := h x (List.mem_cons_self _ _)
    have ih := takeWhile_append_stop p c r hc xs (fun y hy => h y (List.mem_cons_of_mem _ hy))
    simp only [List.cons_append, List.takeWhile_cons, List.dropWhile_cons, hx, if_true]
    exact ⟨by rw [ih.1], ih.2⟩

/-- The text of a reference: `![](`, a file name, a comma, white space, a number
and `)`. -/
theorem matchReference_reference (filename spaces digits post : List Char)
    (hname : filename ≠ []) (hcomma : ',' ∉ filename)
    (hspaces : ∀ c ∈ spaces, isReSpace c = true)
    (hdigits : digits ≠ []) (hdig : ∀ c ∈ digits, c.isDigit = true) :
    matchReference ("![](".toList ++ filename ++ ',' :: spaces ++ digits ++ ')' :: post) =
      some (filename, digits,
        ("![](".toList ++ filename ++ ',' :: spaces ++ digits ++ [')']).length) := by
  have h1 := takeWhile_append_stop (fun c => c ≠ ',') ',' (spaces ++ digits ++ ')' :: post)
    (by decide) filename (fun x hx => by
      have : x ≠ ',' := fun e => hcomma (e ▸ hx)
      simpa using this)
  obtain ⟨d, ds, rfl⟩ : ∃ d ds, digits = d :: ds := by
    cases digits with
    | nil => exact absurd rfl hdigits
    | cons d ds => exact ⟨d, ds, rfl⟩
  have hd : d.isDigit = true := hdig d (List.mem_cons_self _ _)
  have hdsp : isReSpace d = false := by
    cases hsp : isReSpace d with
    | false => rfl
    | true =>
      simp only [isReSpace, Bool.or_eq_true, decide_eq_true_eq] at hsp
      rcases hsp with (((h | h) | h) | h) | h <;> (rw [h] at hd; revert hd; decide)
  have h2 := takeWhile_append_stop isReSpace d (ds ++ ')' :: post) hdsp spaces hspaces
  have h3 := takeWhile_append_stop Char.isDigit ')' post (by decide) (d :: ds) hdig
  have hshape : "![](".toList ++ filename ++ ',' :: spaces ++ (d :: ds) ++ ')' :: post =
      '!' :: '[' :: ']' :: '(' :: (filename ++ ',' :: (spaces ++ (d :: ds) ++ ')' :: post)) := by
    simp
  rw [hshape, matchReference]
  simp only [h1.1, h1.2]
  have hrest : spaces ++ (d :: ds) ++ ')' :: post = spaces ++ d :: (ds ++ ')' :: post) := by
    simp
  rw [hrest]
  simp only [h2.1, h2.2]
  have hrest' : d :: (ds ++ ')' :: post) = (d :: ds) ++ ')' :: post := by simp
  rw [hrest']
  simp only [h3.1, h3.2]
  simp [hname]
  omega

theorem matchReference_head_ne (c : Char) (cs : List Char) (hc : c ≠ '!') :
    matchReference (c :: cs) = none := by
  unfold matchReference
  split
  · rename_i heq
    simp only [List.cons.injEq] at heq
    exact absurd heq.1 hc
  · rfl

theorem replaceAllReferences_pre (osOpen : List Char → Option (List Char))
    (rtx : RenderContext) (rest : List Char) :
    ∀ pre : List Char, (∀ b ∈ pre.tails, b ≠ [] → matchReference (b ++ rest) = none) →
      replaceAllReferences osOpen rtx 0 (pre ++ rest) =
        pre ++ replaceAllReferences osOpen rtx 0 rest
  | [], _ => rfl
  | c :: cs, h => by
    have hm : matchReference (c :: (cs ++ rest)) = none :=
      h (c :: cs) (List.mem_cons_self _ _) (List.cons_ne_nil _ _)
    rw [List.cons_append, replaceAllReferences, hm]
    simp only
    rw [replaceAllReferences_pre osOpen rtx rest cs (fun b hb => h b (List.mem_cons_of_mem _ hb))]
    rfl

theorem replaceAllReferences_skip (osOpen : List Char → Option (List Char))
    (rtx : RenderContext) (b : List Char) :
    ∀ a : List Char,
      replaceAllReferences osOpen rtx a.length (a ++ b) = replaceAllReferences osOpen rtx 0 b
  | [] => rfl
  | x :: xs => by
    rw [List.length_cons, List.cons_append]
    cases hb : xs ++ b with
    | nil =>
      have hxs : xs = [] := (List.append_eq_nil.mp hb).1
      have hb' : b = [] := (List.append_eq_nil.mp hb).2
      subst hxs hb'
      rfl
    | cons y ys =>
      rw [replaceAllReferences, ← hb]
      exact replaceAllReferences_skip osOpen rtx b xs

/-- `ReplaceAllStringFunc` on a body in which no match of the pattern starts
before a reference: the text before it is copied, the reference is handed to
`replacer`, and the scan goes on behind the reference. -/
theorem InsertSourceCode_reference (osOpen : List Char → Option (List Char))
    (rtx : RenderContext) (pre post filename spaces digits : List Char)
    (hpre : ∀ b ∈ pre.tails, b ≠ [] →
      matchReference
        (b ++ ("![](".toList ++ filename ++ ',' :: spaces ++ digits ++ [')'] ++ post)) = none)
    (hname : filename ≠ []) (hcomma : ',' ∉ filename)
    (hspaces : ∀ c ∈ spaces, isReSpace c = true)
    (hdigits : digits ≠ []) (hdig : ∀ c ∈ digits, c.isDigit = true) :
    InsertSourceCode osOpen rtx
        (pre ++ ("![](".toList ++ filename ++ ',' :: spaces ++ digits ++ [')']) ++ post) =
      pre ++
        replacer osOpen rtx ("![](".toList ++ filename ++ ',' :: spaces ++ digits ++ [')'])
          filename digits ++
        InsertSourceCode osOpen rtx post := by
  unfold InsertSourceCode
  rw [List.append_assoc, replaceAllReferences_pre osOpen rtx _ pre hpre]
  refine (congrArg (fun t => pre ++ t) ?_).trans (List.append_assoc _ _ _).symm
  have hm := matchReference_reference filename spaces digits post hname hcomma hspaces hdigits
    hdig
  have hshape : "![](".toList ++ filename ++ ',' :: spaces ++ digits ++ [')'] ++ post =
      "![](".toList ++ filename ++ ',' :: spaces ++ digits ++ ')' :: post := by simp
  obtain ⟨tl, htl⟩ : ∃ tl, "![](".toList ++ filename ++ ',' :: spaces ++ digits ++ [')'] =
      '!' :: tl := ⟨_, rfl⟩
  rw [hshape] at *
  have hshape' : "![](".toList ++ filename ++ ',' :: spaces ++ digits ++ ')' :: post =
      '!' :: (tl ++ post) := by
    rw [← List.cons_append, ← htl]
    simp
  rw [hshape'] at hm ⊢
  rw [replaceAllReferences, hm]
  simp only
  rw [htl, ← List.cons_append, List.take_left' rfl]
  congr 1
  simp only [List.length_cons, Nat.add_sub_cancel]
  exact replaceAllReferences_skip osOpen rtx post tl

/-- C16 as stated fails: `a.go` can be read and has no start marker for 2, yet
the reference `![](a.go, 2)` is replaced by an empty code block and an
attribution line. -/
theorem InsertSourceCode_missing_marker_replaced :
    cutPartsFromFile snippetSources "a.go".toList 2 = some [] ∧
      InsertSourceCode snippetSources exampleContext "see ![](a.go, 2) ok".toList =
        "see ```go\n```\nFrom [a.go](a.go) ok".toList ∧
      InsertSourceCode snippetSources exampleContext "see ![](a.go, 2) ok".toList ≠
        "see ![](a.go, 2) ok".toList := by
  decide

/-- C16, amended: in a body in which no match of the reference pattern starts
before a reference `![](path, N)`, `InsertSourceCode` replaces the reference by
an empty code block, followed by the attribution line when links are included,
when `N` fits `int` and the file can be opened, has only lines shorter than the
buffer of the scanner and has no start marker for `N`; it leaves the reference
verbatim when `N` does not fit `int`, when the file cannot be opened and when one
of its lines is too long for the scanner.  In all cases the text before the
reference is copied and the rest of the body is processed in the same way. -/
theorem InsertSourceCode_missing_marker (osOpen : List Char → Option (List Char))
    (rtx : RenderContext) (pre post filename spaces digits : List Char)
    (hfirst : ∀ b ∈ pre.tails, b ≠ [] →
      matchReference
        (b ++ ("![](".toList ++ filename ++ ',' :: spaces ++ digits ++ [')'] ++ post)) = none)
    (hname : filename ≠ []) (hcomma : ',' ∉ filename)
    (hspaces : ∀ c ∈ spaces, isReSpace c = true)
    (hdigits : digits ≠ []) (hdig : ∀ c ∈ digits, c.isDigit = true) :
    (∀ (n : Int) (content : List Char), atoi digits = some n →
        osOpen filename = some content → FitsScanner content →
        (∀ l ∈ textLines content, isStartMarker n l = false) →
        InsertSourceCode osOpen rtx
            (pre ++ ("![](".toList ++ filename ++ ',' :: spaces ++ digits ++ [')']) ++ post) =
          pre ++
            ("```go\n```\n".toList ++
              (if rtx.IncludeLinkToFile = true then
                "From [".toList ++ filename ++ "](".toList ++ filename ++ ")".toList
              else [])) ++
            InsertSourceCode osOpen rtx post) ∧
      (atoi digits = none ∨ osOpen filename = none ∨
          (∃ content : List Char, osOpen filename = some content ∧ ¬ FitsScanner content) →
        InsertSourceCode osOpen rtx
            (pre ++ ("![](".toList ++ filename ++ ',' :: spaces ++ digits ++ [')']) ++ post) =
          pre ++ ("![](".toList ++ filename ++ ',' :: spaces ++ digits ++ [')']) ++
            InsertSourceCode osOpen rtx post) := by
  have href := InsertSourceCode_reference osOpen rtx pre post filename spaces digits hfirst
    hname hcomma hspaces hdigits hdig
  constructor
  · intro n content hnum hopen hfit hstart
    rw [href]
    have hcut : cutPartsFromFile osOpen filename n = some [] := by
      rw [cutPartsFromFile_skip osOpen filename content n hopen
        (fun l hl => hstart l ((scanLines_initial content).subset hl)),
        scanErr_eq_false content hfit]
      rfl
    have hnorm : normalizeIndentation [] = [] := by decide
    unfold replacer
    rw [hnum]
    simp only
    rw [hcut]
    simp only
    rw [hnorm]
    by_cases hlink : rtx.IncludeLinkToFile = true
    · rw [if_pos hlink, if_pos hlink]
      simp
    · rw [if_neg hlink, if_neg hlink]
      simp
  · intro hcase
    rw [href]
    unfold replacer
    rcases hcase with hnum | hopen | ⟨content, hopen, hfit⟩
    · rw [hnum]
    · cases hnum : atoi digits with
      | none => rfl
      | some n =>
        have hcut : cutPartsFromFile osOpen filename n = none := by
          unfold cutPartsFromFile
          rw [hopen]
        simp only
        rw [hcut]
    · cases hnum : atoi digits with
      | none => rfl
      | some n =>
        have herr : scanErr content = true := by
          cases h : scanErr content with
          | true => rfl
          | false => exact absurd (fitsScanner_of_scanErr content h) hfit
        simp only
        rw [cutPartsFromFile_error osOpen filename content n hopen herr]

theorem InsertSourceCode_missing_marker_witness :
    InsertSourceCode snippetSources exampleContext
        ("see ".toList ++ ("![](".toList ++ "a.go".toList ++ ',' :: " ".toList ++ "2".toList ++ [')'])
          ++ " ok".toList) =
      "see ".toList ++
        ("```go\n```\n".toList ++
          (if exampleContext.IncludeLinkToFile = true then
            "From [".toList ++ "a.go".toList ++ "](".toList ++ "a.go".toList ++ ")".toList
          else [])) ++
        InsertSourceCode snippetSources exampleContext " ok".toList ∧
      InsertSourceCode snippetSources exampleContext
        ("see ".toList ++ ("![](".toList ++ "b.go".toList ++ ',' :: " ".toList ++ "2".toList ++ [')'])
          ++ " ok".toList) =
      "see ".toList ++ ("![](".toList ++ "b.go".toList ++ ',' :: " ".toList ++ "2".toList ++ [')']) ++
        InsertSourceCode snippetSources exampleContext " ok".toList ∧
      atoi "99999999999999999999".toList = none ∧
      InsertSourceCode snippetSources exampleContext
        ("see ".toList ++
          ("![](".toList ++ "a.go".toList ++ ',' :: " ".toList ++ "99999999999999999999".toList
            ++ [')']) ++ " ok".toList) =
      "see ".toList ++
        ("![](".toList ++ "a.go".toList ++ ',' :: " ".toList ++ "99999999999999999999".toList
          ++ [')']) ++ InsertSourceCode snippetSources exampleContext " ok".toList :=
  ⟨(InsertSourceCode_missing_marker snippetSources exampleContext "see ".toList " ok".toList
      "a.go".toList " ".toList "2".toList (by decide) (by decide) (by decide) (by decide)
      (by decide) (by decide)).1 2
      "package a\n  // S:1\nfunc f() \x7b\n      x := 1\n\x7d\n// E:1\nrest\n".toList (by decide)
      (by decide) (by decide) (by decide),
    (InsertSourceCode_missing_marker snippetSources exampleContext "see ".toList " ok".toList
      "b.go".toList " ".toList "2".toList (by decide) (by decide) (by decide) (by decide)
      (by decide) (by decide)).2 (Or.inr (Or.inl (by decide))),
    by decide,
    (InsertSourceCode_missing_marker snippetSources exampleContext "see ".toList " ok".toList
      "a.go".toList " ".toList "99999999999999999999".toList (by decide) (by decide) (by decide)
      (by decide) (by decide) (by decide)).2 (Or.inl (by decide))⟩

/-! ## Heading levels -/

theorem indexNameTree_visitedFiles :
    visitedFiles "book".toList 1 (some indexNameTree) =
      prepareEntries "book".toList 1
        [ .file "index.md".toList (some "---\ntitle: Top\n---\n".toList),
          .file "myindex.md".toList (some "---\ntitle: Mine\n---\n".toList),
          .file "other.md".toList (some "---\ntitle: Other\n---\n".toList) ] := by
  have hs : sortedListing "book".toList 1 indexNameTree =
      prepareEntries "book".toList 1
        [ .file "index.md".toList (some "---\ntitle: Top\n---\n".toList),
          .file "myindex.md".toList (some "---\ntitle: Mine\n---\n".toList),
          .file "other.md".toList (some "---\ntitle: Other\n---\n".toList) ] := by
    rfl
  rw [visitedFiles_some, hs]
  rfl

/-- C11, evaluated on a directory visited at depth 1 that holds `index.md`,
`myindex.md` and `other.md`: the document `myindex.md`, whose name is not
`index.md`, gets the level 0 in the TOC and no `#` in its heading, like
`index.md`; `other.md` gets the level 1 and one `#`. -/
theorem myindex_md_level :
    processDirectory asciiCase noSources exampleContext "book".toList 1 (some indexNameTree) =
      some { LeanPub := false, IncludeLinkToFile := true, WithToc := true,
             Out := " Top\n\n\n\n Mine\n\n\n\n# Other\n\n\n\n".toList,
             Toc := [{ Level := 0, Entry := "Top".toList, Id := "top".toList },
                     { Level := 0, Entry := "Mine".toList, Id := "mine".toList },
                     { Level := 1, Entry := "Other".toList, Id := "other".toList }] } := by
  rw [processDirectory_eq_foldl, indexNameTree_visitedFiles]
  decide

theorem hasSuffix_iff (s suffix : List Char) : hasSuffix s suffix = true ↔ suffix <:+ s := by
  unfold hasSuffix
  rw [List.suffix_iff_eq_drop]
  simp only [Bool.and_eq_true, decide_eq_true_eq]
  constructor
  · intro h
    exact h.2.symm
  · intro h
    refine ⟨?_, h.symm⟩
    have hlen := congrArg List.length h
    rw [List.length_drop] at hlen
    omega

theorem suffix_filepathJoin (suffix name : List Char) (hslash : '/' ∉ suffix) :
    ∀ dirPath : List Char, suffix <:+ filepathJoin dirPath name ↔ suffix <:+ name := by
  have hne : ∀ t : List Char, '/' ∈ t → suffix ≠ t := fun t ht e => hslash (e ▸ ht)
  intro dirPath
  unfold filepathJoin
  induction dirPath with
  | nil =>
    rw [List.nil_append, List.suffix_cons_iff]
    constructor
    · intro h
      rcases h with h | h
      · exact absurd h (hne _ (List.mem_cons_self _ _))
      · exact h
    · exact Or.inr
  | cons x xs ih =>
    rw [List.cons_append, List.suffix_cons_iff]
    constructor
    · intro h
      rcases h with h | h
      · exact absurd h (hne _ (List.mem_cons_of_mem _ (by simp)))
      · exact ih.mp h
    · intro h
      exact Or.inr (ih.mpr h)

/-- The heading level of a document depends on whether its name ends in
`index.md`: the path of an entry ends in `index.md` exactly when its name does. -/
theorem index_suffix_of_name (dirPath name : List Char) :
    hasSuffix (filepathJoin dirPath name) "index.md".toList =
      hasSuffix name "index.md".toList := by
  have h := suffix_filepathJoin "index.md".toList name (by decide) dirPath
  rw [← hasSuffix_iff, ← hasSuffix_iff] at h
  cases h1 : hasSuffix (filepathJoin dirPath name) "index.md".toList <;>
    cases h2 : hasSuffix name "index.md".toList <;> simp_all

/-! ## Counting list tags -/

theorem occurrences_append_le (pat : List Char) :
    ∀ s t : List Char, occurrences pat s ≤ occurrences pat (s ++ t)
  | [], _ => by simp [occurrences]
  | c :: cs, t => by
    rw [List.cons_append, occurrences, occurrences]
    have ih := occurrences_append_le pat cs t
    by_cases h : pat.isPrefixOf (c :: cs) = true
    · have h' : pat.isPrefixOf (c :: (cs ++ t)) = true := by
        rw [List.isPrefixOf_iff_prefix] at h ⊢
        exact h.trans (List.prefix_append (c :: cs) t)
      rw [if_pos h, if_pos h']
      omega
    · rw [if_neg h]
      omega

/-- A prefix has no more occurrences than the whole text. -/
theorem occurrences_prefix_le (pat p s : List Char) (h : p <+: s) :
    occurrences pat p ≤ occurrences pat s := by
  obtain ⟨t, rfl⟩ := h
  exact occurrences_append_le pat p t

theorem isPrefixOf_append_cons (c : Char) (r : List Char) :
    ∀ ps xs : List Char, ps.isPrefixOf (xs ++ c :: r) = true →
      ps.isPrefixOf xs = true ∨ c ∈ ps
  | [], _, _ => Or.inl (by simp [List.isPrefixOf])
  | q :: qs, [], h => by
    simp only [List.nil_append, List.isPrefixOf, Bool.and_eq_true, beq_iff_eq] at h
    exact Or.inr (h.1 ▸ List.mem_cons_self _ _)
  | q :: qs, y :: ys, h => by
    simp only [List.cons_append, List.isPrefixOf, Bool.and_eq_true, beq_iff_eq] at h
    rcases isPrefixOf_append_cons c r qs ys h.2 with h' | h'
    · left
      simp only [List.isPrefixOf, Bool.and_eq_true, beq_iff_eq]
      exact ⟨h.1, h'⟩
    · exact Or.inr (List.mem_cons_of_mem _ h')

/-- A text without occurrence of `p :: ps`, put before a text that starts with a
character foreign to `ps`, adds no occurrence. -/
theorem occurrences_free_append (p : Char) (ps : List Char) (c : Char) (r : List Char)
    (hc : c ∉ ps) :
    ∀ s : List Char, occurrences (p :: ps) s = 0 →
      occurrences (p :: ps) (s ++ c :: r) = occurrences (p :: ps) (c :: r)
  | [], _ => rfl
  | x :: xs, h => by
    rw [occurrences] at h
    have hx : (p :: ps).isPrefixOf (x :: xs) = false := by
      cases hpre : (p :: ps).isPrefixOf (x :: xs) with
      | false => rfl
      | true => rw [hpre] at h; simp at h
    have hxs : occurrences (p :: ps) xs = 0 := by omega
    have hno : (p :: ps).isPrefixOf (x :: (xs ++ c :: r)) = false := by
      cases hpre : (p :: ps).isPrefixOf (x :: (xs ++ c :: r)) with
      | false => rfl
      | true =>
        exfalso
        simp only [List.isPrefixOf, Bool.and_eq_true, beq_iff_eq] at hpre
        rcases isPrefixOf_append_cons c r ps xs hpre.2 with h' | h'
        · have : (p :: ps).isPrefixOf (x :: xs) = true := by
            simp only [List.isPrefixOf, Bool.and_eq_true, beq_iff_eq]
            exact ⟨hpre.1, h'⟩
          rw [this] at hx
          cases hx
        · exact hc h'
    rw [List.cons_append, occurrences, hno, occurrences_free_append p ps c r hc xs hxs]
    simp

theorem occurrences_fixed (r : List Char) :
    (occurrences "<ul>".toList ("<ul>".toList ++ r) = 1 + occurrences "<ul>".toList r ∧
      occurrences "</ul>".toList ("<ul>".toList ++ r) = occurrences "</ul>".toList r ∧
      occurrences "<li>".toList ("<ul>".toList ++ r) = occurrences "<li>".toList r) ∧
    (occurrences "<ul>".toList ("</ul>".toList ++ r) = occurrences "<ul>".toList r ∧
      occurrences "</ul>".toList ("</ul>".toList ++ r) = 1 + occurrences "</ul>".toList r ∧
      occurrences "<li>".toList ("</ul>".toList ++ r) = occurrences "<li>".toList r) ∧
    (occurrences "<ul>".toList ("<li>".toList ++ r) = occurrences "<ul>".toList r ∧
      occurrences "</ul>".toList ("<li>".toList ++ r) = occurrences "</ul>".toList r ∧
      occurrences "<li>".toList ("<li>".toList ++ r) = 1 + occurrences "<li>".toList r) ∧
    (occurrences "<ul>".toList ("</li>".toList ++ r) = occurrences "<ul>".toList r ∧
      occurrences "</ul>".toList ("</li>".toList ++ r) = occurrences "</ul>".toList r ∧
      occurrences "<li>".toList ("</li>".toList ++ r) = occurrences "<li>".toList r) ∧
    (occurrences "<ul>".toList ("<li><a href=\"#".toList ++ r) = occurrences "<ul>".toList r ∧
      occurrences "</ul>".toList ("<li><a href=\"#".toList ++ r) =
        occurrences "</ul>".toList r ∧
      occurrences "<li>".toList ("<li><a href=\"#".toList ++ r) =
        1 + occurrences "<li>".toList r) ∧
    (occurrences "<ul>".toList ("\">".toList ++ r) = occurrences "<ul>".toList r ∧
      occurrences "</ul>".toList ("\">".toList ++ r) = occurrences "</ul>".toList r ∧
      occurrences "<li>".toList ("\">".toList ++ r) = occurrences "<li>".toList r) ∧
    (occurrences "<ul>".toList ("</a></li>".toList ++ r) = occurrences "<ul>".toList r ∧
      occurrences "</ul>".toList ("</a></li>".toList ++ r) = occurrences "</ul>".toList r ∧
      occurrences "<li>".toList ("</a></li>".toList ++ r) = occurrences "<li>".toList r) := by
  simp [occurrences, List.isPrefixOf]

theorem occurrences_tocItem_aux (p : Char) (ps : List Char) (w : Nat)
    (hq : '"' ∉ ps) (hl : '<' ∉ ps)
    (hLi : ∀ r, occurrences (p :: ps) ("<li>".toList ++ r) = w + occurrences (p :: ps) r)
    (hLiEnd : ∀ r, occurrences (p :: ps) ("</li>".toList ++ r) = occurrences (p :: ps) r)
    (hA : ∀ r, occurrences (p :: ps) ("<li><a href=\"#".toList ++ r) =
      w + occurrences (p :: ps) r)
    (hB : ∀ r, occurrences (p :: ps) ("\">".toList ++ r) = occurrences (p :: ps) r)
    (hE : ∀ r, occurrences (p :: ps) ("</a></li>".toList ++ r) = occurrences (p :: ps) r)
    (e : TocEntry) (hid : occurrences (p :: ps) e.Id = 0)
    (hlabel : occurrences (p :: ps) e.Entry = 0) (r : List Char) :
    occurrences (p :: ps) (tocItem e ++ r) = w + occurrences (p :: ps) r := by
  unfold tocItem
  split_ifs
  · rw [List.append_assoc, List.append_assoc, List.append_assoc, List.append_assoc, hA]
    have h1 : e.Id ++ ("\">".toList ++ (e.Entry ++ ("</a></li>".toList ++ r))) =
        e.Id ++ '"' :: ('>' :: (e.Entry ++ ("</a></li>".toList ++ r))) := rfl
    rw [h1, occurrences_free_append p ps '"' _ hq e.Id hid]
    have h2 : '"' :: ('>' :: (e.Entry ++ ("</a></li>".toList ++ r))) =
        "\">".toList ++ (e.Entry ++ ("</a></li>".toList ++ r)) := rfl
    rw [h2, hB]
    have h3 : e.Entry ++ ("</a></li>".toList ++ r) =
        e.Entry ++ '<' :: ("/a></li>".toList ++ r) := rfl
    rw [h3, occurrences_free_append p ps '<' _ hl e.Entry hlabel]
    have h4 : '<' :: ("/a></li>".toList ++ r) = "</a></li>".toList ++ r := rfl
    rw [h4, hE]
  · rw [List.append_assoc, List.append_assoc, hLi]
    have h3 : e.Entry ++ ("</li>".toList ++ r) = e.Entry ++ '<' :: ("/li>".toList ++ r) := rfl
    rw [h3, occurrences_free_append p ps '<' _ hl e.Entry hlabel]
    have h4 : '<' :: ("/li>".toList ++ r) = "</li>".toList ++ r := rfl
    rw [h4, hLiEnd]

/-- The item of an entry with tag-free label and id holds no `<ul>`, no `</ul>`
and one `<li>`, whatever follows it. -/
theorem occurrences_tocItem (e : TocEntry) (hid : ListTagFree e.Id)
    (hlabel : ListTagFree e.Entry) (r : List Char) :
    occurrences "<ul>".toList (tocItem e ++ r) = occurrences "<ul>".toList r ∧
      occurrences "</ul>".toList (tocItem e ++ r) = occurrences "</ul>".toList r ∧
      occurrences "<li>".toList (tocItem e ++ r) = 1 + occurrences "<li>".toList r := by
  refine ⟨?_, ?_, ?_⟩
  · have h := occurrences_tocItem_aux '<' "ul>".toList 0 (by decide) (by decide)
      (fun r => ((occurrences_fixed r).2.2.1.1).trans (Nat.zero_add _).symm)
      (fun r => (occurrences_fixed r).2.2.2.1.1)
      (fun r => ((occurrences_fixed r).2.2.2.2.1.1).trans (Nat.zero_add _).symm)
      (fun r => (occurrences_fixed r).2.2.2.2.2.1.1)
      (fun r => (occurrences_fixed r).2.2.2.2.2.2.1)
      e hid.1 hlabel.1 r
    rw [Nat.zero_add] at h
    exact h
  · have h := occurrences_tocItem_aux '<' "/ul>".toList 0 (by decide) (by decide)
      (fun r => ((occurrences_fixed r).2.2.1.2.1).trans (Nat.zero_add _).symm)
      (fun r => (occurrences_fixed r).2.2.2.1.2.1)
      (fun r => ((occurrences_fixed r).2.2.2.2.1.2.1).trans (Nat.zero_add _).symm)
      (fun r => (occurrences_fixed r).2.2.2.2.2.1.2.1)
      (fun r => (occurrences_fixed r).2.2.2.2.2.2.2.1)
      e hid.2.1 hlabel.2.1 r
    rw [Nat.zero_add] at h
    exact h
  · exact occurrences_tocItem_aux '<' "li>".toList 1 (by decide) (by decide)
      (fun r => (occurrences_fixed r).2.2.1.2.2)
      (fun r => (occurrences_fixed r).2.2.2.1.2.2)
      (fun r => (occurrences_fixed r).2.2.2.2.1.2.2)
      (fun r => (occurrences_fixed r).2.2.2.2.2.1.2.2)
      (fun r => (occurrences_fixed r).2.2.2.2.2.2.2.2)
      e hid.2.2.1 hlabel.2.2.1 r

theorem stringsRepeat_zero (s : List Char) : stringsRepeat s 0 = [] := rfl

theorem stringsRepeat_succ (s : List Char) (k : Nat) :
    stringsRepeat s (k + 1) = s ++ stringsRepeat s k := by
  unfold stringsRepeat
  rw [List.replicate_succ, List.flatten_cons]

theorem prefix_append_cases (p a s : List Char) (h : p <+: a ++ s) :
    p <+: a ∨ ∃ q, p = a ++ q ∧ q <+: s := by
  rcases List.prefix_or_prefix_of_prefix h (List.prefix_append a s) with h' | h'
  · exact Or.inl h'
  · obtain ⟨q, rfl⟩ := h'
    exact Or.inr ⟨q, rfl, (List.prefix_append_right_inj a).mp h⟩

theorem occurrences_nil (pat : List Char) : occurrences pat [] = 0 := rfl

theorem strictlyNested_nil : StrictlyNested 0 [] := by
  refine ⟨by simp [occurrences], ?_⟩
  intro p hp
  rw [List.prefix_nil.mp hp]
  simp [occurrences]

/-- A piece that opens `o` lists and closes `c`, and never closes more than `level`
lists beyond those it opened, may stand in front of a nested text. -/
theorem strictlyNested_prepend (a s : List Char) (level : Int) (o c : Nat)
    (hopen : ∀ r, occurrences "<ul>".toList (a ++ r) = o + occurrences "<ul>".toList r)
    (hclose : ∀ r, occurrences "</ul>".toList (a ++ r) = c + occurrences "</ul>".toList r)
    (hpre : ∀ p, p <+: a →
      (occurrences "</ul>".toList p : Int) ≤ level + occurrences "<ul>".toList p)
    (h : StrictlyNested (level + o - c) s) : StrictlyNested level (a ++ s) := by
  obtain ⟨hcount, hs⟩ := h
  refine ⟨by rw [hopen, hclose]; push_cast; omega, ?_⟩
  intro p hp
  rcases prefix_append_cases p a s hp with h' | ⟨q, rfl, hq⟩
  · exact hpre p h'
  · rw [hopen, hclose]
    have hq' := hs q hq
    push_cast
    omega

theorem strictlyNested_open (level : Int) (s : List Char) (hlevel : 0 ≤ level)
    (h : StrictlyNested (level + 1) s) : StrictlyNested level ("<ul>".toList ++ s) := by
  refine strictlyNested_prepend _ s level 1 0 (fun r => (occurrences_fixed r).1.1)
    (fun r => ((occurrences_fixed r).1.2.1).trans (Nat.zero_add _).symm) ?_
    (by simpa using h)
  intro p hp
  have h0 := occurrences_prefix_le "</ul>".toList p _ hp
  have hz : occurrences "</ul>".toList "<ul>".toList = 0 := by decide
  omega

theorem strictlyNested_close (level : Int) (s : List Char) (hlevel : 1 ≤ level)
    (h : StrictlyNested (level - 1) s) : StrictlyNested level ("</ul>".toList ++ s) := by
  refine strictlyNested_prepend _ s level 0 1
    (fun r => ((occurrences_fixed r).2.1.1).trans (Nat.zero_add _).symm)
    (fun r => (occurrences_fixed r).2.1.2.1) ?_
    (by simpa using h)
  intro p hp
  have h0 := occurrences_prefix_le "</ul>".toList p _ hp
  have hz : occurrences "</ul>".toList "</ul>".toList = 1 := by decide
  omega

theorem strictlyNested_item (level : Int) (s : List Char) (e : TocEntry) (hlevel : 0 ≤ level)
    (hid : ListTagFree e.Id) (hlabel : ListTagFree e.Entry)
    (h : StrictlyNested level s) : StrictlyNested level (tocItem e ++ s) := by
  refine strictlyNested_prepend _ s level 0 0
    (fun r => ((occurrences_tocItem e hid hlabel r).1).trans (Nat.zero_add _).symm)
    (fun r => ((occurrences_tocItem e hid hlabel r).2.1).trans (Nat.zero_add _).symm) ?_
    (by simpa using h)
  intro p hp
  have h0 := occurrences_prefix_le "</ul>".toList p _ hp
  have hz : occurrences "</ul>".toList (tocItem e) = 0 := by
    have := (occurrences_tocItem e hid hlabel []).2.1
    rwa [List.append_nil, occurrences_nil] at this
  omega

theorem strictlyNested_opens (k : Nat) : ∀ (level : Int) (s : List Char), 0 ≤ level →
    StrictlyNested (level + k) s → StrictlyNested level (stringsRepeat "<ul>".toList k ++ s) := by
  induction k with
  | zero =>
    intro level s _ h
    rw [stringsRepeat_zero, List.nil_append]
    simpa using h
  | succ k ih =>
    intro level s hlevel h
    rw [stringsRepeat_succ, List.append_assoc]
    refine strictlyNested_open level _ hlevel (ih (level + 1) s (by omega) ?_)
    have e : level + 1 + (k : Int) = level + ((k + 1 : Nat) : Int) := by push_cast; omega
    rw [e]
    exact h

theorem strictlyNested_closes (k : Nat) : ∀ (level : Int) (s : List Char), (k : Int) ≤ level →
    StrictlyNested (level - k) s → StrictlyNested level (stringsRepeat "</ul>".toList k ++ s) := by
  induction k with
  | zero =>
    intro level s _ h
    rw [stringsRepeat_zero, List.nil_append]
    simpa using h
  | succ k ih =>
    intro level s hlevel h
    rw [stringsRepeat_succ, List.append_assoc]
    have hk : ((k + 1 : Nat) : Int) = (k : Int) + 1 := by push_cast; rfl
    refine strictlyNested_close level _ (by omega) (ih (level - 1) s (by omega) ?_)
    have e : level - 1 - (k : Int) = level - ((k + 1 : Nat) : Int) := by omega
    rw [e]
    exact h

/-- The text rendered from `currentLevel` open lists on is nested below them. -/
theorem renderFrom_strictlyNested : ∀ (toc : List TocEntry) (currentLevel : Int),
    0 ≤ currentLevel →
    (∀ e ∈ toc, 0 ≤ e.Level ∧ ListTagFree e.Id ∧ ListTagFree e.Entry) →
    StrictlyNested currentLevel (renderFrom currentLevel toc) := by
  intro toc
  induction toc with
  | nil =>
    intro cur hcur _
    have h := strictlyNested_closes cur.toNat cur [] (by omega)
      (by rw [Int.toNat_of_nonneg hcur, sub_self]; exact strictlyNested_nil)
    rw [List.append_nil] at h
    exact h
  | cons e rest ih =>
    intro cur hcur hall
    obtain ⟨hlev, hid, hlabel⟩ := hall e (List.mem_cons_self _ _)
    have hrest := ih e.Level hlev (fun x hx => hall x (List.mem_cons_of_mem _ hx))
    have hitem := strictlyNested_item e.Level _ e hlev hid hlabel hrest
    show StrictlyNested cur (stringsRepeat "<ul>".toList (e.Level - cur).toNat ++
      stringsRepeat "</ul>".toList (cur - e.Level).toNat ++ tocItem e ++ renderFrom e.Level rest)
    rw [List.append_assoc, List.append_assoc]
    refine strictlyNested_opens _ cur _ hcur (strictlyNested_closes _ _ _ (by omega) ?_)
    have e2 : cur + ((e.Level - cur).toNat : Int) - ((cur - e.Level).toNat : Int) = e.Level := by
      omega
    rw [e2]
    exact hitem

theorem occurrences_opens (k : Nat) (r : List Char) :
    occurrences "<ul>".toList (stringsRepeat "<ul>".toList k ++ r) =
        k + occurrences "<ul>".toList r ∧
      occurrences "</ul>".toList (stringsRepeat "<ul>".toList k ++ r) =
        occurrences "</ul>".toList r ∧
      occurrences "<li>".toList (stringsRepeat "<ul>".toList k ++ r) =
        occurrences "<li>".toList r := by
  induction k with
  | zero =>
    rw [stringsRepeat_zero, List.nil_append]
    exact ⟨(Nat.zero_add _).symm, rfl, rfl⟩
  | succ k ih =>
    rw [stringsRepeat_succ, List.append_assoc]
    have hf := (occurrences_fixed (stringsRepeat "<ul>".toList k ++ r)).1
    refine ⟨?_, hf.2.1.trans ih.2.1, hf.2.2.trans ih.2.2⟩
    rw [hf.1, ih.1]
    omega

theorem occurrences_closes (k : Nat) (r : List Char) :
    occurrences "<ul>".toList (stringsRepeat "</ul>".toList k ++ r) =
        occurrences "<ul>".toList r ∧
      occurrences "</ul>".toList (stringsRepeat "</ul>".toList k ++ r) =
        k + occurrences "</ul>".toList r ∧
      occurrences "<li>".toList (stringsRepeat "</ul>".toList k ++ r) =
        occurrences "<li>".toList r := by
  induction k with
  | zero =>
    rw [stringsRepeat_zero, List.nil_append]
    exact ⟨rfl, (Nat.zero_add _).symm, rfl⟩
  | succ k ih =>
    rw [stringsRepeat_succ, List.append_assoc]
    have hf := (occurrences_fixed (stringsRepeat "</ul>".toList k ++ r)).2.1
    refine ⟨hf.1.trans ih.1, ?_, hf.2.2.trans ih.2.2⟩
    rw [hf.2.1, ih.2.1]
    omega

/-- The loop of `RenderTOC` appends to the text written so far, and what it
appends, closing tags included, is `renderFrom`. -/
theorem renderLoop_eq : ∀ (toc : List TocEntry) (sb : List Char) (currentLevel : Int),
    (renderLoop toc sb currentLevel).1 ++
        stringsRepeat "</ul>".toList (renderLoop toc sb currentLevel).2.toNat =
      sb ++ renderFrom currentLevel toc
  | [], _, _ => rfl
  | entry :: rest, sb, cur => by
    rw [renderLoop, renderLoop_eq rest]
    have h1 : min (max cur entry.Level) entry.Level = entry.Level := by omega
    have h2 : (max cur entry.Level - entry.Level).toNat = (cur - entry.Level).toNat := by omega
    rw [h1, h2, renderFrom]
    simp only [List.append_assoc]

theorem RenderTOC_eq (toc : List TocEntry) : RenderTOC toc = renderFrom 0 toc := by
  have h := renderLoop_eq toc [] 0
  rw [List.nil_append] at h
  exact h

/-- The numbers of list tags and of items in the rendered text. -/
theorem occurrences_renderFrom : ∀ (toc : List TocEntry) (currentLevel : Int),
    (∀ e ∈ toc, ListTagFree e.Id ∧ ListTagFree e.Entry) →
    occurrences "<ul>".toList (renderFrom currentLevel toc) =
        opened currentLevel (toc.map fun e => e.Level) ∧
      occurrences "</ul>".toList (renderFrom currentLevel toc) =
        closed currentLevel (toc.map fun e => e.Level) ∧
      occurrences "<li>".toList (renderFrom currentLevel toc) = toc.length
  | [], cur, _ => by
    have h := occurrences_closes cur.toNat []
    rw [List.append_nil] at h
    exact ⟨h.1, h.2.1, h.2.2⟩
  | e :: rest, cur, hall => by
    obtain ⟨hid, hlabel⟩ := hall e (List.mem_cons_self _ _)
    have ih := occurrences_renderFrom rest e.Level
      (fun x hx => hall x (List.mem_cons_of_mem _ hx))
    have hi := occurrences_tocItem e hid hlabel (renderFrom e.Level rest)
    have hc := occurrences_closes (cur - e.Level).toNat (tocItem e ++ renderFrom e.Level rest)
    have ho := occurrences_opens (e.Level - cur).toNat
      (stringsRepeat "</ul>".toList (cur - e.Level).toNat ++
        (tocItem e ++ renderFrom e.Level rest))
    rw [renderFrom, List.append_assoc, List.append_assoc, List.map_cons, opened, closed,
      List.length_cons]
    refine ⟨?_, ?_, ?_⟩
    · rw [ho.1, hc.1, hi.1, ih.1]
    · rw [ho.2.1, hc.2.1, hi.2.1, ih.2.1]
    · rw [ho.2.2, hc.2.2, hi.2.2, ih.2.2]
      omega

/-- The text rendered for `before ++ e :: after` is a text `pre` with one item
per entry of `before`, whose list tags lead from `currentLevel` to the level of
`e`, then the item of `e`, then the text rendered for `after`. -/
theorem renderFrom_split (e : TocEntry) (after : List TocEntry) :
    ∀ (before : List TocEntry) (currentLevel : Int),
    (∀ x ∈ before, ListTagFree x.Id ∧ ListTagFree x.Entry) →
    ∃ (pre : List Char) (o c : Nat),
      renderFrom currentLevel (before ++ e :: after) =
        pre ++ tocItem e ++ renderFrom e.Level after ∧
      (∀ r, occurrences "<ul>".toList (pre ++ r) = o + occurrences "<ul>".toList r) ∧
      (∀ r, occurrences "</ul>".toList (pre ++ r) = c + occurrences "</ul>".toList r) ∧
      (∀ r, occurrences "<li>".toList (pre ++ r) =
        before.length + occurrences "<li>".toList r) ∧
      currentLevel + o - c = e.Level
  | [], cur, _ => by
    refine ⟨stringsRepeat "<ul>".toList (e.Level - cur).toNat ++
      stringsRepeat "</ul>".toList (cur - e.Level).toNat,
      (e.Level - cur).toNat, (cur - e.Level).toNat, rfl, ?_, ?_, ?_, by omega⟩
    · intro r
      rw [List.append_assoc, (occurrences_opens _ _).1, (occurrences_closes _ _).1]
    · intro r
      rw [List.append_assoc, (occurrences_opens _ _).2.1, (occurrences_closes _ _).2.1]
    · intro r
      rw [List.append_assoc, (occurrences_opens _ _).2.2, (occurrences_closes _ _).2.2]
      exact (Nat.zero_add _).symm
  | x :: before, cur, hall => by
    obtain ⟨hid, hlabel⟩ := hall x (List.mem_cons_self _ _)
    obtain ⟨pre, o, c, heq, ho, hc, hi, hlev⟩ := renderFrom_split e after before x.Level
      (fun y hy => hall y (List.mem_cons_of_mem _ hy))
    refine ⟨stringsRepeat "<ul>".toList (x.Level - cur).toNat ++
      stringsRepeat "</ul>".toList (cur - x.Level).toNat ++ tocItem x ++ pre,
      (x.Level - cur).toNat + o, (cur - x.Level).toNat + c, ?_, ?_, ?_, ?_, by omega⟩
    · rw [List.cons_append, renderFrom, heq]
      simp only [List.append_assoc]
    · intro r
      rw [List.append_assoc, List.append_assoc, List.append_assoc, (occurrences_opens _ _).1,
        (occurrences_closes _ _).1, (occurrences_tocItem x hid hlabel _).1, ho]
      omega
    · intro r
      rw [List.append_assoc, List.append_assoc, List.append_assoc, (occurrences_opens _ _).2.1,
        (occurrences_closes _ _).2.1, (occurrences_tocItem x hid hlabel _).2.1, hc]
      omega
    · intro r
      rw [List.append_assoc, List.append_assoc, List.append_assoc, (occurrences_opens _ _).2.2,
        (occurrences_closes _ _).2.2, (occurrences_tocItem x hid hlabel _).2.2, hi,
        List.length_cons]
      omega

/-- C12: for entries with non-negative levels whose labels and ids hold no list
tag, the text returned by `RenderTOC` holds as many `<ul>` as `</ul>`, no prefix
of it holds more `</ul>` than `<ul>`, and for the levels 1, 2, 2, 1, 3 it holds
four of each. -/
theorem RenderTOC_strictly_nested (toc : List TocEntry)
    (h : ∀ e ∈ toc, 0 ≤ e.Level ∧ ListTagFree e.Id ∧ ListTagFree e.Entry) :
    occurrences "<ul>".toList (RenderTOC toc) = occurrences "</ul>".toList (RenderTOC toc) ∧
      (∀ p : List Char, p <+: RenderTOC toc →
        occurrences "</ul>".toList p ≤ occurrences "<ul>".toList p) ∧
      ((toc.map fun e => e.Level) = [1, 2, 2, 1, 3] →
        occurrences "<ul>".toList (RenderTOC toc) = 4 ∧
          occurrences "</ul>".toList (RenderTOC toc) = 4) := by
  rw [RenderTOC_eq]
  obtain ⟨hcount, hpre⟩ := renderFrom_strictlyNested toc 0 (le_refl 0) h
  have hocc := occurrences_renderFrom toc 0 (fun e he => (h e he).2)
  refine ⟨?_, ?_, ?_⟩
  · omega
  · intro p hp
    have := hpre p hp
    omega
  · intro hlevels
    rw [hocc.1, hocc.2.1, hlevels]
    exact ⟨by decide, by decide⟩

theorem RenderTOC_strictly_nested_witness :
    (∀ e ∈ sampleToc, 0 ≤ e.Level ∧ ListTagFree e.Id ∧ ListTagFree e.Entry) ∧
      (sampleToc.map fun e => e.Level) = [1, 2, 2, 1, 3] ∧
      RenderTOC sampleToc =
        ("<ul><li>a</li><ul><li><a href=\"#x\">b</a></li><li>c</li></ul><li>d</li>" ++
          "<ul><ul><li>e</li></ul></ul></ul>").toList ∧
      occurrences "<ul>".toList (RenderTOC sampleToc) = 4 ∧
      occurrences "</ul>".toList (RenderTOC sampleToc) = 4 :=
  ⟨by decide, by decide, by decide,
    (RenderTOC_strictly_nested sampleToc (by decide)).2.2 (by decide)⟩

/-- C19: for entries whose labels and ids hold no list tag, the text returned by
`RenderTOC` for `before ++ e :: after` is `pre ++ tocItem e ++ post`, where `pre`
holds one item per entry of `before` and `<ul>` tags exceeding its `</ul>` tags by
the level of `e`, `post` holds one item per entry of `after`, the whole text holds
one item per entry, and the item of `e` is a link to its id exactly when the id is
not empty. -/
theorem RenderTOC_item_depth (before after : List TocEntry) (e : TocEntry)
    (h : ∀ x ∈ before ++ e :: after, ListTagFree x.Id ∧ ListTagFree x.Entry) :
    (∃ pre post : List Char,
      RenderTOC (before ++ e :: after) = pre ++ tocItem e ++ post ∧
      occurrences "<li>".toList pre = before.length ∧
      occurrences "<li>".toList post = after.length ∧
      (occurrences "<ul>".toList pre : Int) - occurrences "</ul>".toList pre = e.Level) ∧
    occurrences "<li>".toList (RenderTOC (before ++ e :: after)) =
      (before ++ e :: after).length ∧
    (e.Id ≠ [] → tocItem e =
      "<li><a href=\"#".toList ++ e.Id ++ "\">".toList ++ e.Entry ++ "</a></li>".toList) ∧
    (e.Id = [] → tocItem e = "<li>".toList ++ e.Entry ++ "</li>".toList) := by
  rw [RenderTOC_eq]
  obtain ⟨pre, o, c, heq, ho, hc, hi, hlev⟩ := renderFrom_split e after before 0
    (fun x hx => h x (List.mem_append_left _ hx))
  have hpost := (occurrences_renderFrom after e.Level
    (fun x hx => h x (List.mem_append_right _ (List.mem_cons_of_mem _ hx)))).2.2
  have hall := (occurrences_renderFrom (before ++ e :: after) 0 h).2.2
  refine ⟨⟨pre, renderFrom e.Level after, heq, ?_, hpost, ?_⟩, hall, ?_, ?_⟩
  · have := hi []
    rwa [List.append_nil, occurrences_nil, Nat.add_zero] at this
  · have h1 := ho []
    have h2 := hc []
    rw [List.append_nil, occurrences_nil, Nat.add_zero] at h1 h2
    rw [h1, h2]
    omega
  · intro hne
    have hpos : 0 < e.Id.length := List.length_pos.mpr hne
    unfold tocItem
    rw [if_pos hpos]
  · intro hnil
    unfold tocItem
    rw [if_neg (by rw [hnil]; decide)]

theorem RenderTOC_item_depth_witness :
    (∀ x ∈ sampleToc, ListTagFree x.Id ∧ ListTagFree x.Entry) ∧
    (∃ pre post : List Char,
      RenderTOC sampleToc = pre ++ "<li>e</li>".toList ++ post ∧
      occurrences "<li>".toList pre = 4 ∧
      occurrences "<li>".toList post = 0 ∧
      (occurrences "<ul>".toList pre : Int) - occurrences "</ul>".toList pre = 3) :=
  ⟨by decide,
    (RenderTOC_item_depth
      [⟨1, "a".toList, []⟩, ⟨2, "b".toList, "x".toList⟩, ⟨2, "c".toList, []⟩,
        ⟨1, "d".toList, []⟩] [] ⟨3, "e".toList, []⟩ (by decide)).1⟩

end Eris
